import Mathlib

/-!
# Orientation filter of `ahrs.c` (RaspberryPilot)

A shallow embedding of `src/ahrs.c` as compiled (`MAHONY_AHRS` defined), over a
bit-level model of IEEE-754 binary32 arithmetic.

Modelling conventions:
* `float` is IEEE-754 binary32, every operation rounded to nearest, ties to
  even, with no excess precision and no fused multiply-add; a NaN result is the
  canonical quiet NaN `0x7fc00000`;
* `long` is 32 bits wide (the Raspberry Pi target), two's complement, `>>` on a
  negative `long` is an arithmetic shift;
* the fields of `struct timeval` are mathematical integers;
* `gettimeofday` is an input of `IMUupdate`: the clock reading `tv`;
* the file-scope variables `q0..q3`, `integralFBx..z`, `last_tv` form the
  explicit `State`; the caller's array `q[]` is passed in and returned.

The text of the three variants of `IMUupdate` is also given over an arbitrary
arithmetic (`FloatLit`): over `F32` it is the program in binary32 (for the
`MAHONY_AHRS` variant the functions above, see `IMUupdateOver_binary32`), over
`ℚ` it is the same text in exact arithmetic, with the function `invSqrt` a
parameter. The claims that state an algebraic identity between the values
computed and a closed formula are settled on the exact reading: in binary32
each operation rounds and such an identity holds up to the rounding errors.

The claims on the values that one call of the compiled variant stores and
returns are settled on the binary32 functions, with explicit tolerances: the
rounding error of every operation and the error of `invSqrt` are propagated
through the call (`Near`, `Within`, `Close`).
-/

namespace Ahrs

/-! ## IEEE-754 binary32 -/

/-- A binary32 value, given by its bit pattern. -/
structure F32 where
  bits : Nat
deriving DecidableEq, Repr

namespace F32

/-- Sign bit. -/
def sign (x : F32) : Bool := x.bits / 2 ^ 31 % 2 == 1

/-- Biased exponent field. -/
def expo (x : F32) : Nat := x.bits / 2 ^ 23 % 256

/-- Fraction field. -/
def frac (x : F32) : Nat := x.bits % 2 ^ 23

def isNaN (x : F32) : Bool := x.expo == 255 && x.frac != 0

def isInf (x : F32) : Bool := x.expo == 255 && x.frac == 0

def isZero (x : F32) : Bool := x.expo == 0 && x.frac == 0

def isFinite (x : F32) : Bool := x.expo != 255

/-- Integer significand of a finite value. -/
def sig (x : F32) : Nat := if x.expo = 0 then x.frac else 2 ^ 23 + x.frac

/-- Exponent of the unit in the last place: a finite `x` has magnitude
`sig x * 2 ^ qexp x`. -/
def qexp (x : F32) : Int := if x.expo = 0 then -149 else (x.expo : Int) - 150

def nan : F32 := ⟨0x7fc00000⟩

def inf (s : Bool) : F32 := ⟨(if s then 2 ^ 31 else 0) + 0x7f800000⟩

def zero (s : Bool) : F32 := ⟨if s then 2 ^ 31 else 0⟩

/-- The quotient `m / 2 ^ k` rounded to the nearest integer, ties to even. -/
def rne (m k : Nat) : Nat :=
  let d := m / 2 ^ k
  let r := m % 2 ^ k
  let h := 2 ^ (k - 1)
  if h < r ∨ (r = h ∧ d % 2 = 1) then d + 1 else d

/-- Number of binary digits of `m`, with `fuel` bounding the count. -/
def bitLenAux : Nat → Nat → Nat
  | 0, _ => 0
  | fuel + 1, m => if m = 0 then 0 else bitLenAux fuel (m / 2) + 1

/-- Number of binary digits of `m`. -/
def bitLen (m : Nat) : Nat := bitLenAux m m

/-- The binary32 nearest to `(-1)^s * m * 2^e` (ties to even), overflowing to
an infinity. -/
def round (s : Bool) (m : Nat) (e : Int) : F32 :=
  if m = 0 then zero s
  else
    let q : Int := max (e + (bitLen m : Nat) - 24) (-149)
    let M : Nat := if q ≤ e then m * 2 ^ (e - q).toNat else rne m (q - e).toNat
    let mag : Nat := (q + 149).toNat * 2 ^ 23 + M
    if 0x7f800000 ≤ mag then inf s
    else ⟨(if s then 2 ^ 31 else 0) + mag⟩

/-- Unary minus: flips the sign bit. -/
def neg (x : F32) : F32 :=
  ⟨if x.sign then x.bits - 2 ^ 31 else x.bits + 2 ^ 31⟩

def mul (a b : F32) : F32 :=
  if a.isNaN || b.isNaN then nan
  else if a.isInf || b.isInf then
    (if a.isZero || b.isZero then nan else inf (a.sign != b.sign))
  else round (a.sign != b.sign) (a.sig * b.sig) (a.qexp + b.qexp)

/-- Signed integer significand. -/
def ssig (x : F32) : Int := if x.sign then -(x.sig : Int) else (x.sig : Int)

def add (a b : F32) : F32 :=
  if a.isNaN || b.isNaN then nan
  else if a.isInf then (if b.isInf && (a.sign != b.sign) then nan else a)
  else if b.isInf then b
  else
    let e : Int := min a.qexp b.qexp
    let v : Int := a.ssig * 2 ^ (a.qexp - e).toNat + b.ssig * 2 ^ (b.qexp - e).toNat
    if v = 0 then zero (a.sign && b.sign)
    else round (decide (v < 0)) v.natAbs e

def sub (a b : F32) : F32 := add a (neg b)

/-- Conversion `(float) n` of an integer. -/
def ofInt (n : Int) : F32 := round (decide (n < 0)) n.natAbs 0

/-- The binary32 nearest to the positive rational `n / d` (`d > 0`): how a
decimal literal with suffix `f` is read. The quotient is taken with 40 extra
bits and a sticky bit. -/
def ofRatio (n d : Nat) : F32 :=
  let k : Nat := 64 + bitLen d
  let m := n * 2 ^ k / d
  let sticky := if n * 2 ^ k % d = 0 then 0 else 1
  round false (2 * m + sticky) (-(k : Int) - 1)

/-- C comparison `a == b`. -/
def eq (a b : F32) : Bool :=
  !a.isNaN && !b.isNaN && ((a.isZero && b.isZero) || a.bits % 2 ^ 32 == b.bits % 2 ^ 32)

/-- Order key of a non-NaN value. -/
def key (x : F32) : Int :=
  if x.sign then -((x.bits % 2 ^ 31 : Nat) : Int) else ((x.bits % 2 ^ 31 : Nat) : Int)

/-- C comparison `a > b`. -/
def gt (a b : F32) : Bool := !a.isNaN && !b.isNaN && decide (b.key < a.key)

instance : Add F32 := ⟨add⟩
instance : Sub F32 := ⟨sub⟩
instance : Mul F32 := ⟨mul⟩
instance : Neg F32 := ⟨neg⟩

end F32

/-- Literal `0.0f`. -/
def f0 : F32 := ⟨0⟩
/-- Literal `0.5f`. -/
def f0_5 : F32 := ⟨0x3f000000⟩
/-- Literal `1.5f`. -/
def f1_5 : F32 := ⟨0x3fc00000⟩
/-- Literal `2.0f`. -/
def f2 : F32 := ⟨0x40000000⟩
/-- Literal `0.05f`. -/
def f0_05 : F32 := ⟨0x3d4ccccd⟩
/-- Literal `0.000001f`. -/
def f1em6 : F32 := ⟨0x358637bd⟩

/-! ## The program -/

/-- `#define twoKpDef (2.0f * 0.5f)`. -/
def twoKpDef : F32 := f2 * f0_5

/-- `#define twoKiDef (2.0f * 0.05f)`. -/
def twoKiDef : F32 := f2 * f0_05

/-- The reading `*(long*) &y` of a float as a 32-bit signed integer. -/
def floatToLong (y : F32) : Int :=
  let b : Nat := y.bits % 2 ^ 32
  if b < 2 ^ 31 then (b : Int) else (b : Int) - 2 ^ 32

/-- The reading `*(float*) &i` of a 32-bit integer as a float. -/
def longToFloat (i : Int) : F32 := ⟨(i % 2 ^ 32).toNat⟩

/-- Fast inverse square root (`invSqrt`, lines 89-99). -/
def invSqrt (x : F32) : F32 :=
  let halfx := f0_5 * x
  let y := x
  let i := floatToLong y
  let i := 0x5f3759df - i / 2
  let y := longToFloat i
  let y := y * (f1_5 - (halfx * y * y))
  y

/-- A `struct timeval`. -/
structure Timeval where
  tv_sec : Int
  tv_usec : Int
deriving DecidableEq, Repr

/-- The file-scope variables of `ahrs.c`. -/
structure State where
  q0 : F32
  q1 : F32
  q2 : F32
  q3 : F32
  integralFBx : F32
  integralFBy : F32
  integralFBz : F32
  last_tv : Timeval
deriving DecidableEq, Repr

/-- The first four cells of the caller's array `q[]`. -/
structure QArr where
  c0 : F32
  c1 : F32
  c2 : F32
  c3 : F32
deriving DecidableEq, Repr

/-- The initial values of the file-scope variables (lines 51, 57, 58). -/
def initState : State :=
  { q0 := F32.ofInt 1, q1 := F32.ofInt 0, q2 := F32.ofInt 0, q3 := F32.ofInt 0,
    integralFBx := f0, integralFBy := f0, integralFBz := f0,
    last_tv := ⟨0, 0⟩ }

/-- Reset (`ahrsInit`, lines 72-77). -/
def ahrsInit (s : State) : State :=
  { s with q0 := F32.ofInt 1, q1 := F32.ofInt 0, q2 := F32.ofInt 0, q3 := F32.ofInt 0 }

/-- The elapsed time computed at lines 235-236. -/
def timeDiffOf (last_tv tv : Timeval) : F32 :=
  F32.ofInt (tv.tv_sec - last_tv.tv_sec)
    + F32.ofInt (tv.tv_usec - last_tv.tv_usec) * f1em6

/-- The values of the locals after the feedback block (lines 233-273):
the gyro rates, the accumulator and `timeDiff`. -/
structure Feedback where
  gx : F32
  gy : F32
  gz : F32
  integralFBx : F32
  integralFBy : F32
  integralFBz : F32
  timeDiff : F32
deriving DecidableEq, Repr

/-- Lines 225-273 of `IMUupdate` in the steady state, with the two gain macros
as parameters. -/
def feedback (twoKp twoKi : F32) (s : State) (gx gy gz ax ay az : F32) (tv : Timeval) :
    Feedback :=
  let timeDiff := f0
  if !(F32.eq ax f0 && F32.eq ay f0 && F32.eq az f0) then
    let timeDiff := timeDiffOf s.last_tv tv
    let recipNorm := invSqrt (ax * ax + ay * ay + az * az)
    let ax := ax * recipNorm
    let ay := ay * recipNorm
    let az := az * recipNorm
    let halfvx := s.q1 * s.q3 - s.q0 * s.q2
    let halfvy := s.q0 * s.q1 + s.q2 * s.q3
    let halfvz := s.q0 * s.q0 - f0_5 + s.q3 * s.q3
    let halfex := ay * halfvz - az * halfvy
    let halfey := az * halfvx - ax * halfvz
    let halfez := ax * halfvy - ay * halfvx
    if F32.gt twoKi f0 then
      let integralFBx := s.integralFBx + twoKi * halfex * timeDiff
      let integralFBy := s.integralFBy + twoKi * halfey * timeDiff
      let integralFBz := s.integralFBz + twoKi * halfez * timeDiff
      let gx := gx + integralFBx
      let gy := gy + integralFBy
      let gz := gz + integralFBz
      { gx := gx + twoKp * halfex, gy := gy + twoKp * halfey, gz := gz + twoKp * halfez,
        integralFBx := integralFBx, integralFBy := integralFBy, integralFBz := integralFBz,
        timeDiff := timeDiff }
    else
      { gx := gx + twoKp * halfex, gy := gy + twoKp * halfey, gz := gz + twoKp * halfez,
        integralFBx := f0, integralFBy := f0, integralFBz := f0,
        timeDiff := timeDiff }
  else
    { gx := gx, gy := gy, gz := gz,
      integralFBx := s.integralFBx, integralFBy := s.integralFBy,
      integralFBz := s.integralFBz, timeDiff := timeDiff }

/-- The quaternion after the integration of lines 276-285, before it is
normalised. -/
def integrate (s : State) (gx gy gz timeDiff : F32) : QArr :=
  let gx := gx * (f0_5 * timeDiff)
  let gy := gy * (f0_5 * timeDiff)
  let gz := gz * (f0_5 * timeDiff)
  let qa := s.q0
  let qb := s.q1
  let qc := s.q2
  { c0 := s.q0 + (-qb * gx - qc * gy - s.q3 * gz),
    c1 := s.q1 + (qa * gx + qc * gz - s.q3 * gy),
    c2 := s.q2 + (qa * gy - qb * gz + s.q3 * gx),
    c3 := s.q3 + (qa * gz + qb * gy - qc * gx) }

/-- Lines 288-292: the normalisation of the quaternion. -/
def normalise (p : QArr) : QArr :=
  let recipNorm := invSqrt (p.c0 * p.c0 + p.c1 * p.c1 + p.c2 * p.c2 + p.c3 * p.c3)
  { c0 := p.c0 * recipNorm, c1 := p.c1 * recipNorm,
    c2 := p.c2 * recipNorm, c3 := p.c3 * recipNorm }

/-- The steady-state body of `IMUupdate` (lines 231-297, executed when
`last_tv.tv_sec != 0`) followed by the recording of the timestamp (lines
300-301). -/
def steadyStep (twoKp twoKi : F32) (s : State) (gx gy gz ax ay az : F32)
    (tv : Timeval) : State × QArr :=
  let fb := feedback twoKp twoKi s gx gy gz ax ay az tv
  let n := normalise (integrate s fb.gx fb.gy fb.gz fb.timeDiff)
  ({ q0 := n.c0, q1 := n.c1, q2 := n.c2, q3 := n.c3,
     integralFBx := fb.integralFBx, integralFBy := fb.integralFBy,
     integralFBz := fb.integralFBz, last_tv := tv }, n)

/-- Function `IMUupdate` (lines 132-133, 219-301, the `MAHONY_AHRS` branch) with the
gain macros `twoKpDef`, `twoKiDef` as parameters and the clock reading `tv` of
`gettimeofday` as an input. Returns the new file-scope variables and the new
content of the caller's array. -/
def IMUupdateWith (twoKp twoKi : F32) (s : State) (gx gy gz ax ay az : F32)
    (tv : Timeval) (q : QArr) : State × QArr :=
  if s.last_tv.tv_sec ≠ 0 then
    steadyStep twoKp twoKi s gx gy gz ax ay az tv
  else
    ({ s with last_tv := tv }, q)

/-- Function `IMUupdate` as compiled. -/
def IMUupdate (s : State) (gx gy gz ax ay az : F32) (tv : Timeval) (q : QArr) :
    State × QArr :=
  IMUupdateWith twoKpDef twoKiDef s gx gy gz ax ay az tv q

/-- One call of `IMUupdate`: the sample and the clock reading. -/
structure Call where
  gx : F32
  gy : F32
  gz : F32
  ax : F32
  ay : F32
  az : F32
  tv : Timeval
deriving DecidableEq, Repr

/-- A sequence of `IMUupdate` calls, each writing into the same array `q[]`. -/
def runWith (twoKp twoKi : F32) : State × QArr → List Call → State × QArr
  | r, [] => r
  | r, c :: cs =>
    runWith twoKp twoKi (IMUupdateWith twoKp twoKi r.1 c.gx c.gy c.gz c.ax c.ay c.az c.tv r.2) cs

/-- Reference of the spec for a step without accelerometer correction: "pure gyro
integration" over the elapsed time `dt` between the stored and the current clock
reading, the normalisation of `q + 1/2 * dt * (q ⊗ (0, gx, gy, gz))`. -/
def pureGyroReference (s : State) (gx gy gz : F32) (tv : Timeval) : QArr :=
  normalise (integrate s gx gy gz (timeDiffOf s.last_tv tv))

/-- The float `1.0f`. -/
def f1 : F32 := ⟨0x3f800000⟩

/-- The identity quaternion `(1, 0, 0, 0)` in an array. -/
def identityQ : QArr := ⟨f1, f0, f0, f0⟩

/-- The stored quaternion of a state. -/
def State.quat (s : State) : QArr := ⟨s.q0, s.q1, s.q2, s.q3⟩

/-- A steady state: identity quaternion, empty accumulator, a timestamp of one
second recorded. -/
def steadyIdentity : State := { initState with last_tv := ⟨1, 0⟩ }

/-- The rational value of a finite binary32. -/
def F32.toRat (x : F32) : ℚ := (x.ssig : ℚ) * 2 ^ x.qexp

/-- The exact squared norm of a quaternion held in an array. -/
def QArr.normSq (p : QArr) : ℚ :=
  p.c0.toRat ^ 2 + p.c1.toRat ^ 2 + p.c2.toRat ^ 2 + p.c3.toRat ^ 2

/-- The sign bit as a summand of the bit pattern. -/
def F32.sbit (s : Bool) : Nat := if s then 2 ^ 31 else 0

/-- The sign as a rational factor. -/
def F32.sgn (s : Bool) : ℚ := if s then -1 else 1

/-- The halved estimate of the gravity direction computed at lines 245-247. -/
def halfv (s : State) : F32 × F32 × F32 :=
  (s.q1 * s.q3 - s.q0 * s.q2, s.q0 * s.q1 + s.q2 * s.q3, s.q0 * s.q0 - f0_5 + s.q3 * s.q3)

/-- One call of `IMUupdate` with accelerometer `(0,0,1)`, zero gyro rate and the
clock advanced by `dt` seconds since the recorded timestamp. -/
def staticStep (dt : Int) (s : State) : State :=
  (IMUupdate s f0 f0 f0 f0 f0 f1 ⟨s.last_tv.tv_sec + dt, s.last_tv.tv_usec⟩ identityQ).1

/-- Repeated static calls at the fixed time step `dt`. -/
def staticRun (dt : Int) : Nat → State → State
  | 0, s => s
  | n + 1, s => staticRun dt n (staticStep dt s)

/-- The filter variables other than the timestamp. -/
def State.vars (s : State) : QArr × F32 × F32 × F32 :=
  (s.quat, s.integralFBx, s.integralFBy, s.integralFBz)

/-- A steady state with the given quaternion, an empty accumulator and a
timestamp of one second. -/
def steadyAt (q : QArr) : State :=
  { q0 := q.c0, q1 := q.c1, q2 := q.c2, q3 := q.c3,
    integralFBx := f0, integralFBy := f0, integralFBz := f0, last_tv := ⟨1, 0⟩ }

/-- The inverted unit quaternion `(0,1,0,0)`: a rotation by 180 degrees about
the `x` axis. -/
def invertedQ : QArr := ⟨f0, f1, f0, f0⟩

/-- The unit quaternion `(1/2,1/2,1/2,1/2)`: its estimated gravity direction is
horizontal, `(0,1,0)`. -/
def halfQ : QArr := ⟨f0_5, f0_5, f0_5, f0_5⟩

/-- Half the smallest positive binary32: the rounding error bound in the
subnormal range. -/
def eta : ℚ := 2 ^ (-150 : Int)

/-- All four cells are finite. -/
def QArr.finite (p : QArr) : Bool :=
  p.c0.isFinite && p.c1.isFinite && p.c2.isFinite && p.c3.isFinite

/-- The quaternion after the integration of lines 276-285 of a steady-state
call of `IMUupdate`, before it is normalised. -/
def preNorm (s : State) (gx gy gz ax ay az : F32) (tv : Timeval) : QArr :=
  integrate s (feedback twoKpDef twoKiDef s gx gy gz ax ay az tv).gx
    (feedback twoKpDef twoKiDef s gx gy gz ax ay az tv).gy
    (feedback twoKpDef twoKiDef s gx gy gz ax ay az tv).gz
    (feedback twoKpDef twoKiDef s gx gy gz ax ay az tv).timeDiff

/-- The sum of squares computed at line 288. -/
def sumsq (p : QArr) : F32 := p.c0 * p.c0 + p.c1 * p.c1 + p.c2 * p.c2 + p.c3 * p.c3

/-- One cell of the interval certificate for the seed of `invSqrt`: on the
fraction interval `[a, b]` the product `(2^23 + f) * (c - f/2)^2` lies between
`0.93 * 2^k` and `1.07 * 2^k`. -/
def cellOK (c k a b : Nat) : Bool :=
  decide (93 * 2 ^ k ≤ 100 * ((2 ^ 23 + a) * (c - b / 2) ^ 2)) &&
  decide (100 * ((2 ^ 23 + b) * (c - a / 2) ^ 2) ≤ 107 * 2 ^ k)

/-- The certificate on the `n` cells of width `w` starting at `lo`. -/
def gridOK (c k lo w : Nat) : Nat → Bool
  | 0 => true
  | n + 1 => gridOK c k lo w n && cellOK c k (lo + n * w) (lo + (n + 1) * w)

/-! ### Scaling by a power of two -/

/-- The 24-bit significand that rounding gives to `m` in the normal range. -/
def Mnorm (m : Nat) : Nat :=
  if F32.bitLen m ≤ 24 then m * 2 ^ (24 - F32.bitLen m) else F32.rne m (F32.bitLen m - 24)

/-- `b` is `a` multiplied by `2^n` exactly: both are normal, with the same sign
and fraction, and the exponent field of `b` is the one of `a` plus `n`. -/
def ShiftN (n : Nat) (a b : F32) : Prop :=
  b.sign = a.sign ∧ b.frac = a.frac ∧ b.expo = a.expo + n ∧ 1 ≤ a.expo ∧ b.expo ≤ 254

/-- The exact product of `x` by `2^n`: the exponent field of a non-zero `x`
raised by `n`. -/
def scale2 (n : Nat) (x : F32) : F32 := if x.isZero then x else ⟨x.bits + n * 2 ^ 23⟩

/-- `ShiftN` between positive values, with a bound on the larger exponent. -/
def PosShift (n h : Nat) (u u' : F32) : Prop :=
  ShiftN n u u' ∧ u.sign = false ∧ u'.expo ≤ h

/-- Two runs agree on a non-negative intermediate value up to the factor `2^n`:
it is zero in both, or positive and shifted. -/
def Rel (n h : Nat) (u u' : F32) : Prop :=
  (u.isZero = true ∧ u' = u) ∨ PosShift n h u u'

/-- A component that power-of-two scaling by `2^n` treats exactly: a zero, or
a normal value of magnitude in `[2^-63, 2^54 / 2^n)`. -/
def okComp (n : Nat) (c : F32) : Prop :=
  c.isZero = true ∨ (64 ≤ c.expo ∧ c.expo + n ≤ 180)

/-! ### The error vector -/

/-- The halved error of lines 245-252: the cross product of the normalised
accelerometer reading `(ax, ay, az)` and the halved estimate of gravity. -/
def halfe (s : State) (ax ay az : F32) : F32 × F32 × F32 :=
  let halfvx := s.q1 * s.q3 - s.q0 * s.q2
  let halfvy := s.q0 * s.q1 + s.q2 * s.q3
  let halfvz := s.q0 * s.q0 - f0_5 + s.q3 * s.q3
  (ay * halfvz - az * halfvy, az * halfvx - ax * halfvz, ax * halfvy - ay * halfvx)

/-- The reciprocal norm of the accelerometer reading computed at line 239. -/
def accRecipNorm (ax ay az : F32) : F32 := invSqrt (ax * ax + ay * ay + az * az)

/-! ### The program text over an arbitrary arithmetic -/

/-- What the program text uses of the C type `float` besides `+`, `-`, `*` and
unary minus. The text of `IMUupdate` is read over any type with these
operations: over `F32` it is the program as compiled, over `ℚ` it is the same
text in exact arithmetic. -/
class FloatLit (α : Type) where
  /-- The decimal literal `n / d` with suffix `f`. -/
  lit : Nat → Nat → α
  /-- The conversion `(float) n` of an integer. -/
  ofInt : Int → α
  /-- The comparison `==`. -/
  feq : α → α → Bool
  /-- The comparison `>`. -/
  fgt : α → α → Bool

/-- Binary32 arithmetic: literals and conversions are rounded to nearest. -/
instance binary32Lit : FloatLit F32 := ⟨F32.ofRatio, F32.ofInt, F32.eq, F32.gt⟩

/-- Exact arithmetic on rationals. -/
instance exactLit : FloatLit ℚ :=
  ⟨fun n d => (n : ℚ) / (d : ℚ), fun n => (n : ℚ), fun a b => decide (a = b),
    fun a b => decide (b < a)⟩

/-- The file-scope variables of the `MAHONY_AHRS` build, over any arithmetic. -/
structure StateOver (α : Type) where
  q0 : α
  q1 : α
  q2 : α
  q3 : α
  integralFBx : α
  integralFBy : α
  integralFBz : α
  last_tv : Timeval

/-- The first four cells of the array `q[]`, over any arithmetic. -/
structure QArrOver (α : Type) where
  c0 : α
  c1 : α
  c2 : α
  c3 : α
deriving DecidableEq

/-- The locals after the feedback block, over any arithmetic. -/
structure FeedbackOver (α : Type) where
  gx : α
  gy : α
  gz : α
  integralFBx : α
  integralFBy : α
  integralFBz : α
  timeDiff : α

/-- The file-scope variables of the legacy build (lines 54, 57, 58), over any
arithmetic. -/
structure LegacyStateOver (α : Type) where
  q0 : α
  q1 : α
  q2 : α
  q3 : α
  exInt : α
  eyInt : α
  ezInt : α
  last_tv : Timeval

/-- The file-scope variables of the `MADGWICK_AHRS` build (lines 57, 58), over
any arithmetic. -/
structure MadgwickStateOver (α : Type) where
  q0 : α
  q1 : α
  q2 : α
  q3 : α
  last_tv : Timeval

section Generic

variable {α : Type} [Add α] [Sub α] [Mul α] [Neg α] [FloatLit α]

/-- `#define twoKpDef (2.0f * 0.5f)`. -/
def twoKpDefOver : α := FloatLit.lit 2 1 * FloatLit.lit 5 10

/-- `#define twoKiDef (2.0f * 0.05f)`. -/
def twoKiDefOver : α := FloatLit.lit 2 1 * FloatLit.lit 5 100

/-- The elapsed time of lines 235-236 (and 156-157, 316-317). -/
def timeDiffOver (last_tv tv : Timeval) : α :=
  FloatLit.ofInt (tv.tv_sec - last_tv.tv_sec)
    + FloatLit.ofInt (tv.tv_usec - last_tv.tv_usec) * FloatLit.lit 1 1000000

/-- Lines 245-247: the halved estimate of the gravity direction. -/
def halfvOver (s : StateOver α) : α × α × α :=
  (s.q1 * s.q3 - s.q0 * s.q2, s.q0 * s.q1 + s.q2 * s.q3,
    s.q0 * s.q0 - FloatLit.lit 5 10 + s.q3 * s.q3)

/-- Lines 225-273 of `IMUupdate` in the steady state, the function `invSqrt`
and the two gain macros being parameters. -/
def feedbackOver (invSqrt : α → α) (twoKp twoKi : α) (s : StateOver α)
    (gx gy gz ax ay az : α) (tv : Timeval) : FeedbackOver α :=
  let timeDiff : α := FloatLit.lit 0 1
  if !(FloatLit.feq ax (FloatLit.lit 0 1) && FloatLit.feq ay (FloatLit.lit 0 1)
      && FloatLit.feq az (FloatLit.lit 0 1)) then
    let timeDiff : α := timeDiffOver s.last_tv tv
    let recipNorm := invSqrt (ax * ax + ay * ay + az * az)
    let ax := ax * recipNorm
    let ay := ay * recipNorm
    let az := az * recipNorm
    let halfvx := s.q1 * s.q3 - s.q0 * s.q2
    let halfvy := s.q0 * s.q1 + s.q2 * s.q3
    let halfvz := s.q0 * s.q0 - FloatLit.lit 5 10 + s.q3 * s.q3
    let halfex := ay * halfvz - az * halfvy
    let halfey := az * halfvx - ax * halfvz
    let halfez := ax * halfvy - ay * halfvx
    if FloatLit.fgt twoKi (FloatLit.lit 0 1) then
      let integralFBx := s.integralFBx + twoKi * halfex * timeDiff
      let integralFBy := s.integralFBy + twoKi * halfey * timeDiff
      let integralFBz := s.integralFBz + twoKi * halfez * timeDiff
      let gx := gx + integralFBx
      let gy := gy + integralFBy
      let gz := gz + integralFBz
      { gx := gx + twoKp * halfex, gy := gy + twoKp * halfey, gz := gz + twoKp * halfez,
        integralFBx := integralFBx, integralFBy := integralFBy, integralFBz := integralFBz,
        timeDiff := timeDiff }
    else
      { gx := gx + twoKp * halfex, gy := gy + twoKp * halfey, gz := gz + twoKp * halfez,
        integralFBx := FloatLit.lit 0 1, integralFBy := FloatLit.lit 0 1,
        integralFBz := FloatLit.lit 0 1, timeDiff := timeDiff }
  else
    { gx := gx, gy := gy, gz := gz,
      integralFBx := s.integralFBx, integralFBy := s.integralFBy,
      integralFBz := s.integralFBz, timeDiff := timeDiff }

/-- Lines 276-285: the quaternion after the integration, before it is
normalised. -/
def integrateOver (s : StateOver α) (gx gy gz timeDiff : α) : QArrOver α :=
  let gx := gx * (FloatLit.lit 5 10 * timeDiff)
  let gy := gy * (FloatLit.lit 5 10 * timeDiff)
  let gz := gz * (FloatLit.lit 5 10 * timeDiff)
  let qa := s.q0
  let qb := s.q1
  let qc := s.q2
  { c0 := s.q0 + (-qb * gx - qc * gy - s.q3 * gz),
    c1 := s.q1 + (qa * gx + qc * gz - s.q3 * gy),
    c2 := s.q2 + (qa * gy - qb * gz + s.q3 * gx),
    c3 := s.q3 + (qa * gz + qb * gy - qc * gx) }

/-- Lines 288-292 (also 205-209 and 355-359): the normalisation. -/
def normaliseOver (invSqrt : α → α) (p : QArrOver α) : QArrOver α :=
  let recipNorm := invSqrt (p.c0 * p.c0 + p.c1 * p.c1 + p.c2 * p.c2 + p.c3 * p.c3)
  { c0 := p.c0 * recipNorm, c1 := p.c1 * recipNorm,
    c2 := p.c2 * recipNorm, c3 := p.c3 * recipNorm }

/-- The steady-state body of the `MAHONY_AHRS` branch and the recording of the
timestamp, over any arithmetic. -/
def steadyStepOver (invSqrt : α → α) (twoKp twoKi : α) (s : StateOver α)
    (gx gy gz ax ay az : α) (tv : Timeval) : StateOver α × QArrOver α :=
  let fb := feedbackOver invSqrt twoKp twoKi s gx gy gz ax ay az tv
  let n := normaliseOver invSqrt (integrateOver s fb.gx fb.gy fb.gz fb.timeDiff)
  ({ q0 := n.c0, q1 := n.c1, q2 := n.c2, q3 := n.c3,
     integralFBx := fb.integralFBx, integralFBy := fb.integralFBy,
     integralFBz := fb.integralFBz, last_tv := tv }, n)

/-- The `MAHONY_AHRS` branch of `IMUupdate` (lines 219-301) over any
arithmetic. -/
def IMUupdateOver (invSqrt : α → α) (s : StateOver α) (gx gy gz ax ay az : α)
    (tv : Timeval) (q : QArrOver α) : StateOver α × QArrOver α :=
  if s.last_tv.tv_sec ≠ 0 then
    steadyStepOver invSqrt twoKpDefOver twoKiDefOver s gx gy gz ax ay az tv
  else
    ({ s with last_tv := tv }, q)

/-! #### The legacy variant (lines 304-368) -/

/-- `#define Kp 2.5f` of the legacy variant. -/
def legacyKp : α := FloatLit.lit 25 10

/-- The locals of the legacy variant before the integration: the adjusted gyro
rates, the integral of the error and `timeDiff`. -/
structure LegacyFeedbackOver (α : Type) where
  gx : α
  gy : α
  gz : α
  exInt : α
  eyInt : α
  ezInt : α
  timeDiff : α

/-- Lines 316-346 of the legacy variant, the function `invSqrt` a parameter. -/
def legacyFeedbackOver (invSqrt : α → α) (s : LegacyStateOver α)
    (gx gy gz ax ay az : α) (tv : Timeval) : LegacyFeedbackOver α :=
  let timeDiff : α := timeDiffOver s.last_tv tv
  let norm := invSqrt (ax * ax + ay * ay + az * az)
  let ax := ax * norm
  let ay := ay * norm
  let az := az * norm
  let vx := FloatLit.ofInt 2 * (s.q1 * s.q3 - s.q0 * s.q2)
  let vy := FloatLit.ofInt 2 * (s.q0 * s.q1 + s.q2 * s.q3)
  let vz := s.q0 * s.q0 - s.q1 * s.q1 - s.q2 * s.q2 + s.q3 * s.q3
  let ex := ay * vz - az * vy
  let ey := az * vx - ax * vz
  let ez := ax * vy - ay * vx
  let exInt := s.exInt + ex * timeDiff
  let eyInt := s.eyInt + ey * timeDiff
  let ezInt := s.ezInt + ez * timeDiff
  { gx := gx + legacyKp * ex + exInt, gy := gy + legacyKp * ey + eyInt,
    gz := gz + legacyKp * ez + ezInt,
    exInt := exInt, eyInt := eyInt, ezInt := ezInt, timeDiff := timeDiff }

/-- Lines 349-352 of the legacy variant: each assignment reads the variables
as the assignments before it left them. -/
def legacyIntegrateOver (s : LegacyStateOver α) (gx gy gz timeDiff : α) : QArrOver α :=
  let q0 := s.q0 + (-s.q1 * gx - s.q2 * gy - s.q3 * gz) * timeDiff * FloatLit.lit 5 10
  let q1 := s.q1 + (q0 * gx + s.q2 * gz - s.q3 * gy) * timeDiff * FloatLit.lit 5 10
  let q2 := s.q2 + (q0 * gy - q1 * gz + s.q3 * gx) * timeDiff * FloatLit.lit 5 10
  let q3 := s.q3 + (q0 * gz + q1 * gy - q2 * gx) * timeDiff * FloatLit.lit 5 10
  { c0 := q0, c1 := q1, c2 := q2, c3 := q3 }

/-- The legacy variant of `IMUupdate` (lines 304-368, neither `MADGWICK_AHRS`
nor `MAHONY_AHRS` defined). -/
def IMUupdateLegacyOver (invSqrt : α → α) (s : LegacyStateOver α)
    (gx gy gz ax ay az : α) (tv : Timeval) (q : QArrOver α) :
    LegacyStateOver α × QArrOver α :=
  if s.last_tv.tv_sec ≠ 0 then
    let fb := legacyFeedbackOver invSqrt s gx gy gz ax ay az tv
    let n := normaliseOver invSqrt (legacyIntegrateOver s fb.gx fb.gy fb.gz fb.timeDiff)
    ({ q0 := n.c0, q1 := n.c1, q2 := n.c2, q3 := n.c3,
       exInt := fb.exInt, eyInt := fb.eyInt, ezInt := fb.ezInt, last_tv := tv }, n)
  else
    ({ s with last_tv := tv }, q)

/-! #### The gradient-descent variant (lines 135-217) -/

/-- `#define Kp 1.f` of the `MADGWICK_AHRS` variant. -/
def madgwickKp : α := FloatLit.lit 1 1

/-- Lines 166-184: the corrective step `(s0, s1, s2, s3)` before it is
normalised, from the stored quaternion and the normalised accelerometer
reading. -/
def madgwickStepOver (s : MadgwickStateOver α) (ax ay az : α) : α × α × α × α :=
  let _2q0 := FloatLit.lit 2 1 * s.q0
  let _2q1 := FloatLit.lit 2 1 * s.q1
  let _2q2 := FloatLit.lit 2 1 * s.q2
  let _2q3 := FloatLit.lit 2 1 * s.q3
  let _4q0 := FloatLit.lit 4 1 * s.q0
  let _4q1 := FloatLit.lit 4 1 * s.q1
  let _4q2 := FloatLit.lit 4 1 * s.q2
  let _8q1 := FloatLit.lit 8 1 * s.q1
  let _8q2 := FloatLit.lit 8 1 * s.q2
  let q0q0 := s.q0 * s.q0
  let q1q1 := s.q1 * s.q1
  let q2q2 := s.q2 * s.q2
  let q3q3 := s.q3 * s.q3
  let s0 := _4q0 * q2q2 + _2q2 * ax + _4q0 * q1q1 - _2q1 * ay
  let s1 := _4q1 * q3q3 - _2q3 * ax + FloatLit.lit 4 1 * q0q0 * s.q1 - _2q0 * ay - _4q1
    + _8q1 * q1q1 + _8q1 * q2q2 + _4q1 * az
  let s2 := FloatLit.lit 4 1 * q0q0 * s.q2 + _2q0 * ax + _4q2 * q3q3 - _2q3 * ay - _4q2
    + _8q2 * q1q1 + _8q2 * q2q2 + _4q2 * az
  let s3 := FloatLit.lit 4 1 * q1q1 * s.q3 - _2q1 * ax + FloatLit.lit 4 1 * q2q2 * s.q3
    - _2q2 * ay
  (s0, s1, s2, s3)

/-- The rate of change of the quaternion and `timeDiff` after lines 149-196. -/
structure MadgwickRateOver (α : Type) where
  qDot1 : α
  qDot2 : α
  qDot3 : α
  qDot4 : α
  timeDiff : α

/-- Lines 141-196 of the `MADGWICK_AHRS` variant, the function `invSqrt` a
parameter. -/
def madgwickRateOver (invSqrt : α → α) (s : MadgwickStateOver α)
    (gx gy gz ax ay az : α) (tv : Timeval) : MadgwickRateOver α :=
  let timeDiff : α := FloatLit.lit 0 1
  let qDot1 := FloatLit.lit 5 10 * (-s.q1 * gx - s.q2 * gy - s.q3 * gz)
  let qDot2 := FloatLit.lit 5 10 * (s.q0 * gx + s.q2 * gz - s.q3 * gy)
  let qDot3 := FloatLit.lit 5 10 * (s.q0 * gy - s.q1 * gz + s.q3 * gx)
  let qDot4 := FloatLit.lit 5 10 * (s.q0 * gz + s.q1 * gy - s.q2 * gx)
  if !(FloatLit.feq ax (FloatLit.lit 0 1) && FloatLit.feq ay (FloatLit.lit 0 1)
      && FloatLit.feq az (FloatLit.lit 0 1)) then
    let timeDiff : α := timeDiffOver s.last_tv tv
    let recipNorm := invSqrt (ax * ax + ay * ay + az * az)
    let ax := ax * recipNorm
    let ay := ay * recipNorm
    let az := az * recipNorm
    let st := madgwickStepOver s ax ay az
    let recipNorm := invSqrt (st.1 * st.1 + st.2.1 * st.2.1 + st.2.2.1 * st.2.2.1
      + st.2.2.2 * st.2.2.2)
    let s0 := st.1 * recipNorm
    let s1 := st.2.1 * recipNorm
    let s2 := st.2.2.1 * recipNorm
    let s3 := st.2.2.2 * recipNorm
    { qDot1 := qDot1 - madgwickKp * s0, qDot2 := qDot2 - madgwickKp * s1,
      qDot3 := qDot3 - madgwickKp * s2, qDot4 := qDot4 - madgwickKp * s3,
      timeDiff := timeDiff }
  else
    { qDot1 := qDot1, qDot2 := qDot2, qDot3 := qDot3, qDot4 := qDot4, timeDiff := timeDiff }

/-- The `MADGWICK_AHRS` variant of `IMUupdate` (lines 135-217). -/
def IMUupdateMadgwickOver (invSqrt : α → α) (s : MadgwickStateOver α)
    (gx gy gz ax ay az : α) (tv : Timeval) (q : QArrOver α) :
    MadgwickStateOver α × QArrOver α :=
  if s.last_tv.tv_sec ≠ 0 then
    let r := madgwickRateOver invSqrt s gx gy gz ax ay az tv
    let n := normaliseOver invSqrt
      { c0 := s.q0 + r.qDot1 * r.timeDiff, c1 := s.q1 + r.qDot2 * r.timeDiff,
        c2 := s.q2 + r.qDot3 * r.timeDiff, c3 := s.q3 + r.qDot4 * r.timeDiff }
    ({ q0 := n.c0, q1 := n.c1, q2 := n.c2, q3 := n.c3, last_tv := tv }, n)
  else
    ({ s with last_tv := tv }, q)

end Generic

/-- The state of the binary32 program as a state over `F32`. -/
def State.over (s : State) : StateOver F32 :=
  ⟨s.q0, s.q1, s.q2, s.q3, s.integralFBx, s.integralFBy, s.integralFBz, s.last_tv⟩

/-- The array of the binary32 program as an array over `F32`. -/
def QArr.over (q : QArr) : QArrOver F32 := ⟨q.c0, q.c1, q.c2, q.c3⟩

/-- The locals of the binary32 program as locals over `F32`. -/
def Feedback.over (fb : Feedback) : FeedbackOver F32 :=
  ⟨fb.gx, fb.gy, fb.gz, fb.integralFBx, fb.integralFBy, fb.integralFBz, fb.timeDiff⟩

/-- The estimated direction of gravity as the claims give it: the reference
vector `(0,0,1)` rotated by the quaternion `(q0,q1,q2,q3)`. -/
def gravityOf (q0 q1 q2 q3 : ℚ) : ℚ × ℚ × ℚ :=
  (2 * (q1 * q3 - q0 * q2), 2 * (q0 * q1 + q2 * q3), q0 ^ 2 - q1 ^ 2 - q2 ^ 2 + q3 ^ 2)

/-- The cross product of two vectors. -/
def cross3 (a b : ℚ × ℚ × ℚ) : ℚ × ℚ × ℚ :=
  (a.2.1 * b.2.2 - a.2.2 * b.2.1, a.2.2 * b.1 - a.1 * b.2.2, a.1 * b.2.1 - a.2.1 * b.1)

/-- The seconds between two clock readings, in exact arithmetic. -/
def secondsBetween (l t : Timeval) : ℚ :=
  ((t.tv_sec - l.tv_sec : Int) : ℚ) + ((t.tv_usec - l.tv_usec : Int) : ℚ) / 1000000

/-- The quaternion held in an array, as a quaternion of Mathlib. -/
def QArrOver.toQuat (p : QArrOver ℚ) : Quaternion ℚ := ⟨p.c0, p.c1, p.c2, p.c3⟩

/-- The stored quaternion, as a quaternion of Mathlib. -/
def StateOver.toQuat (s : StateOver ℚ) : Quaternion ℚ := ⟨s.q0, s.q1, s.q2, s.q3⟩

/-- The explicit Euler step of the claims, `q + dt * 1/2 * (q ⊗ (0, gx, gy, gz))`,
with the Hamilton product of Mathlib. -/
def eulerStep (q : Quaternion ℚ) (gx gy gz dt : ℚ) : Quaternion ℚ :=
  q + (dt * (1 / 2)) • (q * ⟨0, gx, gy, gz⟩)

/-- The quaternion after the integration of lines 276-285 of a steady-state
call, before it is normalised, in exact arithmetic. -/
def preNormOver (isq : ℚ → ℚ) (s : StateOver ℚ) (gx gy gz ax ay az : ℚ) (tv : Timeval) :
    QArrOver ℚ :=
  integrateOver s (feedbackOver isq twoKpDefOver twoKiDefOver s gx gy gz ax ay az tv).gx
    (feedbackOver isq twoKpDefOver twoKiDefOver s gx gy gz ax ay az tv).gy
    (feedbackOver isq twoKpDefOver twoKiDefOver s gx gy gz ax ay az tv).gz
    (feedbackOver isq twoKpDefOver twoKiDefOver s gx gy gz ax ay az tv).timeDiff

/-- The float `x` is finite and within `ε` of the rational `v`. -/
def Near (x : F32) (v ε : ℚ) : Prop := x.isFinite = true ∧ |x.toRat - v| ≤ ε

/-- The halved direction of gravity of lines 245-247, in exact arithmetic on the
stored quaternion. -/
def halfvExact (s : State) : ℚ × ℚ × ℚ :=
  (s.q1.toRat * s.q3.toRat - s.q0.toRat * s.q2.toRat,
   s.q0.toRat * s.q1.toRat + s.q2.toRat * s.q3.toRat,
   s.q0.toRat * s.q0.toRat - 1 / 2 + s.q3.toRat * s.q3.toRat)

/-- The halved error of lines 250-252, in exact arithmetic, for the normalised
accelerometer direction `n`. -/
def halfeExact (s : State) (n : ℚ × ℚ × ℚ) : ℚ × ℚ × ℚ :=
  (n.2.1 * (halfvExact s).2.2 - n.2.2 * (halfvExact s).2.1,
   n.2.2 * (halfvExact s).1 - n.1 * (halfvExact s).2.2,
   n.1 * (halfvExact s).2.1 - n.2.1 * (halfvExact s).1)

/-- The accelerometer reading as the code normalises it (lines 239-242), in
exact arithmetic: each component times the value of the computed reciprocal
norm. -/
def accDir (ax ay az : F32) : ℚ × ℚ × ℚ :=
  (ax.toRat * (accRecipNorm ax ay az).toRat, ay.toRat * (accRecipNorm ax ay az).toRat,
   az.toRat * (accRecipNorm ax ay az).toRat)

/-- The stored quaternion and accumulator are finite, the squared norm of the
quaternion is within `0.004` of 1 and the accumulator is at most 10 in each
coordinate. -/
def State.inRange (s : State) : Prop :=
  s.quat.finite = true ∧ |s.quat.normSq - 1| ≤ 4 / 1000 ∧
  (s.integralFBx.isFinite = true ∧ s.integralFBy.isFinite = true ∧
    s.integralFBz.isFinite = true) ∧
  |s.integralFBx.toRat| ≤ 10 ∧ |s.integralFBy.toRat| ≤ 10 ∧ |s.integralFBz.toRat| ≤ 10

/-- A finite gyro rate of at most 100 rad/s about each axis. -/
def rateInRange (gx gy gz : F32) : Prop :=
  (gx.isFinite = true ∧ gy.isFinite = true ∧ gz.isFinite = true) ∧
  |gx.toRat| ≤ 100 ∧ |gy.toRat| ≤ 100 ∧ |gz.toRat| ≤ 100

/-- A finite accelerometer reading whose exact squared norm lies in
`[10^-24, 10^24]`. -/
def accelInRange (ax ay az : F32) : Prop :=
  (ax.isFinite = true ∧ ay.isFinite = true ∧ az.isFinite = true) ∧
  1 / 10 ^ 24 ≤ ax.toRat ^ 2 + ay.toRat ^ 2 + az.toRat ^ 2 ∧
  ax.toRat ^ 2 + ay.toRat ^ 2 + az.toRat ^ 2 ≤ 10 ^ 24

/-- The error `e` of the claims: the cross product of the accelerometer reading
`(ax, ay, az)` divided by its norm `l` and the estimated direction of gravity,
the vector `(0,0,1)` rotated by the quaternion `(q0,q1,q2,q3)`. -/
def errorOf {α : Type} [Field α] (l ax ay az q0 q1 q2 q3 : α) : α × α × α :=
  (ay / l * (q0 ^ 2 - q1 ^ 2 - q2 ^ 2 + q3 ^ 2) - az / l * (2 * (q0 * q1 + q2 * q3)),
   az / l * (2 * (q1 * q3 - q0 * q2)) - ax / l * (q0 ^ 2 - q1 ^ 2 - q2 ^ 2 + q3 ^ 2),
   ax / l * (2 * (q0 * q1 + q2 * q3)) - ay / l * (2 * (q1 * q3 - q0 * q2)))

/-- The error `e` for the stored quaternion of `s` and the accelerometer reading
`(ax, ay, az)` whose norm is `l`, with the values taken in the field `α`. -/
def errorAt (α : Type) [Field α] (s : State) (ax ay az : F32) (l : α) : α × α × α :=
  errorOf l (ax.toRat : α) (ay.toRat : α) (az.toRat : α)
    (s.q0.toRat : α) (s.q1.toRat : α) (s.q2.toRat : α) (s.q3.toRat : α)

/-- The float `x` is finite and within `ε` of the real number `v`. -/
def Within (x : F32) (v ε : ℝ) : Prop := x.isFinite = true ∧ |(x.toRat : ℝ) - v| ≤ ε

set_option maxRecDepth 100000

open F32

/-! ### Binary32 arithmetic: rounding and its error -/

theorem bitLenAux_spec : ∀ (fuel m : Nat), m ≤ fuel →
    m < 2 ^ bitLenAux fuel m ∧ (m ≠ 0 → 2 ^ (bitLenAux fuel m - 1) ≤ m)
  | 0, m, h => by
    have h0 : m = 0 := by omega
    subst h0
    simp [bitLenAux]
  | fuel + 1, m, h => by
    unfold bitLenAux
    by_cases hm : m = 0
    · simp [hm]
    · rw [if_neg hm]
      have ih := bitLenAux_spec fuel (m / 2) (by omega)
      refine ⟨?_, fun _ => ?_⟩
      · have h1 := ih.1
        rw [pow_succ]
        omega
      · rw [Nat.add_sub_cancel]
        by_cases h2 : m / 2 = 0
        · have h3 : bitLenAux fuel (m / 2) = 0 := by
            rw [h2]; cases fuel <;> simp [bitLenAux]
          rw [h3]
          simp
          omega
        · have h3 := ih.2 h2
          have h4 : bitLenAux fuel (m / 2) ≠ 0 := by
            intro h0
            have h5 := ih.1
            rw [h0] at h5
            omega
          obtain ⟨r, hr⟩ := Nat.exists_eq_succ_of_ne_zero h4
          rw [hr] at h3 ⊢
          rw [Nat.succ_sub_one] at h3
          rw [pow_succ]
          omega

theorem bitLen_spec (m : Nat) (hm : m ≠ 0) :
    1 ≤ bitLen m ∧ 2 ^ (bitLen m - 1) ≤ m ∧ m < 2 ^ bitLen m := by
  have h := bitLenAux_spec m m le_rfl
  refine ⟨?_, h.2 hm, h.1⟩
  by_contra h0
  have h1 : bitLenAux m m = 0 := by unfold bitLen at h0; omega
  have h2 := h.1
  rw [h1] at h2
  omega

theorem rne_spec (m k : Nat) (hk : 1 ≤ k) :
    2 * rne m k * 2 ^ k ≤ 2 * m + 2 ^ k ∧ 2 * m ≤ 2 * rne m k * 2 ^ k + 2 ^ k ∧
    m / 2 ^ k ≤ rne m k ∧ rne m k ≤ m / 2 ^ k + 1 := by
  obtain ⟨j, rfl⟩ : ∃ j, k = j + 1 := ⟨k - 1, by omega⟩
  have hdm := Nat.div_add_mod m (2 ^ (j + 1))
  have hlt := Nat.mod_lt m (Nat.two_pow_pos (j + 1))
  have hp : 2 ^ (j + 1) = 2 * 2 ^ j := by rw [pow_succ]; ring
  unfold rne
  simp only [Nat.add_sub_cancel]
  generalize hd : m / 2 ^ (j + 1) = d at *
  generalize hr : m % 2 ^ (j + 1) = r at *
  rw [hp] at hdm hlt ⊢
  generalize 2 ^ j = h at *
  have e1 : 2 * (d + 1) * (2 * h) = 2 * (2 * h * d) + 4 * h := by ring
  have e2 : 2 * d * (2 * h) = 2 * (2 * h * d) := by ring
  split
  · rw [e1]; omega
  · rw [e2]; omega

theorem ssig_eq (x : F32) : (x.ssig : ℚ) = sgn x.sign * x.sig := by
  unfold ssig sgn
  split <;> simp

theorem toRat_eq (x : F32) : x.toRat = sgn x.sign * x.sig * 2 ^ x.qexp := by
  rw [toRat, ssig_eq]

theorem decode (s : Bool) (Q M : Nat) (hQ : Q ≤ 252) (hM : M ≤ 2 ^ 24)
    (hn : Q = 0 ∨ 2 ^ 23 ≤ M) :
    (F32.mk (sbit s + (Q * 2 ^ 23 + M))).sign = s ∧
    (F32.mk (sbit s + (Q * 2 ^ 23 + M))).isFinite = true ∧
    (F32.mk (sbit s + (Q * 2 ^ 23 + M))).toRat = sgn s * M * 2 ^ ((Q : Int) - 149) := by
  have hs : (F32.mk (sbit s + (Q * 2 ^ 23 + M))).sign = s := by
    cases s <;> simp only [sign, sbit] <;> simp <;> omega
  have hb : sbit s = 0 ∨ sbit s = 2 ^ 31 := by cases s <;> simp [sbit]
  rw [toRat_eq, hs]
  refine ⟨rfl, ?_, ?_⟩
  · simp only [isFinite, expo, bne_iff_ne, ne_eq]
    rcases hb with hb | hb <;> rw [hb] <;> omega
  · by_cases h1 : M < 2 ^ 23
    · have hQ0 : Q = 0 := by omega
      have he : (F32.mk (sbit s + (Q * 2 ^ 23 + M))).expo = 0 := by
        simp only [expo]; rcases hb with hb | hb <;> rw [hb] <;> omega
      have hf : (F32.mk (sbit s + (Q * 2 ^ 23 + M))).frac = M := by
        simp only [frac]; rcases hb with hb | hb <;> rw [hb] <;> omega
      simp only [sig, qexp, he, hf, if_true]
      rw [hQ0]
      norm_num
    · by_cases h2 : M = 2 ^ 24
      · subst h2
        have he : (F32.mk (sbit s + (Q * 2 ^ 23 + 2 ^ 24))).expo = Q + 2 := by
          simp only [expo]; rcases hb with hb | hb <;> rw [hb] <;> omega
        have hf : (F32.mk (sbit s + (Q * 2 ^ 23 + 2 ^ 24))).frac = 0 := by
          simp only [frac]; rcases hb with hb | hb <;> rw [hb] <;> omega
        have hq : ((Q + 2 : Nat) : Int) - 150 = ((Q : Int) - 149) + 1 := by push_cast; ring
        simp only [sig, qexp, he, hf, Nat.add_eq_zero, OfNat.ofNat_ne_zero, and_false,
          if_false, add_zero, hq]
        rw [zpow_add_one₀ (by norm_num : (2 : ℚ) ≠ 0)]
        push_cast
        ring
      · have he : (F32.mk (sbit s + (Q * 2 ^ 23 + M))).expo = Q + 1 := by
          simp only [expo]; rcases hb with hb | hb <;> rw [hb] <;> omega
        have hf : (F32.mk (sbit s + (Q * 2 ^ 23 + M))).frac = M - 2 ^ 23 := by
          simp only [frac]; rcases hb with hb | hb <;> rw [hb] <;> omega
        have hq : ((Q + 1 : Nat) : Int) - 150 = (Q : Int) - 149 := by push_cast; ring
        have hM2 : 2 ^ 23 + (M - 2 ^ 23) = M := by omega
        simp only [sig, qexp, he, hf, Nat.add_eq_zero, OfNat.ofNat_ne_zero, and_false,
          if_false, hq, hM2, one_ne_zero]

theorem exact_case (m L j : Nat) (hL1 : 1 ≤ L) (hlo : 2 ^ (L - 1) ≤ m) (hhi : m < 2 ^ L)
    (hj : L + j ≤ 24) : m * 2 ^ j < 2 ^ 24 ∧ (L + j = 24 → 2 ^ 23 ≤ m * 2 ^ j) := by
  have hpos : 0 < 2 ^ j := Nat.two_pow_pos j
  constructor
  · calc m * 2 ^ j < 2 ^ L * 2 ^ j := Nat.mul_lt_mul_of_pos_right hhi hpos
      _ = 2 ^ (L + j) := (pow_add 2 L j).symm
      _ ≤ 2 ^ 24 := Nat.pow_le_pow_right (by norm_num) hj
  · intro h
    calc 2 ^ 23 = 2 ^ (L - 1 + j) := by congr 1; omega
      _ = 2 ^ (L - 1) * 2 ^ j := pow_add 2 (L - 1) j
      _ ≤ m * 2 ^ j := Nat.mul_le_mul_right _ hlo

theorem rne_case (m L k : Nat) (hlo : 2 ^ (L - 1) ≤ m) (hhi : m < 2 ^ L)
    (hk : 1 ≤ k) (hLk : L ≤ k + 24) :
    rne m k ≤ 2 ^ 24 ∧ (L = k + 24 → 2 ^ 23 ≤ rne m k) ∧
    |(rne m k : ℚ) * 2 ^ k - m| ≤ 2 ^ k / 2 := by
  obtain ⟨h1, h2, h3, h4⟩ := rne_spec m k hk
  have hkpos : 0 < 2 ^ k := Nat.two_pow_pos k
  refine ⟨?_, ?_, ?_⟩
  · have h5 : m < 2 ^ 24 * 2 ^ k := by
      calc m < 2 ^ L := hhi
        _ ≤ 2 ^ (24 + k) := Nat.pow_le_pow_right (by norm_num) (by omega)
        _ = 2 ^ 24 * 2 ^ k := pow_add 2 24 k
    have h6 : m / 2 ^ k < 2 ^ 24 := Nat.div_lt_of_lt_mul (by rw [Nat.mul_comm]; exact h5)
    omega
  · intro h
    have h5 : 2 ^ 23 * 2 ^ k ≤ m := by
      calc 2 ^ 23 * 2 ^ k = 2 ^ (23 + k) := (pow_add 2 23 k).symm
        _ = 2 ^ (L - 1) := by congr 1; omega
        _ ≤ m := hlo
    have h6 : 2 ^ 23 ≤ m / 2 ^ k := (Nat.le_div_iff_mul_le hkpos).mpr h5
    omega
  · have h1q : (2 : ℚ) * rne m k * 2 ^ k ≤ 2 * m + 2 ^ k := by exact_mod_cast h1
    have h2q : (2 : ℚ) * m ≤ 2 * rne m k * 2 ^ k + 2 ^ k := by exact_mod_cast h2
    rw [abs_le]
    constructor <;> linarith

theorem round_spec (s : Bool) (m : Nat) (e : Int) (hm : m ≠ 0)
    (hv : e + (bitLen m : Nat) ≤ 127) :
    ∃ M Q : Nat, F32.round s m e = ⟨sbit s + (Q * 2 ^ 23 + M)⟩ ∧ Q ≤ 252 ∧ M ≤ 2 ^ 24 ∧
      (Q = 0 ∨ 2 ^ 23 ≤ M) ∧
      (Q : Int) - 149 = max (e + (bitLen m : Nat) - 24) (-149) ∧
      |(M : ℚ) * 2 ^ ((Q : Int) - 149) - m * 2 ^ e| ≤ 2 ^ ((Q : Int) - 150) := by
  obtain ⟨hL1, hlo, hhi⟩ := bitLen_spec m hm
  generalize hL : bitLen m = L at *
  generalize hq : max (e + (L : Int) - 24) (-149) = q
  have hq1 : -149 ≤ q := by rw [← hq]; exact le_max_right _ _
  have hq2 : e + (L : Int) - 24 ≤ q := by rw [← hq]; exact le_max_left _ _
  have hq3 : q = e + (L : Int) - 24 ∨ q = -149 := by
    rw [← hq]; rcases max_cases (e + (L : Int) - 24) (-149) with h | h <;> omega
  have hQ : (((q + 149).toNat : Nat) : Int) = q + 149 := Int.toNat_of_nonneg (by omega)
  have two_ne : (2 : ℚ) ≠ 0 := by norm_num
  by_cases hc : q ≤ e
  · -- exact
    have hj : (((e - q).toNat : Nat) : Int) = e - q := Int.toNat_of_nonneg (by omega)
    obtain ⟨b1, b2⟩ := exact_case m L (e - q).toNat hL1 hlo hhi (by omega)
    refine ⟨m * 2 ^ (e - q).toNat, (q + 149).toNat, ?_, by omega, by omega, ?_, by omega, ?_⟩
    · unfold F32.round
      simp only [hm, if_false, hL, hq, hc, if_true, sbit]
      rw [if_neg (by omega)]
    · rcases hq3 with h | h
      · right; exact b2 (by omega)
      · left; omega
    · have e1 : ((m * 2 ^ (e - q).toNat : Nat) : ℚ) * 2 ^ (((q + 149).toNat : Int) - 149)
          = m * 2 ^ e := by
        push_cast
        rw [mul_assoc, ← zpow_natCast, ← zpow_add₀ two_ne]
        congr 2
        omega
      rw [e1, sub_self, abs_zero]
      positivity
  · -- rounded
    have hk : (((q - e).toNat : Nat) : Int) = q - e := Int.toNat_of_nonneg (by omega)
    obtain ⟨b1, b2, b3⟩ := rne_case m L (q - e).toNat hlo hhi (by omega) (by omega)
    refine ⟨rne m (q - e).toNat, (q + 149).toNat, ?_, by omega, b1, ?_, by omega, ?_⟩
    · unfold F32.round
      simp only [hm, if_false, hL, hq, hc, sbit]
      rw [if_neg (by omega)]
    · rcases hq3 with h | h
      · right; exact b2 (by omega)
      · left; omega
    · have e1 : (2 : ℚ) ^ (((q + 149).toNat : Int) - 149)
          = 2 ^ (q - e).toNat * 2 ^ e := by
        rw [← zpow_natCast, ← zpow_add₀ two_ne]
        congr 1
        omega
      have e2 : (2 : ℚ) ^ (((q + 149).toNat : Int) - 150)
          = 2 ^ (q - e).toNat / 2 * 2 ^ e := by
        rw [← zpow_natCast, div_mul_eq_mul_div, ← zpow_add₀ two_ne, eq_div_iff two_ne,
          ← zpow_add_one₀ two_ne]
        congr 1
        omega
      have hpos : (0 : ℚ) < 2 ^ e := by positivity
      rw [e1, e2, ← mul_assoc, ← sub_mul, abs_mul, abs_of_pos hpos]
      exact mul_le_mul_of_nonneg_right b3 hpos.le

theorem two_ne : (2 : ℚ) ≠ 0 := by norm_num

theorem abs_sgn_mul (s : Bool) (a : ℚ) : |sgn s * a| = |a| := by
  cases s <;> simp [sgn]

theorem sgn_xor (s t : Bool) : sgn (s != t) = sgn s * sgn t := by
  cases s <;> cases t <;> simp [sgn]

theorem val_lower (m : Nat) (e : Int) (hm : m ≠ 0) :
    (2 : ℚ) ^ (((bitLen m : Nat) : Int) - 1 + e) ≤ m * 2 ^ e := by
  obtain ⟨hL1, hlo, _⟩ := bitLen_spec m hm
  rw [zpow_add₀ two_ne]
  apply mul_le_mul_of_nonneg_right _ (by positivity)
  have h1 : ((2 ^ (bitLen m - 1) : Nat) : ℚ) ≤ m := by exact_mod_cast hlo
  have h2 : (2 : ℚ) ^ (((bitLen m : Nat) : Int) - 1) = ((2 ^ (bitLen m - 1) : Nat) : ℚ) := by
    push_cast
    rw [← zpow_natCast]
    congr 1
    omega
  rw [h2]
  exact h1

theorem bitLen_bound (m : Nat) (e : Int) (hm : m ≠ 0)
    (hv : (m : ℚ) * 2 ^ e < 2 ^ (127 : Int)) : e + (bitLen m : Nat) ≤ 127 := by
  have h2 := lt_of_le_of_lt (val_lower m e hm) hv
  rw [zpow_lt_zpow_iff_right₀ (by norm_num)] at h2
  omega

/-- Rounding a non-zero value below `2^127`: the result is finite, keeps the
sign, and is within half a unit in the last place. -/
theorem round_val (s : Bool) (m : Nat) (e : Int) (hm : m ≠ 0)
    (hv : (m : ℚ) * 2 ^ e < 2 ^ (127 : Int)) :
    (F32.round s m e).isFinite = true ∧ (F32.round s m e).sign = s ∧
    |(F32.round s m e).toRat - sgn s * (m * 2 ^ e)|
      ≤ 2 ^ (-24 : Int) * (m * 2 ^ e) + 2 ^ (-150 : Int) ∧
    ((2 : ℚ) ^ (-126 : Int) ≤ m * 2 ^ e →
      |(F32.round s m e).toRat - sgn s * (m * 2 ^ e)| ≤ 2 ^ (-24 : Int) * (m * 2 ^ e)) := by
  obtain ⟨M, Q, hr, hQ, hM, hn, hqe, herr⟩ := round_spec s m e hm (bitLen_bound m e hm hv)
  obtain ⟨d1, d2, d3⟩ := decode s Q M hQ hM hn
  rw [hr]
  have hlow := val_lower m e hm
  have hvpos : (0 : ℚ) ≤ m * 2 ^ e := by positivity
  have e0 : |sgn s * M * 2 ^ ((Q : Int) - 149) - sgn s * (m * 2 ^ e)|
      = |(M : ℚ) * 2 ^ ((Q : Int) - 149) - m * 2 ^ e| := by
    rw [mul_assoc, ← mul_sub, abs_sgn_mul]
  rw [d3, e0]
  refine ⟨d2, d1, ?_, ?_⟩
  · rcases max_cases (e + ((bitLen m : Nat) : Int) - 24) (-149) with h | h
    · have h5 : (2 : ℚ) ^ ((Q : Int) - 150)
          = 2 ^ (-24 : Int) * 2 ^ (((bitLen m : Nat) : Int) - 1 + e) := by
        rw [← zpow_add₀ two_ne]; congr 1; omega
      have h6 : (0 : ℚ) ≤ 2 ^ (-150 : Int) := by positivity
      have h7 : (2 : ℚ) ^ (-24 : Int) * 2 ^ (((bitLen m : Nat) : Int) - 1 + e)
          ≤ 2 ^ (-24 : Int) * (m * 2 ^ e) :=
        mul_le_mul_of_nonneg_left hlow (by positivity)
      linarith
    · have h5 : (2 : ℚ) ^ ((Q : Int) - 150) = 2 ^ (-150 : Int) := by congr 1; omega
      have h6 : (0 : ℚ) ≤ 2 ^ (-24 : Int) * (m * 2 ^ e) := by positivity
      linarith
  · intro hn126
    rcases max_cases (e + ((bitLen m : Nat) : Int) - 24) (-149) with h | h
    · have h5 : (2 : ℚ) ^ ((Q : Int) - 150)
          = 2 ^ (-24 : Int) * 2 ^ (((bitLen m : Nat) : Int) - 1 + e) := by
        rw [← zpow_add₀ two_ne]; congr 1; omega
      have h7 : (2 : ℚ) ^ (-24 : Int) * 2 ^ (((bitLen m : Nat) : Int) - 1 + e)
          ≤ 2 ^ (-24 : Int) * (m * 2 ^ e) :=
        mul_le_mul_of_nonneg_left hlow (by positivity)
      linarith
    · have h5 : (2 : ℚ) ^ ((Q : Int) - 150) = 2 ^ (-24 : Int) * 2 ^ (-126 : Int) := by
        rw [← zpow_add₀ two_ne]; congr 1; omega
      have h7 : (2 : ℚ) ^ (-24 : Int) * 2 ^ (-126 : Int) ≤ 2 ^ (-24 : Int) * (m * 2 ^ e) :=
        mul_le_mul_of_nonneg_left hn126 (by positivity)
      linarith

theorem toRat_zero (s : Bool) : (F32.zero s).toRat = 0 := by
  cases s <;> simp [F32.zero, toRat, ssig, sig, expo, frac, sign]

theorem isFinite_zero (s : Bool) : (F32.zero s).isFinite = true := by
  cases s <;> decide

theorem finite_not_nan (a : F32) (h : a.isFinite = true) : a.isNaN = false := by
  simp only [isFinite, bne_iff_ne, ne_eq] at h
  simp [isNaN, h]

theorem finite_not_inf (a : F32) (h : a.isFinite = true) : a.isInf = false := by
  simp only [isFinite, bne_iff_ne, ne_eq] at h
  simp [isInf, h]

theorem mul_def (a b : F32) : a * b = F32.mul a b := rfl
theorem add_def (a b : F32) : a + b = F32.add a b := rfl
theorem sub_def (a b : F32) : a - b = F32.add a (F32.neg b) := rfl
theorem round_zero (s : Bool) (e : Int) : F32.round s 0 e = F32.zero s := by
  simp [F32.round]

/-- Multiplication of finite values is the rounded exact product. -/
theorem mul_val (a b : F32) (ha : a.isFinite = true) (hb : b.isFinite = true)
    (hv : |a.toRat * b.toRat| < 2 ^ (127 : Int)) :
    (a * b).isFinite = true ∧
    |(a * b).toRat - a.toRat * b.toRat|
      ≤ 2 ^ (-24 : Int) * |a.toRat * b.toRat| + 2 ^ (-150 : Int) ∧
    ((2 : ℚ) ^ (-126 : Int) ≤ |a.toRat * b.toRat| →
      |(a * b).toRat - a.toRat * b.toRat| ≤ 2 ^ (-24 : Int) * |a.toRat * b.toRat|) := by
  have hab : a * b = F32.round (a.sign != b.sign) (a.sig * b.sig) (a.qexp + b.qexp) := by
    rw [mul_def]
    simp [F32.mul, finite_not_nan a ha, finite_not_nan b hb, finite_not_inf a ha,
      finite_not_inf b hb]
  have hprod : a.toRat * b.toRat
      = sgn (a.sign != b.sign) * (((a.sig * b.sig : Nat) : ℚ) * 2 ^ (a.qexp + b.qexp)) := by
    rw [toRat_eq, toRat_eq, sgn_xor, zpow_add₀ two_ne]
    push_cast
    ring
  have habs : |a.toRat * b.toRat| = ((a.sig * b.sig : Nat) : ℚ) * 2 ^ (a.qexp + b.qexp) := by
    rw [hprod, abs_sgn_mul, abs_of_nonneg (by positivity)]
  rw [hab]
  by_cases hm : a.sig * b.sig = 0
  · have h0 : a.toRat * b.toRat = 0 := by rw [hprod, hm]; simp
    rw [hm, round_zero, toRat_zero, h0]
    refine ⟨isFinite_zero _, by norm_num, fun _ => by norm_num⟩
  · rw [habs] at hv ⊢
    obtain ⟨r1, _, r3, r4⟩ := round_val (a.sign != b.sign) (a.sig * b.sig) (a.qexp + b.qexp) hm hv
    rw [hprod]
    exact ⟨r1, r3, r4⟩

theorem sgn_natAbs (v : Int) : sgn (decide (v < 0)) * ((v.natAbs : Nat) : ℚ) = (v : ℚ) := by
  by_cases h : v < 0
  · have h1 : ((v.natAbs : Nat) : Int) = -v := by omega
    have h2 : ((v.natAbs : Nat) : ℚ) = -(v : ℚ) := by
      rw [← Int.cast_neg, ← h1, Int.cast_natCast]
    simp [sgn, h, h2]
  · have h1 : ((v.natAbs : Nat) : Int) = v := by omega
    have h2 : ((v.natAbs : Nat) : ℚ) = (v : ℚ) := by
      rw [← h1, Int.cast_natCast, h1]
    simp [sgn, h, h2]

theorem natAbs_cast_abs (v : Int) : ((v.natAbs : Nat) : ℚ) = |(v : ℚ)| := by
  rw [← Int.cast_abs, Int.abs_eq_natAbs, Int.cast_natCast]

theorem align_val (x : F32) (e : Int) (h : e ≤ x.qexp) :
    ((x.ssig * 2 ^ (x.qexp - e).toNat : Int) : ℚ) * 2 ^ e = x.toRat := by
  have hk : (((x.qexp - e).toNat : Nat) : Int) = x.qexp - e := Int.toNat_of_nonneg (by omega)
  rw [toRat]
  push_cast
  rw [mul_assoc, ← zpow_natCast, ← zpow_add₀ two_ne, hk]
  congr 2
  omega

/-- Addition of finite values is the rounded exact sum. -/
theorem add_val (a b : F32) (ha : a.isFinite = true) (hb : b.isFinite = true)
    (hv : |a.toRat + b.toRat| < 2 ^ (127 : Int)) :
    (a + b).isFinite = true ∧
    |(a + b).toRat - (a.toRat + b.toRat)|
      ≤ 2 ^ (-24 : Int) * |a.toRat + b.toRat| + 2 ^ (-150 : Int) ∧
    ((2 : ℚ) ^ (-126 : Int) ≤ |a.toRat + b.toRat| →
      |(a + b).toRat - (a.toRat + b.toRat)| ≤ 2 ^ (-24 : Int) * |a.toRat + b.toRat|) := by
  generalize hvd : a.ssig * 2 ^ (a.qexp - min a.qexp b.qexp).toNat
      + b.ssig * 2 ^ (b.qexp - min a.qexp b.qexp).toNat = v
  have hab : a + b = if v = 0 then F32.zero (a.sign && b.sign)
      else F32.round (decide (v < 0)) v.natAbs (min a.qexp b.qexp) := by
    rw [add_def]
    simp only [F32.add, finite_not_nan a ha, finite_not_nan b hb, finite_not_inf a ha,
      finite_not_inf b hb, Bool.or_self, Bool.false_eq_true, if_false, hvd]
  have hsum : a.toRat + b.toRat = (v : ℚ) * 2 ^ (min a.qexp b.qexp) := by
    rw [← hvd, ← align_val a _ (min_le_left _ _), ← align_val b _ (min_le_right _ _)]
    push_cast
    ring
  rw [hab]
  by_cases hm : v = 0
  · have h0 : a.toRat + b.toRat = 0 := by rw [hsum, hm]; simp
    rw [if_pos hm, toRat_zero, h0]
    refine ⟨isFinite_zero _, by norm_num, fun _ => by norm_num⟩
  · rw [if_neg hm]
    have hna : v.natAbs ≠ 0 := by omega
    have habs : |a.toRat + b.toRat|
        = ((v.natAbs : Nat) : ℚ) * 2 ^ (min a.qexp b.qexp) := by
      rw [hsum, abs_mul, abs_of_pos (by positivity : (0 : ℚ) < 2 ^ (min a.qexp b.qexp)),
        natAbs_cast_abs]
    have hsum2 : a.toRat + b.toRat
        = sgn (decide (v < 0)) * (((v.natAbs : Nat) : ℚ) * 2 ^ (min a.qexp b.qexp)) := by
      rw [← mul_assoc, sgn_natAbs, hsum]
    rw [habs] at hv ⊢
    obtain ⟨r1, _, r3, r4⟩ := round_val (decide (v < 0)) v.natAbs (min a.qexp b.qexp) hna hv
    rw [hsum2]
    exact ⟨r1, r3, r4⟩

theorem neg_fields (b : F32) :
    (F32.neg b).expo = b.expo ∧ (F32.neg b).frac = b.frac ∧ (F32.neg b).sign = !b.sign := by
  unfold F32.neg
  by_cases h : b.sign = true
  · rw [if_pos h]
    have h1 : b.bits / 2 ^ 31 % 2 = 1 := by simpa [sign] using h
    refine ⟨?_, ?_, ?_⟩
    · simp only [expo]; omega
    · simp only [frac]; omega
    · rw [h]; simp only [sign, Bool.not_true, beq_eq_false_iff_ne, ne_eq]; omega
  · rw [if_neg h]
    have h1 : b.bits / 2 ^ 31 % 2 = 0 := by
      simp only [sign, beq_iff_eq] at h; omega
    have h' : b.sign = false := by simpa using h
    refine ⟨?_, ?_, ?_⟩
    · simp only [expo]; omega
    · simp only [frac]; omega
    · rw [h']; simp only [sign, Bool.not_false, beq_iff_eq]; omega

theorem neg_val (b : F32) : (F32.neg b).isFinite = b.isFinite ∧ (F32.neg b).toRat = -b.toRat := by
  obtain ⟨h1, h2, h3⟩ := neg_fields b
  constructor
  · simp [isFinite, h1]
  · have hs : (F32.neg b).sig = b.sig := by simp only [sig, h1, h2]
    have hq : (F32.neg b).qexp = b.qexp := by simp only [qexp, h1]
    rw [toRat_eq, toRat_eq, hs, hq, h3]
    cases b.sign <;> simp [sgn]

/-- Subtraction of finite values is the rounded exact difference. -/
theorem sub_val (a b : F32) (ha : a.isFinite = true) (hb : b.isFinite = true)
    (hv : |a.toRat - b.toRat| < 2 ^ (127 : Int)) :
    (a - b).isFinite = true ∧
    |(a - b).toRat - (a.toRat - b.toRat)|
      ≤ 2 ^ (-24 : Int) * |a.toRat - b.toRat| + 2 ^ (-150 : Int) ∧
    ((2 : ℚ) ^ (-126 : Int) ≤ |a.toRat - b.toRat| →
      |(a - b).toRat - (a.toRat - b.toRat)| ≤ 2 ^ (-24 : Int) * |a.toRat - b.toRat|) := by
  obtain ⟨n1, n2⟩ := neg_val b
  have h := add_val a (F32.neg b) ha (by rw [n1]; exact hb) (by rw [n2, ← sub_eq_add_neg]; exact hv)
  rw [n2, ← sub_eq_add_neg] at h
  exact h

/-! ### Accuracy of `invSqrt` -/

theorem cellOK_sound (c k a b f : Nat) (h : cellOK c k a b = true) (ha : a ≤ f) (hb : f ≤ b) :
    93 * 2 ^ k ≤ 100 * ((2 ^ 23 + f) * (c - f / 2) ^ 2) ∧
    100 * ((2 ^ 23 + f) * (c - f / 2) ^ 2) ≤ 107 * 2 ^ k := by
  simp only [cellOK, Bool.and_eq_true, decide_eq_true_eq] at h
  obtain ⟨h1, h2⟩ := h
  have m1 : c - b / 2 ≤ c - f / 2 := by omega
  have m2 : c - f / 2 ≤ c - a / 2 := by omega
  have m3 : (2 ^ 23 + a) * (c - b / 2) ^ 2 ≤ (2 ^ 23 + f) * (c - f / 2) ^ 2 :=
    Nat.mul_le_mul (by omega) (Nat.pow_le_pow_left m1 2)
  have m4 : (2 ^ 23 + f) * (c - f / 2) ^ 2 ≤ (2 ^ 23 + b) * (c - a / 2) ^ 2 :=
    Nat.mul_le_mul (by omega) (Nat.pow_le_pow_left m2 2)
  omega

theorem gridOK_sound (c k lo w : Nat) : ∀ (n : Nat), gridOK c k lo w n = true →
    0 < n → ∀ f, lo ≤ f → f ≤ lo + n * w →
    93 * 2 ^ k ≤ 100 * ((2 ^ 23 + f) * (c - f / 2) ^ 2) ∧
    100 * ((2 ^ 23 + f) * (c - f / 2) ^ 2) ≤ 107 * 2 ^ k
  | 0, _, h0, _, _, _ => absurd h0 (lt_irrefl 0)
  | n + 1, h, _, f, h1, h2 => by
    simp only [gridOK, Bool.and_eq_true] at h
    by_cases hf : f ≤ lo + n * w ∧ 0 < n
    · exact gridOK_sound c k lo w n h.1 hf.2 f h1 hf.1
    · refine cellOK_sound c k _ _ f h.2 ?_ h2
      by_cases hn : 0 < n
      · have h3 : ¬ f ≤ lo + n * w := fun h4 => hf ⟨h4, hn⟩
        omega
      · have h3 : n = 0 := by omega
        subst h3
        omega

set_option maxRecDepth 1000000 in
theorem gridA : gridOK 12016095 70 0 8192 886 = true := by decide!

set_option maxRecDepth 1000000 in
theorem gridB : gridOK 20404703 72 7249920 8192 139 = true := by decide!

set_option maxRecDepth 1000000 in
theorem gridC : gridOK 16210399 71 0 8192 1024 = true := by decide!

theorem toRat_f0_5 : f0_5.toRat = 1 / 2 := by
  have h1 : f0_5.ssig = 8388608 := by decide
  have h2 : f0_5.qexp = -24 := by decide
  rw [toRat, h1, h2]
  norm_num

theorem toRat_f1_5 : f1_5.toRat = 3 / 2 := by
  have h1 : f1_5.ssig = 12582912 := by decide
  have h2 : f1_5.qexp = -23 := by decide
  rw [toRat, h1, h2]
  norm_num

/-- A finite value between `1/1000` and `10^6` is a positive normal number with
biased exponent between 117 and 146. -/
theorem range_struct (x : F32) (hlo : (1 : ℚ) / 1000 ≤ x.toRat)
    (hhi : x.toRat ≤ 1000000) :
    x.sign = false ∧ 117 ≤ x.expo ∧ x.expo ≤ 146 ∧
    x.toRat = ((2 ^ 23 + x.frac : Nat) : ℚ) * 2 ^ ((x.expo : Int) - 150) := by
  have hfr : x.frac < 2 ^ 23 := Nat.mod_lt _ (by norm_num)
  have hfrq : (x.frac : ℚ) < 8388608 := by exact_mod_cast hfr
  have hsign : x.sign = false := by
    by_contra h
    have h1 : x.sign = true := by simpa using h
    have h2 : x.toRat ≤ 0 := by
      rw [toRat_eq, h1]
      have : (0 : ℚ) ≤ x.sig * 2 ^ x.qexp := by positivity
      simp only [sgn, if_true]
      linarith
    linarith
  have hval : x.toRat = (x.sig : ℚ) * 2 ^ x.qexp := by
    rw [toRat_eq, hsign]; simp [sgn]
  have he0 : x.expo ≠ 0 := by
    intro h0
    rw [hval] at hlo
    simp only [sig, qexp, h0, if_true] at hlo
    have : (x.frac : ℚ) * 2 ^ (-149 : Int) ≤ 8388608 * 2 ^ (-149 : Int) :=
      mul_le_mul_of_nonneg_right hfrq.le (by positivity)
    have h3 : (8388608 : ℚ) * 2 ^ (-149 : Int) < 1 / 1000 := by norm_num
    linarith
  have hval2 : x.toRat = ((2 ^ 23 + x.frac : Nat) : ℚ) * 2 ^ ((x.expo : Int) - 150) := by
    rw [hval]; simp only [sig, qexp, he0, if_false]
  have hpos : (0 : ℚ) < 2 ^ ((x.expo : Int) - 150) := by positivity
  refine ⟨hsign, ?_, ?_, hval2⟩
  · by_contra h
    have h1 : (x.expo : Int) - 150 ≤ -34 := by omega
    have h2 : (2 : ℚ) ^ ((x.expo : Int) - 150) ≤ 2 ^ (-34 : Int) :=
      zpow_le_zpow_right₀ (by norm_num) h1
    have h3 : ((2 ^ 23 + x.frac : Nat) : ℚ) ≤ 16777216 := by push_cast; linarith
    have h4 : x.toRat ≤ 16777216 * 2 ^ (-34 : Int) := by
      rw [hval2]
      exact mul_le_mul h3 h2 hpos.le (by norm_num)
    have h5 : (16777216 : ℚ) * 2 ^ (-34 : Int) < 1 / 1000 := by norm_num
    exact lt_irrefl _ (lt_of_le_of_lt (le_trans hlo h4) h5)
  · by_contra h
    have h1 : (-3 : Int) ≤ (x.expo : Int) - 150 := by omega
    have h2 : (2 : ℚ) ^ (-3 : Int) ≤ 2 ^ ((x.expo : Int) - 150) :=
      zpow_le_zpow_right₀ (by norm_num) h1
    have h3 : (8388608 : ℚ) ≤ ((2 ^ 23 + x.frac : Nat) : ℚ) := by push_cast; linarith [Nat.cast_nonneg (α := ℚ) x.frac]
    have h4 : 8388608 * 2 ^ (-3 : Int) ≤ x.toRat := by
      rw [hval2]
      exact mul_le_mul h3 h2 (by positivity) (by positivity)
    have h5 : (1000000 : ℚ) < 8388608 * 2 ^ (-3 : Int) := by norm_num
    exact lt_irrefl _ (lt_of_lt_of_le h5 (le_trans h4 hhi))

theorem seed_case (xv yv : ℚ) (f c k Q E : Nat)
    (hx : xv = ((2 ^ 23 + f : Nat) : ℚ) * 2 ^ ((E : Int) - 150))
    (hy : yv = ((c - f / 2 : Nat) : ℚ) * 2 ^ ((Q : Int) - 149))
    (hk : (E : Int) - 150 + 2 * ((Q : Int) - 149) = -(k : Int))
    (hg : 93 * 2 ^ k ≤ 100 * ((2 ^ 23 + f) * (c - f / 2) ^ 2) ∧
      100 * ((2 ^ 23 + f) * (c - f / 2) ^ 2) ≤ 107 * 2 ^ k) :
    (93 : ℚ) / 100 ≤ xv * yv ^ 2 ∧ xv * yv ^ 2 ≤ 107 / 100 := by
  obtain ⟨g1, g2⟩ := hg
  generalize hGn : (2 ^ 23 + f) * (c - f / 2) ^ 2 = Gn at g1 g2
  have hGq : ((2 : ℚ) ^ 23 + f) * ((c - f / 2 : Nat) : ℚ) ^ 2 = (Gn : ℚ) := by
    rw [← hGn]; push_cast; ring
  have hp : (0 : ℚ) < 2 ^ k := by positivity
  have hG : xv * yv ^ 2 = (Gn : ℚ) / 2 ^ k := by
    rw [hx, hy, eq_div_iff hp.ne']
    have e1 : (2 : ℚ) ^ ((E : Int) - 150) * (2 ^ ((Q : Int) - 149)) ^ 2 * 2 ^ k = 1 := by
      rw [← zpow_natCast (2 ^ ((Q : Int) - 149)) 2, ← zpow_mul, ← zpow_natCast 2 k,
        ← zpow_add₀ two_ne, ← zpow_add₀ two_ne]
      have : (E : Int) - 150 + ((Q : Int) - 149) * ((2 : Nat) : Int) + (k : Int) = 0 := by
        push_cast; omega
      rw [this, zpow_zero]
    push_cast
    calc ((2 : ℚ) ^ 23 + f) * 2 ^ ((E : Int) - 150)
          * (((c - f / 2 : Nat) : ℚ) * 2 ^ ((Q : Int) - 149)) ^ 2 * 2 ^ k
        = ((2 : ℚ) ^ 23 + f) * ((c - f / 2 : Nat) : ℚ) ^ 2
          * ((2 : ℚ) ^ ((E : Int) - 150) * (2 ^ ((Q : Int) - 149)) ^ 2 * 2 ^ k) := by ring
      _ = (Gn : ℚ) := by rw [e1, mul_one, hGq]
  have h1 : (93 : ℚ) * 2 ^ k ≤ 100 * Gn := by exact_mod_cast g1
  have h2 : (100 : ℚ) * Gn ≤ 107 * 2 ^ k := by exact_mod_cast g2
  rw [hG]
  constructor
  · rw [div_le_div_iff₀ (by norm_num) hp]
    linarith
  · rw [div_le_div_iff₀ hp (by norm_num)]
    linarith

/-- The seed of `invSqrt`: the float whose bit pattern is
`0x5f3759df - (i >> 1)`. -/
theorem seed_eq (x : F32) (hs : x.sign = false) :
    longToFloat (0x5f3759df - floatToLong x / 2)
      = ⟨1597463007 - (x.expo * 2 ^ 23 + x.frac) / 2⟩ := by
  have h0 : x.bits / 2 ^ 31 % 2 = 0 := by
    simp only [sign, beq_eq_false_iff_ne, ne_eq] at hs; omega
  have hb : x.bits % 2 ^ 32 = x.expo * 2 ^ 23 + x.frac := by
    simp only [expo, frac]; omega
  have hlt : x.expo * 2 ^ 23 + x.frac < 2 ^ 31 := by
    simp only [expo, frac]; omega
  unfold longToFloat floatToLong
  simp only [hb, hlt, if_true]
  congr 1
  generalize x.expo * 2 ^ 23 + x.frac = b at *
  omega

theorem seed_bounds (x : F32) (hs : x.sign = false) (h1 : 1 ≤ x.expo) (h2 : x.expo ≤ 254)
    (hv : x.toRat = ((2 ^ 23 + x.frac : Nat) : ℚ) * 2 ^ ((x.expo : Int) - 150)) :
    (longToFloat (0x5f3759df - floatToLong x / 2)).isFinite = true ∧
    0 < (longToFloat (0x5f3759df - floatToLong x / 2)).toRat ∧
    (93 : ℚ) / 100 ≤ x.toRat * (longToFloat (0x5f3759df - floatToLong x / 2)).toRat ^ 2 ∧
    x.toRat * (longToFloat (0x5f3759df - floatToLong x / 2)).toRat ^ 2 ≤ 107 / 100 := by
  rw [seed_eq x hs]
  have hfr : x.frac < 2 ^ 23 := Nat.mod_lt _ (by norm_num)
  generalize x.expo = E at *
  generalize x.frac = f at *
  have key : ∀ (c k Q : Nat), Q ≤ 252 → 2 ^ 23 ≤ c - f / 2 → c - f / 2 ≤ 2 ^ 24 →
      1597463007 - (E * 2 ^ 23 + f) / 2 = sbit false + (Q * 2 ^ 23 + (c - f / 2)) →
      (E : Int) - 150 + 2 * ((Q : Int) - 149) = -(k : Int) →
      (93 * 2 ^ k ≤ 100 * ((2 ^ 23 + f) * (c - f / 2) ^ 2) ∧
        100 * ((2 ^ 23 + f) * (c - f / 2) ^ 2) ≤ 107 * 2 ^ k) →
      (F32.mk (1597463007 - (E * 2 ^ 23 + f) / 2)).isFinite = true ∧
      0 < (F32.mk (1597463007 - (E * 2 ^ 23 + f) / 2)).toRat ∧
      (93 : ℚ) / 100 ≤ x.toRat * (F32.mk (1597463007 - (E * 2 ^ 23 + f) / 2)).toRat ^ 2 ∧
      x.toRat * (F32.mk (1597463007 - (E * 2 ^ 23 + f) / 2)).toRat ^ 2 ≤ 107 / 100 := by
    intro c k Q hQ hM1 hM2 hbits hk hg
    obtain ⟨_, d2, d3⟩ := decode false Q (c - f / 2) hQ hM2 (Or.inr hM1)
    rw [hbits]
    have d4 : (F32.mk (sbit false + (Q * 2 ^ 23 + (c - f / 2)))).toRat
        = ((c - f / 2 : Nat) : ℚ) * 2 ^ ((Q : Int) - 149) := by
      rw [d3]; simp [sgn]
    refine ⟨d2, ?_, seed_case _ _ f c k Q E hv d4 hk hg⟩
    rw [d4]
    have : (0 : ℚ) < ((c - f / 2 : Nat) : ℚ) := by
      have : 0 < c - f / 2 := lt_of_lt_of_le (by norm_num) hM1
      exact_mod_cast this
    positivity
  rcases Nat.even_or_odd' E with ⟨j, hj | hj⟩
  · by_cases hc : f / 2 ≤ 3627487
    · exact key 12016095 70 (189 - j) (by omega) (by omega) (by omega)
        (by simp only [sbit, Bool.false_eq_true, if_false]; omega) (by omega)
        (gridOK_sound 12016095 70 0 8192 886 gridA (by norm_num) f (by omega) (by omega))
    · exact key 20404703 72 (188 - j) (by omega) (by omega) (by omega)
        (by simp only [sbit, Bool.false_eq_true, if_false]; omega) (by omega)
        (gridOK_sound 20404703 72 7249920 8192 139 gridB (by norm_num) f (by omega) (by omega))
  · exact key 16210399 71 (188 - j) (by omega) (by omega) (by omega)
      (by simp only [sbit, Bool.false_eq_true, if_false]; omega) (by omega)
      (gridOK_sound 16210399 71 0 8192 1024 gridC (by norm_num) f (by omega) (by omega))

theorem u24_le : (2 : ℚ) ^ (-24 : Int) ≤ 1 / 10000000 := by norm_num

theorem lo126 : (2 : ℚ) ^ (-126 : Int) ≤ 1 / 10 ^ 30 := by norm_num

theorem hi127 : (10 : ℚ) ^ 30 < 2 ^ (127 : Int) := by norm_num

/-- A product of positive finite values of moderate size is computed with a
relative error of at most `10^-7`. -/
theorem mul_pos_val (a b : F32) (ha : a.isFinite = true) (hb : b.isFinite = true)
    (pa : 0 < a.toRat) (pb : 0 < b.toRat)
    (lo : (1 : ℚ) / 10 ^ 30 ≤ a.toRat * b.toRat) (hi : a.toRat * b.toRat ≤ 10 ^ 30) :
    (a * b).isFinite = true ∧
    (1 - 1 / 10000000) * (a.toRat * b.toRat) ≤ (a * b).toRat ∧
    (a * b).toRat ≤ (1 + 1 / 10000000) * (a.toRat * b.toRat) := by
  have hp : 0 < a.toRat * b.toRat := mul_pos pa pb
  have habs : |a.toRat * b.toRat| = a.toRat * b.toRat := abs_of_pos hp
  obtain ⟨m1, _, m3⟩ := mul_val a b ha hb (by rw [habs]; exact lt_of_le_of_lt hi hi127)
  have m4 := m3 (by rw [habs]; exact le_trans lo126 lo)
  rw [habs, abs_le] at m4
  have hu : (2 : ℚ) ^ (-24 : Int) * (a.toRat * b.toRat)
      ≤ 1 / 10000000 * (a.toRat * b.toRat) :=
    mul_le_mul_of_nonneg_right u24_le hp.le
  generalize (2 : ℚ) ^ (-24 : Int) * (a.toRat * b.toRat) = e at m4 hu
  obtain ⟨m5, m6⟩ := m4
  refine ⟨m1, ?_, ?_⟩ <;> linarith

/-- A difference of finite values that is positive and of moderate size is
computed with a relative error of at most `10^-7`. -/
theorem sub_pos_val (a b : F32) (ha : a.isFinite = true) (hb : b.isFinite = true)
    (lo : (1 : ℚ) / 10 ^ 30 ≤ a.toRat - b.toRat) (hi : a.toRat - b.toRat ≤ 10 ^ 30) :
    (a - b).isFinite = true ∧
    (1 - 1 / 10000000) * (a.toRat - b.toRat) ≤ (a - b).toRat ∧
    (a - b).toRat ≤ (1 + 1 / 10000000) * (a.toRat - b.toRat) := by
  have hp : 0 < a.toRat - b.toRat := lt_of_lt_of_le (by norm_num) lo
  have habs : |a.toRat - b.toRat| = a.toRat - b.toRat := abs_of_pos hp
  obtain ⟨m1, _, m3⟩ := sub_val a b ha hb (by rw [habs]; exact lt_of_le_of_lt hi hi127)
  have m4 := m3 (by rw [habs]; exact le_trans lo126 lo)
  rw [habs, abs_le] at m4
  have hu : (2 : ℚ) ^ (-24 : Int) * (a.toRat - b.toRat)
      ≤ 1 / 10000000 * (a.toRat - b.toRat) :=
    mul_le_mul_of_nonneg_right u24_le hp.le
  generalize (2 : ℚ) ^ (-24 : Int) * (a.toRat - b.toRat) = e at m4 hu
  obtain ⟨m5, m6⟩ := m4
  refine ⟨m1, ?_, ?_⟩ <;> linarith

theorem prod_bounds {a b la ua lb ub : ℚ} (hla : 0 ≤ la) (hlb : 0 ≤ lb)
    (h1 : la ≤ a) (h2 : a ≤ ua) (h3 : lb ≤ b) (h4 : b ≤ ub) :
    la * lb ≤ a * b ∧ a * b ≤ ua * ub :=
  ⟨mul_le_mul h1 h3 hlb (le_trans hla h1),
   mul_le_mul h2 h4 (le_trans hlb h3) (le_trans hla (le_trans h1 h2))⟩

/-- Size of the seed, from the bounds on `x * y0^2`. -/
theorem seed_size (X Y : ℚ) (hX1 : (1 : ℚ) / 1000 ≤ X) (hX2 : X ≤ 1000000) (hY : 0 < Y)
    (hT1 : (93 : ℚ) / 100 ≤ X * Y ^ 2) (hT2 : X * Y ^ 2 ≤ 107 / 100) :
    (9 : ℚ) / 10000 ≤ Y ∧ Y ≤ 33 := by
  constructor
  · by_contra h
    push_neg at h
    have h1 : Y ^ 2 ≤ (9 / 10000) ^ 2 := by
      exact pow_le_pow_left₀ hY.le h.le 2
    have h2 : X * Y ^ 2 ≤ 1000000 * (9 / 10000) ^ 2 :=
      mul_le_mul hX2 h1 (by positivity) (by norm_num)
    norm_num at h2
    linarith
  · by_contra h
    push_neg at h
    have h1 : (33 : ℚ) ^ 2 ≤ Y ^ 2 := pow_le_pow_left₀ (by norm_num) h.le 2
    have h2 : 1 / 1000 * (33 : ℚ) ^ 2 ≤ X * Y ^ 2 :=
      mul_le_mul hX1 h1 (by norm_num) (by linarith)
    norm_num at h2
    linarith

/-- The argument of the subtraction in the Newton-Raphson step of `invSqrt`,
every operation carrying a relative error of at most `10^-7`. -/
theorem newton_a2 (X Y h a1 a2 cl cu : ℚ)
    (hcl : cl = 1 - 1 / 10000000) (hcu : cu = 1 + 1 / 10000000)
    (hX : 0 < X) (hY : 0 < Y)
    (hT1 : (93 : ℚ) / 100 ≤ X * Y ^ 2) (hT2 : X * Y ^ 2 ≤ 107 / 100)
    (hh1 : cl * (1 / 2 * X) ≤ h) (hh2 : h ≤ cu * (1 / 2 * X))
    (h11 : cl * (h * Y) ≤ a1) (h12 : a1 ≤ cu * (h * Y))
    (h21 : cl * (a1 * Y) ≤ a2) (h22 : a2 ≤ cu * (a1 * Y)) :
    cl ^ 3 * (X * Y ^ 2 / 2) ≤ a2 ∧ a2 ≤ cu ^ 3 * (X * Y ^ 2 / 2) ∧
    (464999 : ℚ) / 1000000 ≤ a2 ∧ a2 ≤ 535001 / 1000000 := by
  have cl0 : 0 ≤ cl := by rw [hcl]; norm_num
  have cu0 : 0 ≤ cu := by rw [hcu]; norm_num
  have cl3 : (9999996 : ℚ) / 10000000 ≤ cl ^ 3 := by rw [hcl]; norm_num
  have cu3 : cu ^ 3 ≤ (10000004 : ℚ) / 10000000 := by rw [hcu]; norm_num
  have hT0 : 0 ≤ X * Y ^ 2 / 2 := by positivity
  -- a2 against T / 2
  have hA_hi : a2 ≤ cu ^ 3 * (X * Y ^ 2 / 2) := by
    have e1 : h * Y ≤ cu * (1 / 2 * X) * Y := mul_le_mul_of_nonneg_right hh2 hY.le
    have e2 : a1 ≤ cu * (cu * (1 / 2 * X) * Y) :=
      le_trans h12 (mul_le_mul_of_nonneg_left e1 cu0)
    have e3 : a1 * Y ≤ cu * (cu * (1 / 2 * X) * Y) * Y := mul_le_mul_of_nonneg_right e2 hY.le
    have e4 : a2 ≤ cu * (cu * (cu * (1 / 2 * X) * Y) * Y) :=
      le_trans h22 (mul_le_mul_of_nonneg_left e3 cu0)
    calc a2 ≤ cu * (cu * (cu * (1 / 2 * X) * Y) * Y) := e4
      _ = cu ^ 3 * (X * Y ^ 2 / 2) := by ring
  have hA_lo : cl ^ 3 * (X * Y ^ 2 / 2) ≤ a2 := by
    have e1 : cl * (1 / 2 * X) * Y ≤ h * Y := mul_le_mul_of_nonneg_right hh1 hY.le
    have e2 : cl * (cl * (1 / 2 * X) * Y) ≤ a1 :=
      le_trans (mul_le_mul_of_nonneg_left e1 cl0) h11
    have e3 : cl * (cl * (1 / 2 * X) * Y) * Y ≤ a1 * Y := mul_le_mul_of_nonneg_right e2 hY.le
    have e4 : cl * (cl * (cl * (1 / 2 * X) * Y) * Y) ≤ a2 :=
      le_trans (mul_le_mul_of_nonneg_left e3 cl0) h21
    calc cl ^ 3 * (X * Y ^ 2 / 2) = cl * (cl * (cl * (1 / 2 * X) * Y) * Y) := by ring
      _ ≤ a2 := e4
  have ha2_hi : a2 ≤ 535001 / 1000000 := by
    have e1 : cu ^ 3 * (X * Y ^ 2 / 2) ≤ 10000004 / 10000000 * (107 / 100 / 2) :=
      mul_le_mul cu3 (by linarith) hT0 (by norm_num)
    have e2 : (10000004 : ℚ) / 10000000 * (107 / 100 / 2) ≤ 535001 / 1000000 := by norm_num
    linarith
  have ha2_lo : (464999 : ℚ) / 1000000 ≤ a2 := by
    have e1 : 9999996 / 10000000 * (93 / 100 / 2) ≤ cl ^ 3 * (X * Y ^ 2 / 2) :=
      mul_le_mul cl3 (by linarith) (by norm_num) (by positivity)
    have e2 : (464999 : ℚ) / 1000000 ≤ 9999996 / 10000000 * (93 / 100 / 2) := by norm_num
    linarith
  exact ⟨hA_lo, hA_hi, ha2_lo, ha2_hi⟩

/-- The Newton-Raphson step of `invSqrt` in rational arithmetic, every operation
carrying a relative error of at most `10^-7`. -/
theorem newton_arith (X Y h a1 a2 a3 r cl cu : ℚ)
    (hcl : cl = 1 - 1 / 10000000) (hcu : cu = 1 + 1 / 10000000)
    (hX : 0 < X) (hY : 0 < Y)
    (hT1 : (93 : ℚ) / 100 ≤ X * Y ^ 2) (hT2 : X * Y ^ 2 ≤ 107 / 100)
    (hh1 : cl * (1 / 2 * X) ≤ h) (hh2 : h ≤ cu * (1 / 2 * X))
    (h11 : cl * (h * Y) ≤ a1) (h12 : a1 ≤ cu * (h * Y))
    (h21 : cl * (a1 * Y) ≤ a2) (h22 : a2 ≤ cu * (a1 * Y))
    (h31 : cl * (3 / 2 - a2) ≤ a3) (h32 : a3 ≤ cu * (3 / 2 - a2))
    (hr1 : cl * (Y * a3) ≤ r) (hr2 : r ≤ cu * (Y * a3)) :
    (464999 : ℚ) / 1000000 ≤ a2 ∧ a2 ≤ 535001 / 1000000 ∧
    0 < r ∧ (9962 : ℚ) / 10000 < r ^ 2 * X ∧ r ^ 2 * X < 1000002 / 1000000 := by
  have cl0 : 0 ≤ cl := by rw [hcl]; norm_num
  have cu0 : 0 ≤ cu := by rw [hcu]; norm_num
  have cl3 : (9999996 : ℚ) / 10000000 ≤ cl ^ 3 := by rw [hcl]; norm_num
  have cu3 : cu ^ 3 ≤ (10000004 : ℚ) / 10000000 := by rw [hcu]; norm_num
  have cl4 : (9999995 : ℚ) / 10000000 ≤ cl ^ 4 := by rw [hcl]; norm_num
  have cu4 : cu ^ 4 ≤ (10000005 : ℚ) / 10000000 := by rw [hcu]; norm_num
  obtain ⟨hA_lo, hA_hi, ha2_lo, ha2_hi⟩ :=
    newton_a2 X Y h a1 a2 cl cu hcl hcu hX hY hT1 hT2 hh1 hh2 h11 h12 h21 h22
  -- the exact Newton map at s = 2 * a2
  have hw0 : 0 < 3 / 2 - a2 := by linarith
  have hH_id : 1 - 2 * a2 * (3 / 2 - a2) ^ 2 = (1 - 2 * a2) ^ 2 * (4 - 2 * a2) / 4 := by ring
  have hsq : (1 - 2 * a2) ^ 2 ≤ (70002 / 1000000) ^ 2 := by
    apply sq_le_sq'
    · linarith
    · linarith
  have hH_hi : 2 * a2 * (3 / 2 - a2) ^ 2 ≤ 1 := by
    have : 0 ≤ (1 - 2 * a2) ^ 2 * (4 - 2 * a2) / 4 := by
      have : 0 ≤ 4 - 2 * a2 := by linarith
      positivity
    linarith
  have hH_lo : (99623 : ℚ) / 100000 ≤ 2 * a2 * (3 / 2 - a2) ^ 2 := by
    have e1 : (1 - 2 * a2) ^ 2 * (4 - 2 * a2) ≤ (70002 / 1000000) ^ 2 * (3070002 / 1000000) :=
      mul_le_mul hsq (by linarith) (by linarith) (by positivity)
    have e2 : ((70002 : ℚ) / 1000000) ^ 2 * (3070002 / 1000000) / 4 ≤ 377 / 100000 := by
      norm_num
    linarith
  -- Z = T * w^2
  have hZ0 : 0 ≤ X * Y ^ 2 * (3 / 2 - a2) ^ 2 := by positivity
  have hw2 : 0 ≤ (3 / 2 - a2) ^ 2 := by positivity
  have hZ_hi : X * Y ^ 2 * (3 / 2 - a2) ^ 2 ≤ 10000005 / 10000000 := by
    have e1 : cl ^ 3 * (X * Y ^ 2 / 2) * (2 * (3 / 2 - a2) ^ 2) ≤ a2 * (2 * (3 / 2 - a2) ^ 2) :=
      mul_le_mul_of_nonneg_right hA_lo (by positivity)
    have e2 : cl ^ 3 * (X * Y ^ 2 * (3 / 2 - a2) ^ 2) ≤ 1 := by
      calc cl ^ 3 * (X * Y ^ 2 * (3 / 2 - a2) ^ 2)
          = cl ^ 3 * (X * Y ^ 2 / 2) * (2 * (3 / 2 - a2) ^ 2) := by ring
        _ ≤ a2 * (2 * (3 / 2 - a2) ^ 2) := e1
        _ = 2 * a2 * (3 / 2 - a2) ^ 2 := by ring
        _ ≤ 1 := hH_hi
    have e3 : 9999996 / 10000000 * (X * Y ^ 2 * (3 / 2 - a2) ^ 2)
        ≤ cl ^ 3 * (X * Y ^ 2 * (3 / 2 - a2) ^ 2) := mul_le_mul_of_nonneg_right cl3 hZ0
    linarith
  have hZ_lo : (996229 : ℚ) / 1000000 ≤ X * Y ^ 2 * (3 / 2 - a2) ^ 2 := by
    have e1 : a2 * (2 * (3 / 2 - a2) ^ 2) ≤ cu ^ 3 * (X * Y ^ 2 / 2) * (2 * (3 / 2 - a2) ^ 2) :=
      mul_le_mul_of_nonneg_right hA_hi (by positivity)
    have e2 : (99623 : ℚ) / 100000 ≤ cu ^ 3 * (X * Y ^ 2 * (3 / 2 - a2) ^ 2) := by
      calc (99623 : ℚ) / 100000 ≤ 2 * a2 * (3 / 2 - a2) ^ 2 := hH_lo
        _ = a2 * (2 * (3 / 2 - a2) ^ 2) := by ring
        _ ≤ cu ^ 3 * (X * Y ^ 2 / 2) * (2 * (3 / 2 - a2) ^ 2) := e1
        _ = cu ^ 3 * (X * Y ^ 2 * (3 / 2 - a2) ^ 2) := by ring
    have e3 : cu ^ 3 * (X * Y ^ 2 * (3 / 2 - a2) ^ 2)
        ≤ 10000004 / 10000000 * (X * Y ^ 2 * (3 / 2 - a2) ^ 2) :=
      mul_le_mul_of_nonneg_right cu3 hZ0
    linarith
  -- the result
  have hYw : 0 < Y * (3 / 2 - a2) := mul_pos hY hw0
  have hr_hi : r ≤ cu ^ 2 * (Y * (3 / 2 - a2)) := by
    have e1 : Y * a3 ≤ Y * (cu * (3 / 2 - a2)) := mul_le_mul_of_nonneg_left h32 hY.le
    have e2 : r ≤ cu * (Y * (cu * (3 / 2 - a2))) :=
      le_trans hr2 (mul_le_mul_of_nonneg_left e1 cu0)
    calc r ≤ cu * (Y * (cu * (3 / 2 - a2))) := e2
      _ = cu ^ 2 * (Y * (3 / 2 - a2)) := by ring
  have hr_lo : cl ^ 2 * (Y * (3 / 2 - a2)) ≤ r := by
    have e1 : Y * (cl * (3 / 2 - a2)) ≤ Y * a3 := mul_le_mul_of_nonneg_left h31 hY.le
    have e2 : cl * (Y * (cl * (3 / 2 - a2))) ≤ r :=
      le_trans (mul_le_mul_of_nonneg_left e1 cl0) hr1
    calc cl ^ 2 * (Y * (3 / 2 - a2)) = cl * (Y * (cl * (3 / 2 - a2))) := by ring
      _ ≤ r := e2
  have hcl2 : 0 < cl ^ 2 := by rw [hcl]; norm_num
  have hlo0 : 0 < cl ^ 2 * (Y * (3 / 2 - a2)) := mul_pos hcl2 hYw
  have hr0 : 0 < r := lt_of_lt_of_le hlo0 hr_lo
  have hr2_hi : r ^ 2 ≤ (cu ^ 2 * (Y * (3 / 2 - a2))) ^ 2 := pow_le_pow_left₀ hr0.le hr_hi 2
  have hr2_lo : (cl ^ 2 * (Y * (3 / 2 - a2))) ^ 2 ≤ r ^ 2 := pow_le_pow_left₀ hlo0.le hr_lo 2
  have hfin_hi : r ^ 2 * X ≤ cu ^ 4 * (X * Y ^ 2 * (3 / 2 - a2) ^ 2) := by
    calc r ^ 2 * X ≤ (cu ^ 2 * (Y * (3 / 2 - a2))) ^ 2 * X :=
          mul_le_mul_of_nonneg_right hr2_hi hX.le
      _ = cu ^ 4 * (X * Y ^ 2 * (3 / 2 - a2) ^ 2) := by ring
  have hfin_lo : cl ^ 4 * (X * Y ^ 2 * (3 / 2 - a2) ^ 2) ≤ r ^ 2 * X := by
    calc cl ^ 4 * (X * Y ^ 2 * (3 / 2 - a2) ^ 2)
        = (cl ^ 2 * (Y * (3 / 2 - a2))) ^ 2 * X := by ring
      _ ≤ r ^ 2 * X := mul_le_mul_of_nonneg_right hr2_lo hX.le
  have hcl4pos : 0 ≤ cl ^ 4 := by positivity
  have hcu4pos : 0 ≤ cu ^ 4 := by positivity
  have f1 : cu ^ 4 * (X * Y ^ 2 * (3 / 2 - a2) ^ 2) ≤ 10000005 / 10000000 * (10000005 / 10000000) :=
    mul_le_mul cu4 hZ_hi hZ0 (by norm_num)
  have f2 : (9999995 : ℚ) / 10000000 * (996229 / 1000000) ≤ cl ^ 4 * (X * Y ^ 2 * (3 / 2 - a2) ^ 2) :=
    mul_le_mul cl4 hZ_lo (by norm_num) hcl4pos
  have f3 : (10000005 : ℚ) / 10000000 * (10000005 / 10000000) < 1000002 / 1000000 := by norm_num
  have f4 : (9962 : ℚ) / 10000 < 9999995 / 10000000 * (996229 / 1000000) := by norm_num
  exact ⟨ha2_lo, ha2_hi, hr0, by linarith, by linarith⟩

theorem invSqrt_eq (x : F32) :
    invSqrt x = longToFloat (0x5f3759df - floatToLong x / 2)
      * (f1_5 - (f0_5 * x * longToFloat (0x5f3759df - floatToLong x / 2)
          * longToFloat (0x5f3759df - floatToLong x / 2))) := rfl

/-- Accuracy of `invSqrt` on `[10^-3, 10^6]`, in squared form: the result `y` is
finite and positive and `0.9962 < y^2 * x < 1.000002`. -/
theorem invSqrt_val (x : F32) (hlo : (1 : ℚ) / 1000 ≤ x.toRat) (hhi : x.toRat ≤ 1000000) :
    (invSqrt x).isFinite = true ∧ 0 < (invSqrt x).toRat ∧
    (9962 : ℚ) / 10000 < (invSqrt x).toRat ^ 2 * x.toRat ∧
    (invSqrt x).toRat ^ 2 * x.toRat < 1000002 / 1000000 := by
  obtain ⟨hs, hE1, hE2, hv⟩ := range_struct x hlo hhi
  have hxf : x.isFinite = true := by
    simp only [isFinite, bne_iff_ne, ne_eq]; omega
  obtain ⟨yf, ypos, hT1, hT2⟩ := seed_bounds x hs (by omega) (by omega) hv
  rw [invSqrt_eq]
  generalize longToFloat (0x5f3759df - floatToLong x / 2) = y0 at *
  obtain ⟨hY1, hY2⟩ := seed_size x.toRat y0.toRat hlo hhi ypos hT1 hT2
  have hX0 : 0 < x.toRat := lt_of_lt_of_le (by norm_num) hlo
  have hhalf : f0_5.isFinite = true := by decide
  have h15 : f1_5.isFinite = true := by decide
  -- halfx = 0.5f * x
  obtain ⟨k1, k2, k3⟩ := mul_pos_val f0_5 x hhalf hxf (by rw [toRat_f0_5]; norm_num) hX0
    (by rw [toRat_f0_5]; linarith) (by rw [toRat_f0_5]; linarith)
  rw [toRat_f0_5] at k2 k3
  generalize f0_5 * x = halfx at *
  have hh0 : 0 < halfx.toRat := by linarith
  have hhl : (4 : ℚ) / 10000 ≤ halfx.toRat := by linarith
  have hhu : halfx.toRat ≤ 600000 := by linarith
  -- halfx * y
  obtain ⟨b1, b2⟩ := prod_bounds (by norm_num) (by norm_num) hhl hhu hY1 hY2
  obtain ⟨l1, l2, l3⟩ := mul_pos_val halfx y0 k1 yf hh0 ypos (by linarith) (by linarith)
  generalize halfx * y0 = p1 at *
  have hp0 : 0 < p1.toRat := by linarith
  have hpl : (3 : ℚ) / 10000000 ≤ p1.toRat := by linarith
  have hpu : p1.toRat ≤ 20000000 := by linarith
  -- halfx * y * y
  obtain ⟨c1, c2⟩ := prod_bounds (by norm_num) (by norm_num) hpl hpu hY1 hY2
  obtain ⟨m1, m2, m3⟩ := mul_pos_val p1 y0 l1 yf hp0 ypos (by linarith) (by linarith)
  generalize p1 * y0 = p2 at *
  obtain ⟨_, _, n3, n4⟩ := newton_a2 x.toRat y0.toRat halfx.toRat p1.toRat p2.toRat
    (1 - 1 / 10000000) (1 + 1 / 10000000) rfl rfl hX0 ypos hT1 hT2 k2 k3 l2 l3 m2 m3
  -- 1.5f - halfx * y * y
  obtain ⟨s1, s2, s3⟩ := sub_pos_val f1_5 p2 h15 m1 (by rw [toRat_f1_5]; linarith)
    (by rw [toRat_f1_5]; linarith)
  rw [toRat_f1_5] at s2 s3
  generalize f1_5 - p2 = p3 at *
  have hq0 : 0 < p3.toRat := by linarith
  have hql : (9 : ℚ) / 10 ≤ p3.toRat := by linarith
  have hqu : p3.toRat ≤ 11 / 10 := by linarith
  -- y * (...)
  obtain ⟨d1, d2⟩ := prod_bounds (by norm_num) (by norm_num) hY1 hY2 hql hqu
  obtain ⟨r1, r2, r3⟩ := mul_pos_val y0 p3 yf s1 ypos hq0 (by linarith) (by linarith)
  obtain ⟨_, _, z1, z2, z3⟩ := newton_arith x.toRat y0.toRat halfx.toRat p1.toRat p2.toRat
    p3.toRat (y0 * p3).toRat (1 - 1 / 10000000) (1 + 1 / 10000000) rfl rfl hX0 ypos hT1 hT2
    k2 k3 l2 l3 m2 m3 s2 s3 r2 r3
  exact ⟨r1, z1, z2, z3⟩

theorem toRat_f1 : f1.toRat = 1 := by
  have h1 : f1.ssig = 8388608 := by decide
  have h2 : f1.qexp = -23 := by decide
  rw [toRat, h1, h2]
  norm_num

/-- From the squared form to the relative error against the real square root. -/
theorem rel_err_of_sq (y X : ℝ) (hy : 0 < y) (hX : 0 ≤ X)
    (h1 : (996004 : ℝ) / 1000000 < y ^ 2 * X) (h2 : y ^ 2 * X < 1004004 / 1000000) :
    |y * Real.sqrt X - 1| < 2 / 1000 := by
  have hz0 : 0 ≤ y * Real.sqrt X := mul_nonneg hy.le (Real.sqrt_nonneg X)
  have hz2 : (y * Real.sqrt X) ^ 2 = y ^ 2 * X := by
    rw [mul_pow, Real.sq_sqrt hX]
  rw [← hz2] at h1 h2
  generalize y * Real.sqrt X = z at *
  rw [abs_lt]
  constructor
  · by_contra h
    push_neg at h
    have h3 : z ≤ 998 / 1000 := by linarith
    have h4 : z ^ 2 ≤ (998 / 1000) ^ 2 := pow_le_pow_left₀ hz0 h3 2
    norm_num at h4
    linarith
  · by_contra h
    push_neg at h
    have h3 : (1002 : ℝ) / 1000 ≤ z := by linarith
    have h4 : ((1002 : ℝ) / 1000) ^ 2 ≤ z ^ 2 := pow_le_pow_left₀ (by norm_num) h3 2
    norm_num at h4
    linarith


/-! ### The filter -/

theorem ofInt_one : F32.ofInt 1 = f1 := by decide

theorem ofInt_zero : F32.ofInt 0 = f0 := by decide

theorem ahrsInit_quat (s : State) : (ahrsInit s).quat = identityQ := by
  simp [ahrsInit, State.quat, identityQ, ofInt_one, ofInt_zero]

theorem IMUupdateWith_first (twoKp twoKi : F32) (s : State) (gx gy gz ax ay az : F32)
    (tv : Timeval) (q : QArr) (h : s.last_tv.tv_sec = 0) :
    IMUupdateWith twoKp twoKi s gx gy gz ax ay az tv q = ({ s with last_tv := tv }, q) := by
  simp [IMUupdateWith, h]

theorem isZero_not_gt (x : F32) (h : x.isZero = true) : F32.gt x f0 = false := by
  have hk : x.key = 0 := by
    simp only [F32.isZero, F32.expo, F32.frac, Bool.and_eq_true, beq_iff_eq] at h
    have h31 : x.bits % 2 ^ 31 = 0 := by omega
    unfold F32.key
    rw [h31]
    split <;> rfl
  have h0 : f0.key = 0 := by decide
  simp [F32.gt, hk, h0]

theorem feedback_acc_zero (twoKp twoKi : F32) (s : State) (gx gy gz ax ay az : F32)
    (tv : Timeval) (hK : F32.gt twoKi f0 = false)
    (hx : s.integralFBx.isZero = true) (hy : s.integralFBy.isZero = true)
    (hz : s.integralFBz.isZero = true) :
    (feedback twoKp twoKi s gx gy gz ax ay az tv).integralFBx.isZero = true ∧
    (feedback twoKp twoKi s gx gy gz ax ay az tv).integralFBy.isZero = true ∧
    (feedback twoKp twoKi s gx gy gz ax ay az tv).integralFBz.isZero = true := by
  have hf0 : f0.isZero = true := by decide
  unfold feedback
  simp only [hK]
  split <;> simp [hx, hy, hz, hf0]

theorem IMUupdateWith_acc_zero (twoKp twoKi : F32) (s : State) (gx gy gz ax ay az : F32)
    (tv : Timeval) (q : QArr) (hK : F32.gt twoKi f0 = false)
    (hx : s.integralFBx.isZero = true) (hy : s.integralFBy.isZero = true)
    (hz : s.integralFBz.isZero = true) :
    (IMUupdateWith twoKp twoKi s gx gy gz ax ay az tv q).1.integralFBx.isZero = true ∧
    (IMUupdateWith twoKp twoKi s gx gy gz ax ay az tv q).1.integralFBy.isZero = true ∧
    (IMUupdateWith twoKp twoKi s gx gy gz ax ay az tv q).1.integralFBz.isZero = true := by
  unfold IMUupdateWith
  split
  · exact feedback_acc_zero twoKp twoKi s gx gy gz ax ay az tv hK hx hy hz
  · exact ⟨hx, hy, hz⟩

theorem runWith_acc_zero (twoKp twoKi : F32) (hK : F32.gt twoKi f0 = false)
    (calls : List Call) : ∀ r : State × QArr,
    r.1.integralFBx.isZero = true → r.1.integralFBy.isZero = true →
    r.1.integralFBz.isZero = true →
    (runWith twoKp twoKi r calls).1.integralFBx.isZero = true ∧
    (runWith twoKp twoKi r calls).1.integralFBy.isZero = true ∧
    (runWith twoKp twoKi r calls).1.integralFBz.isZero = true := by
  induction calls with
  | nil => intro r hx hy hz; exact ⟨hx, hy, hz⟩
  | cons c cs ih =>
    intro r hx hy hz
    obtain ⟨hx1, hy1, hz1⟩ :=
      IMUupdateWith_acc_zero twoKp twoKi r.1 c.gx c.gy c.gz c.ax c.ay c.az c.tv r.2 hK hx hy hz
    exact ih _ hx1 hy1 hz1

/-- With an all-zero accelerometer reading the steady-state step integrates with
`timeDiff = 0`: the local is only assigned inside the validity gate. -/
theorem steadyStep_zero_accel (twoKp twoKi : F32) (s : State) (gx gy gz ax ay az : F32)
    (tv : Timeval) (hx : F32.eq ax f0 = true) (hy : F32.eq ay f0 = true)
    (hz : F32.eq az f0 = true) :
    (steadyStep twoKp twoKi s gx gy gz ax ay az tv).2 = normalise (integrate s gx gy gz f0) ∧
    (steadyStep twoKp twoKi s gx gy gz ax ay az tv).1.integralFBx = s.integralFBx ∧
    (steadyStep twoKp twoKi s gx gy gz ax ay az tv).1.integralFBy = s.integralFBy ∧
    (steadyStep twoKp twoKi s gx gy gz ax ay az tv).1.integralFBz = s.integralFBz := by
  simp [steadyStep, feedback, hx, hy, hz]

/-! ### Normalisation of the quaternion -/

theorem toRat_nonneg_of_sign (x : F32) (h : x.sign = false) : 0 ≤ x.toRat := by
  rw [toRat_eq, h]
  simp only [sgn, Bool.false_eq_true, if_false, one_mul]
  positivity

theorem round_nonneg (m : Nat) (e : Int) (hv : (m : ℚ) * 2 ^ e < 2 ^ (127 : Int)) :
    0 ≤ (F32.round false m e).toRat := by
  by_cases hm : m = 0
  · rw [hm, round_zero, toRat_zero]
  · exact toRat_nonneg_of_sign _ (round_val false m e hm hv).2.1

/-- The square of a finite value: finite, non-negative, within half a unit in
the last place of the exact square. -/
theorem mul_self_val (a : F32) (ha : a.isFinite = true)
    (hv : a.toRat ^ 2 < 2 ^ (127 : Int)) :
    (a * a).isFinite = true ∧ 0 ≤ (a * a).toRat ∧
    |(a * a).toRat - a.toRat ^ 2| ≤ 2 ^ (-24 : Int) * a.toRat ^ 2 + 2 ^ (-150 : Int) := by
  have h2 : a.toRat * a.toRat = a.toRat ^ 2 := by ring
  have habs : |a.toRat * a.toRat| = a.toRat ^ 2 := by
    rw [h2]; exact abs_of_nonneg (sq_nonneg _)
  obtain ⟨m1, m2, _⟩ := mul_val a a ha ha (by rw [habs]; exact hv)
  rw [habs, h2] at m2
  refine ⟨m1, ?_, m2⟩
  have hab : a * a = F32.round false (a.sig * a.sig) (a.qexp + a.qexp) := by
    rw [mul_def]
    simp [F32.mul, finite_not_nan a ha, finite_not_inf a ha]
  rw [hab]
  apply round_nonneg
  have e1 : (((a.sig * a.sig : Nat) : ℚ)) * 2 ^ (a.qexp + a.qexp) = a.toRat ^ 2 := by
    rw [toRat_eq, zpow_add₀ two_ne]
    push_cast
    have : sgn a.sign ^ 2 = 1 := by cases a.sign <;> simp [sgn]
    calc (a.sig : ℚ) * a.sig * (2 ^ a.qexp * 2 ^ a.qexp)
        = 1 * ((a.sig : ℚ) * 2 ^ a.qexp) ^ 2 := by ring
      _ = sgn a.sign ^ 2 * ((a.sig : ℚ) * 2 ^ a.qexp) ^ 2 := by rw [this]
      _ = (sgn a.sign * a.sig * 2 ^ a.qexp) ^ 2 := by ring
  rw [e1]
  exact hv

/-- The sum of two finite non-negative values: finite, non-negative, within
half a unit in the last place of the exact sum. -/
theorem add_nonneg_val (a b : F32) (ha : a.isFinite = true) (hb : b.isFinite = true)
    (pa : 0 ≤ a.toRat) (pb : 0 ≤ b.toRat) (hv : a.toRat + b.toRat < 2 ^ (127 : Int)) :
    (a + b).isFinite = true ∧ 0 ≤ (a + b).toRat ∧
    |(a + b).toRat - (a.toRat + b.toRat)|
      ≤ 2 ^ (-24 : Int) * (a.toRat + b.toRat) + 2 ^ (-150 : Int) := by
  have hs : 0 ≤ a.toRat + b.toRat := add_nonneg pa pb
  have habs : |a.toRat + b.toRat| = a.toRat + b.toRat := abs_of_nonneg hs
  obtain ⟨m1, m2, _⟩ := add_val a b ha hb (by rw [habs]; exact hv)
  rw [habs] at m2
  refine ⟨m1, ?_, m2⟩
  generalize hvd : a.ssig * 2 ^ (a.qexp - min a.qexp b.qexp).toNat
      + b.ssig * 2 ^ (b.qexp - min a.qexp b.qexp).toNat = v
  have hab : a + b = if v = 0 then F32.zero (a.sign && b.sign)
      else F32.round (decide (v < 0)) v.natAbs (min a.qexp b.qexp) := by
    rw [add_def]
    simp only [F32.add, finite_not_nan a ha, finite_not_nan b hb, finite_not_inf a ha,
      finite_not_inf b hb, Bool.or_self, Bool.false_eq_true, if_false, hvd]
  have hsum : a.toRat + b.toRat = (v : ℚ) * 2 ^ (min a.qexp b.qexp) := by
    rw [← hvd, ← align_val a _ (min_le_left _ _), ← align_val b _ (min_le_right _ _)]
    push_cast
    ring
  rw [hab]
  by_cases hm : v = 0
  · rw [if_pos hm, toRat_zero]
  · rw [if_neg hm]
    have hvq : (0 : ℚ) ≤ (v : ℚ) := by
      rw [hsum] at hs
      exact nonneg_of_mul_nonneg_left hs (by positivity)
    have hv0 : ¬ v < 0 := by
      intro h
      have : (v : ℚ) < 0 := by exact_mod_cast h
      linarith
    have hd : decide (v < 0) = false := by simp [hv0]
    rw [hd]
    apply round_nonneg
    have : ((v.natAbs : Nat) : ℚ) = (v : ℚ) := by
      rw [natAbs_cast_abs, abs_of_nonneg hvq]
    rw [this, ← hsum]
    exact hv


theorem eta_pos : 0 < eta := by unfold eta; positivity

theorem eta_le : eta ≤ 1 / 10 ^ 45 := by unfold eta; norm_num

theorem err_bounds {fl v : ℚ} (hv : 0 ≤ v)
    (h : |fl - v| ≤ 2 ^ (-24 : Int) * v + 2 ^ (-150 : Int)) :
    (1 - 1 / 10000000) * v - eta ≤ fl ∧ fl ≤ (1 + 1 / 10000000) * v + eta := by
  have hu : (2 : ℚ) ^ (-24 : Int) * v ≤ 1 / 10000000 * v :=
    mul_le_mul_of_nonneg_right u24_le hv
  rw [abs_le] at h
  obtain ⟨h1, h2⟩ := h
  change _ ≤ _ + eta at h2
  change -(_ + eta) ≤ _ at h1
  generalize (2 : ℚ) ^ (-24 : Int) * v = e at h1 h2 hu
  constructor <;> linarith

theorem sq_bounds (a : F32) (ha : a.isFinite = true) (hv : a.toRat ^ 2 ≤ 10 ^ 30) :
    (a * a).isFinite = true ∧ 0 ≤ (a * a).toRat ∧
    (1 - 1 / 10000000) * a.toRat ^ 2 - eta ≤ (a * a).toRat ∧
    (a * a).toRat ≤ (1 + 1 / 10000000) * a.toRat ^ 2 + eta := by
  obtain ⟨h1, h2, h3⟩ := mul_self_val a ha (lt_of_le_of_lt hv hi127)
  exact ⟨h1, h2, err_bounds (sq_nonneg _) h3⟩

theorem add_bounds (a b : F32) (ha : a.isFinite = true) (hb : b.isFinite = true)
    (pa : 0 ≤ a.toRat) (pb : 0 ≤ b.toRat) (hv : a.toRat + b.toRat ≤ 10 ^ 30) :
    (a + b).isFinite = true ∧ 0 ≤ (a + b).toRat ∧
    (1 - 1 / 10000000) * (a.toRat + b.toRat) - eta ≤ (a + b).toRat ∧
    (a + b).toRat ≤ (1 + 1 / 10000000) * (a.toRat + b.toRat) + eta := by
  obtain ⟨h1, h2, h3⟩ := add_nonneg_val a b ha hb pa pb (lt_of_le_of_lt hv hi127)
  exact ⟨h1, h2, err_bounds (add_nonneg pa pb) h3⟩

/-- The computed sum of squares against the exact squared norm. -/
theorem sumsq_val (p : QArr) (hf : p.finite = true) (hS : p.normSq ≤ 500000) :
    (sumsq p).isFinite = true ∧
    (1 - 5 / 10000000) * p.normSq - 10 * eta ≤ (sumsq p).toRat ∧
    (sumsq p).toRat ≤ (1 + 5 / 10000000) * p.normSq + 10 * eta := by
  simp only [QArr.finite, Bool.and_eq_true] at hf
  obtain ⟨⟨⟨f0', f1'⟩, f2'⟩, f3'⟩ := hf
  unfold QArr.normSq at hS ⊢
  unfold sumsq
  have q0 := sq_nonneg p.c0.toRat
  have q1 := sq_nonneg p.c1.toRat
  have q2 := sq_nonneg p.c2.toRat
  have q3 := sq_nonneg p.c3.toRat
  have he := eta_pos
  have he2 := eta_le
  have h45 : (1 : ℚ) / 10 ^ 45 ≤ 1 := by norm_num
  have h30 : (3000000 : ℚ) ≤ 10 ^ 30 := by norm_num
  obtain ⟨a1, a2, a3, a4⟩ := sq_bounds p.c0 f0' (by linarith)
  obtain ⟨b1, b2, b3, b4⟩ := sq_bounds p.c1 f1' (by linarith)
  obtain ⟨c1, c2, c3, c4⟩ := sq_bounds p.c2 f2' (by linarith)
  obtain ⟨d1, d2, d3, d4⟩ := sq_bounds p.c3 f3' (by linarith)
  generalize p.c0 * p.c0 = s0 at *
  generalize p.c1 * p.c1 = s1 at *
  generalize p.c2 * p.c2 = s2 at *
  generalize p.c3 * p.c3 = s3 at *
  obtain ⟨t1, t2, t3, t4⟩ := add_bounds s0 s1 a1 b1 a2 b2 (by linarith)
  generalize s0 + s1 = t at *
  obtain ⟨u1, u2, u3, u4⟩ := add_bounds t s2 t1 c1 t2 c2 (by linarith)
  generalize t + s2 = w at *
  obtain ⟨v1, v2, v3, v4⟩ := add_bounds w s3 u1 d1 u2 d2 (by linarith)
  refine ⟨v1, ?_, ?_⟩ <;> linarith


theorem mul_gen_bounds (a b : F32) (ha : a.isFinite = true) (hb : b.isFinite = true)
    (hv : |a.toRat * b.toRat| ≤ 10 ^ 30) :
    (a * b).isFinite = true ∧
    |(a * b).toRat - a.toRat * b.toRat| ≤ 1 / 10000000 * |a.toRat * b.toRat| + eta := by
  obtain ⟨h1, h2, _⟩ := mul_val a b ha hb (lt_of_le_of_lt hv hi127)
  refine ⟨h1, le_trans h2 ?_⟩
  have hu : (2 : ℚ) ^ (-24 : Int) * |a.toRat * b.toRat| ≤ 1 / 10000000 * |a.toRat * b.toRat| :=
    mul_le_mul_of_nonneg_right u24_le (abs_nonneg _)
  change _ + eta ≤ _ + eta
  linarith

theorem sq_err (q a B η : ℚ) (h : |q - a| ≤ 1 / 10000000 * |a| + η) (hB : |a| ≤ B)
    (hη0 : 0 ≤ η) (hη1 : η ≤ 1) :
    |q ^ 2 - a ^ 2| ≤ 3 / 10000000 * a ^ 2 + (3 * B + 1) * η := by
  have hA0 : 0 ≤ |a| := abs_nonneg a
  have h1 : |q ^ 2 - a ^ 2| = |q - a| * |q + a| := by
    rw [← abs_mul]; congr 1; ring
  have h2 : |q + a| ≤ |q - a| + 2 * |a| := by
    calc |q + a| = |(q - a) + 2 * a| := by congr 1; ring
      _ ≤ |q - a| + |2 * a| := abs_add _ _
      _ = |q - a| + 2 * |a| := by rw [abs_mul]; norm_num
  have h3 : |q + a| ≤ (2 + 1 / 10000000) * |a| + η := by linarith
  have h4 : |q - a| * |q + a|
      ≤ (1 / 10000000 * |a| + η) * ((2 + 1 / 10000000) * |a| + η) :=
    mul_le_mul h (h3) (abs_nonneg _) (by positivity)
  have h5 : |a| ^ 2 = a ^ 2 := sq_abs a
  have h6 : |a| * η ≤ B * η := mul_le_mul_of_nonneg_right hB hη0
  have h7 : η * η ≤ 1 * η := mul_le_mul_of_nonneg_right hη1 hη0
  have h8 : (1 / 10000000 * |a| + η) * ((2 + 1 / 10000000) * |a| + η)
      = (1 / 10000000 * (2 + 1 / 10000000)) * |a| ^ 2
        + (2 + 2 / 10000000) * (|a| * η) + η * η := by ring
  have h9 : 0 ≤ a ^ 2 := sq_nonneg a
  have h10 : 0 ≤ |a| * η := mul_nonneg hA0 hη0
  rw [h1]
  rw [h8, h5] at h4
  nlinarith

/-- The exact squared norm after the scaling by `invSqrt`: the arithmetic. -/
theorem norm_arith (P0 P1 P2 P3 q0 q1 q2 q3 r x η : ℚ)
    (hη0 : 0 < η) (hη1 : η ≤ 1 / 10 ^ 45)
    (hS1 : 1 / 500 ≤ P0 ^ 2 + P1 ^ 2 + P2 ^ 2 + P3 ^ 2)
    (hS2 : P0 ^ 2 + P1 ^ 2 + P2 ^ 2 + P3 ^ 2 ≤ 500000)
    (hx1 : (1 - 5 / 10000000) * (P0 ^ 2 + P1 ^ 2 + P2 ^ 2 + P3 ^ 2) - 10 * η ≤ x)
    (hx2 : x ≤ (1 + 5 / 10000000) * (P0 ^ 2 + P1 ^ 2 + P2 ^ 2 + P3 ^ 2) + 10 * η)
    (hr0 : 0 < r) (hr1 : (9962 : ℚ) / 10000 < r ^ 2 * x) (hr2 : r ^ 2 * x < 1000002 / 1000000)
    (h0 : |q0 - P0 * r| ≤ 1 / 10000000 * |P0 * r| + η)
    (h1 : |q1 - P1 * r| ≤ 1 / 10000000 * |P1 * r| + η)
    (h2 : |q2 - P2 * r| ≤ 1 / 10000000 * |P2 * r| + η)
    (h3 : |q3 - P3 * r| ≤ 1 / 10000000 * |P3 * r| + η) :
    |q0 ^ 2 + q1 ^ 2 + q2 ^ 2 + q3 ^ 2 - 1| ≤ 4 / 1000 := by
  have h45 : (1 : ℚ) / 10 ^ 45 ≤ 1 / 10 ^ 20 := by norm_num
  have hxlo : (1 : ℚ) / 1000 ≤ x := by linarith
  have hr2pos : 0 ≤ r ^ 2 := sq_nonneg r
  have hrr : r ^ 2 ≤ 1001 := by
    have e1 : r ^ 2 * (1 / 1000) ≤ r ^ 2 * x := mul_le_mul_of_nonneg_left hxlo hr2pos
    linarith
  have hr32 : r ≤ 32 := by
    by_contra h
    push_neg at h
    have : (32 : ℚ) ^ 2 < r ^ 2 := pow_lt_pow_left₀ h (by norm_num) (by norm_num)
    norm_num at this
    linarith
  have hP : ∀ P : ℚ, P ^ 2 ≤ 500000 → |P * r| ≤ 22656 := by
    intro P hP2
    have e1 : |P| ≤ 708 := by
      by_contra h
      push_neg at h
      have h2 : (708 : ℚ) ^ 2 < |P| ^ 2 := pow_lt_pow_left₀ h (by norm_num) (by norm_num)
      rw [sq_abs] at h2
      norm_num at h2
      linarith
    rw [abs_mul, abs_of_pos hr0]
    calc |P| * r ≤ 708 * 32 := mul_le_mul e1 hr32 hr0.le (by norm_num)
      _ = 22656 := by norm_num
  have s0 := sq_nonneg P0
  have s1 := sq_nonneg P1
  have s2 := sq_nonneg P2
  have s3 := sq_nonneg P3
  have hη1' : η ≤ 1 := by linarith [h45, (by norm_num : (1 : ℚ) / 10 ^ 20 ≤ 1)]
  have e0 := sq_err q0 (P0 * r) 22656 η h0 (hP P0 (by linarith)) hη0.le hη1'
  have e1 := sq_err q1 (P1 * r) 22656 η h1 (hP P1 (by linarith)) hη0.le hη1'
  have e2 := sq_err q2 (P2 * r) 22656 η h2 (hP P2 (by linarith)) hη0.le hη1'
  have e3 := sq_err q3 (P3 * r) 22656 η h3 (hP P3 (by linarith)) hη0.le hη1'
  rw [abs_le] at e0 e1 e2 e3
  have hR : (P0 * r) ^ 2 + (P1 * r) ^ 2 + (P2 * r) ^ 2 + (P3 * r) ^ 2
      = r ^ 2 * (P0 ^ 2 + P1 ^ 2 + P2 ^ 2 + P3 ^ 2) := by ring
  generalize hSd : P0 ^ 2 + P1 ^ 2 + P2 ^ 2 + P3 ^ 2 = S at *
  have hrη : r ^ 2 * η ≤ 1001 * η := mul_le_mul_of_nonneg_right hrr hη0.le
  have m1 : r ^ 2 * ((1 - 5 / 10000000) * S - 10 * η) ≤ r ^ 2 * x :=
    mul_le_mul_of_nonneg_left hx1 hr2pos
  have m2 : r ^ 2 * x ≤ r ^ 2 * ((1 + 5 / 10000000) * S + 10 * η) :=
    mul_le_mul_of_nonneg_left hx2 hr2pos
  have m3 : r ^ 2 * ((1 - 5 / 10000000) * S - 10 * η)
      = (1 - 5 / 10000000) * (r ^ 2 * S) - 10 * (r ^ 2 * η) := by ring
  have m4 : r ^ 2 * ((1 + 5 / 10000000) * S + 10 * η)
      = (1 + 5 / 10000000) * (r ^ 2 * S) + 10 * (r ^ 2 * η) := by ring
  rw [m3] at m1
  rw [m4] at m2
  have hRS : 0 ≤ r ^ 2 * S := by positivity
  generalize r ^ 2 * S = R at *
  generalize r ^ 2 * x = T at *
  generalize r ^ 2 * η = W at *
  generalize (P0 * r) ^ 2 = A0 at *
  generalize (P1 * r) ^ 2 = A1 at *
  generalize (P2 * r) ^ 2 = A2 at *
  generalize (P3 * r) ^ 2 = A3 at *
  rw [abs_le]
  constructor <;> linarith [e0.1, e0.2, e1.1, e1.2, e2.1, e2.2, e3.1, e3.2]


theorem normalise_eq (p : QArr) :
    normalise p = ⟨p.c0 * invSqrt (sumsq p), p.c1 * invSqrt (sumsq p),
      p.c2 * invSqrt (sumsq p), p.c3 * invSqrt (sumsq p)⟩ := rfl

/-- Normalisation by `invSqrt`: for a finite quaternion with squared norm in
`[0.002, 500000]` the result is finite and its exact squared norm is within
`0.004` of 1. -/
theorem normalise_norm (p : QArr) (hf : p.finite = true) (h1 : 1 / 500 ≤ p.normSq)
    (h2 : p.normSq ≤ 500000) :
    (normalise p).finite = true ∧ |(normalise p).normSq - 1| ≤ 4 / 1000 := by
  obtain ⟨xf, x1, x2⟩ := sumsq_val p hf h2
  have he := eta_pos
  have he2 := eta_le
  have h45 : (1 : ℚ) / 10 ^ 45 ≤ 1 / 10 ^ 20 := by norm_num
  have h20 : (1 : ℚ) / 10 ^ 20 ≤ 1 / 10000000 := by norm_num
  obtain ⟨rf, r0, r1, r2⟩ := invSqrt_val (sumsq p) (by linarith) (by linarith)
  rw [normalise_eq]
  generalize invSqrt (sumsq p) = r at *
  have hxlo : (1 : ℚ) / 1000 ≤ (sumsq p).toRat := by linarith
  have hr2pos : 0 ≤ r.toRat ^ 2 := sq_nonneg _
  have hrr : r.toRat ^ 2 ≤ 1001 := by
    have e1 : r.toRat ^ 2 * (1 / 1000) ≤ r.toRat ^ 2 * (sumsq p).toRat :=
      mul_le_mul_of_nonneg_left hxlo hr2pos
    linarith
  have hprod : ∀ P : ℚ, P ^ 2 ≤ 500000 → |P * r.toRat| ≤ 10 ^ 30 := by
    intro P hP
    apply abs_le_of_sq_le_sq _ (by norm_num)
    have : (P * r.toRat) ^ 2 = P ^ 2 * r.toRat ^ 2 := by ring
    rw [this]
    calc P ^ 2 * r.toRat ^ 2 ≤ 500000 * 1001 := mul_le_mul hP hrr hr2pos (by norm_num)
      _ ≤ (10 ^ 30) ^ 2 := by norm_num
  simp only [QArr.finite, Bool.and_eq_true] at hf
  obtain ⟨⟨⟨f0', f1'⟩, f2'⟩, f3'⟩ := hf
  unfold QArr.normSq at h1 h2 x1 x2
  have s0 := sq_nonneg p.c0.toRat
  have s1 := sq_nonneg p.c1.toRat
  have s2 := sq_nonneg p.c2.toRat
  have s3 := sq_nonneg p.c3.toRat
  obtain ⟨a1, a2⟩ := mul_gen_bounds p.c0 r f0' rf (hprod _ (by linarith))
  obtain ⟨b1, b2⟩ := mul_gen_bounds p.c1 r f1' rf (hprod _ (by linarith))
  obtain ⟨c1, c2⟩ := mul_gen_bounds p.c2 r f2' rf (hprod _ (by linarith))
  obtain ⟨d1, d2⟩ := mul_gen_bounds p.c3 r f3' rf (hprod _ (by linarith))
  refine ⟨by simp [QArr.finite, a1, b1, c1, d1], ?_⟩
  exact norm_arith _ _ _ _ _ _ _ _ r.toRat (sumsq p).toRat eta he he2 h1 h2 x1 x2 r0 r1 r2
    a2 b2 c2 d2

theorem steadyStep_snd (s : State) (gx gy gz ax ay az : F32) (tv : Timeval) :
    (steadyStep twoKpDef twoKiDef s gx gy gz ax ay az tv).2
      = normalise (preNorm s gx gy gz ax ay az tv) ∧
    (steadyStep twoKpDef twoKiDef s gx gy gz ax ay az tv).1.quat
      = normalise (preNorm s gx gy gz ax ay az tv) := ⟨rfl, rfl⟩

theorem IMUupdate_steady (s : State) (gx gy gz ax ay az : F32) (tv : Timeval) (q : QArr)
    (h : s.last_tv.tv_sec ≠ 0) :
    IMUupdate s gx gy gz ax ay az tv q = steadyStep twoKpDef twoKiDef s gx gy gz ax ay az tv := by
  simp [IMUupdate, IMUupdateWith, h]

/-! ### Static runs -/

theorem timeDiffOf_shift (t : Timeval) (dt : Int) :
    timeDiffOf t ⟨t.tv_sec + dt, t.tv_usec⟩ = timeDiffOf ⟨1, 0⟩ ⟨1 + dt, 0⟩ := by
  simp [timeDiffOf]

theorem feedback_clock (kp ki : F32) (s : State) (gx gy gz ax ay az : F32) (dt : Int) :
    feedback kp ki s gx gy gz ax ay az ⟨s.last_tv.tv_sec + dt, s.last_tv.tv_usec⟩
      = feedback kp ki { s with last_tv := ⟨1, 0⟩ } gx gy gz ax ay az ⟨1 + dt, 0⟩ := by
  unfold feedback
  rw [timeDiffOf_shift]

theorem staticStep_clock (dt : Int) (s : State) (h : s.last_tv.tv_sec ≠ 0) :
    (staticStep dt s).vars = (staticStep dt { s with last_tv := ⟨1, 0⟩ }).vars ∧
    (staticStep dt s).last_tv = ⟨s.last_tv.tv_sec + dt, s.last_tv.tv_usec⟩ := by
  have h1 : ({ s with last_tv := ⟨1, 0⟩ } : State).last_tv.tv_sec ≠ 0 := by simp
  simp only [staticStep, IMUupdate, IMUupdateWith, h, h1, if_true, ne_eq, not_false_eq_true,
    steadyStep, feedback_clock]
  simp [State.vars, State.quat, integrate]


theorem vars_steadyAt (s : State) (q : QArr) (h : s.vars = (q, f0, f0, f0)) :
    ({ s with last_tv := ⟨1, 0⟩ } : State) = steadyAt q := by
  cases s
  simp only [State.vars, State.quat, Prod.mk.injEq] at h
  obtain ⟨h1, h2, h3, h4⟩ := h
  subst h1 h2 h3 h4
  rfl

theorem staticStep_vars (dt : Int) (s : State) (q q' : QArr) (h : s.last_tv.tv_sec ≠ 0)
    (hs : s.vars = (q, f0, f0, f0))
    (hq : (staticStep dt (steadyAt q)).vars = (q', f0, f0, f0)) :
    (staticStep dt s).vars = (q', f0, f0, f0) := by
  rw [(staticStep_clock dt s h).1, vars_steadyAt s q hs, hq]

theorem inverted_orbit : ∀ (n : Nat) (s : State), 1 ≤ s.last_tv.tv_sec →
    (s.vars = (invertedQ, f0, f0, f0) ∨ s.vars = (⟨f0, ⟨0x3f7f910f⟩, f0, f0⟩, f0, f0, f0) ∨
      s.vars = (⟨f0, ⟨0x3f7f9167⟩, f0, f0⟩, f0, f0, f0)) →
    ((staticRun 1 n s).vars = (invertedQ, f0, f0, f0) ∨
      (staticRun 1 n s).vars = (⟨f0, ⟨0x3f7f910f⟩, f0, f0⟩, f0, f0, f0) ∨
      (staticRun 1 n s).vars = (⟨f0, ⟨0x3f7f9167⟩, f0, f0⟩, f0, f0, f0))
  | 0, s, _, h => h
  | n + 1, s, ht, h => by
    have h0 : s.last_tv.tv_sec ≠ 0 := by omega
    have ht' : 1 ≤ (staticStep 1 s).last_tv.tv_sec := by
      rw [(staticStep_clock 1 s h0).2]; simp; omega
    refine inverted_orbit n (staticStep 1 s) ht' ?_
    rcases h with h | h | h
    · exact Or.inr (Or.inl (staticStep_vars 1 s _ _ h0 h (by decide!)))
    · exact Or.inr (Or.inr (staticStep_vars 1 s _ _ h0 h (by decide!)))
    · exact Or.inr (Or.inr (staticStep_vars 1 s _ _ h0 h (by decide!)))

theorem halfv_of_vars (s : State) (q : QArr) (a b c : F32) (h : s.vars = (q, a, b, c)) :
    halfv s = (q.c1 * q.c3 - q.c0 * q.c2, q.c0 * q.c1 + q.c2 * q.c3,
      q.c0 * q.c0 - f0_5 + q.c3 * q.c3) := by
  cases s
  simp only [State.vars, State.quat, Prod.mk.injEq] at h
  obtain ⟨h1, _, _, _⟩ := h
  subst h1
  rfl

theorem toRat_neg_half : (F32.mk 0xbf000000).toRat = -1 / 2 := by
  have h1 : (F32.mk 0xbf000000).ssig = -8388608 := by decide
  have h2 : (F32.mk 0xbf000000).qexp = -24 := by decide
  rw [toRat, h1, h2]
  norm_num

theorem toRat_of (x : F32) (n e : Int) (h1 : x.ssig = n) (h2 : x.qexp = e) :
    x.toRat = (n : ℚ) * 2 ^ e := by
  rw [toRat, h1, h2]

/-! ### Exact scaling by a power of two -/

theorem Mnorm_bounds (m : Nat) (hm : m ≠ 0) : 2 ^ 23 ≤ Mnorm m ∧ Mnorm m ≤ 2 ^ 24 := by
  obtain ⟨hL1, hlo, hhi⟩ := bitLen_spec m hm
  unfold Mnorm
  split
  · rename_i h
    obtain ⟨b1, b2⟩ := exact_case m (bitLen m) (24 - bitLen m) hL1 hlo hhi (by omega)
    exact ⟨b2 (by omega), b1.le⟩
  · rename_i h
    obtain ⟨b1, b2, _⟩ := rne_case m (bitLen m) (bitLen m - 24) hlo hhi (by omega) (by omega)
    exact ⟨b2 (by omega), b1⟩

/-- Rounding in the normal range, in closed form. -/
theorem round_normal (s : Bool) (m : Nat) (e : Int) (hm : m ≠ 0)
    (h1 : -149 ≤ e + (bitLen m : Nat) - 24) (h2 : e + (bitLen m : Nat) ≤ 127) :
    F32.round s m e
      = ⟨sbit s + ((e + (bitLen m : Nat) + 125).toNat * 2 ^ 23 + Mnorm m)⟩ := by
  obtain ⟨b1, b2⟩ := Mnorm_bounds m hm
  have hq : max (e + ((bitLen m : Nat) : Int) - 24) (-149) = e + ((bitLen m : Nat) : Int) - 24 :=
    max_eq_left h1
  have hQ : (e + ((bitLen m : Nat) : Int) - 24 + 149).toNat
      = (e + ((bitLen m : Nat) : Int) + 125).toNat := by congr 1; ring
  have hQ2 : (((e + ((bitLen m : Nat) : Int) + 125).toNat : Nat) : Int)
      = e + ((bitLen m : Nat) : Int) + 125 := Int.toNat_of_nonneg (by omega)
  have hM : (if e + ((bitLen m : Nat) : Int) - 24 ≤ e
        then m * 2 ^ (e - (e + ((bitLen m : Nat) : Int) - 24)).toNat
        else rne m (e + ((bitLen m : Nat) : Int) - 24 - e).toNat) = Mnorm m := by
    unfold Mnorm
    by_cases h : bitLen m ≤ 24
    · rw [if_pos h, if_pos (by omega)]
      congr 2
      omega
    · rw [if_neg h, if_neg (by omega)]
      congr 1
      omega
  unfold F32.round
  simp only [hm, if_false, hq, hM, hQ, sbit]
  rw [if_neg (by omega)]

theorem mk_fields (s : Bool) (Q M : Nat) (hQ : Q ≤ 252) (h1 : 2 ^ 23 ≤ M) (h2 : M ≤ 2 ^ 24) :
    (F32.mk (sbit s + (Q * 2 ^ 23 + M))).sign = s ∧
    (F32.mk (sbit s + (Q * 2 ^ 23 + M))).frac = (if M = 2 ^ 24 then 0 else M - 2 ^ 23) ∧
    (F32.mk (sbit s + (Q * 2 ^ 23 + M))).expo = (if M = 2 ^ 24 then Q + 2 else Q + 1) := by
  have hb : sbit s = 0 ∨ sbit s = 2 ^ 31 := by cases s <;> simp [sbit]
  refine ⟨(decode s Q M hQ h2 (Or.inr h1)).1, ?_, ?_⟩
  · simp only [frac]
    split <;> rcases hb with hb | hb <;> rw [hb] <;> omega
  · simp only [expo]
    split <;> rcases hb with hb | hb <;> rw [hb] <;> omega

/-- Raising the exponent of the value by `n` raises the exponent field of the
rounded result by `n`, in the normal range. -/
theorem round_shift (s : Bool) (m : Nat) (e : Int) (n : Nat) (hm : m ≠ 0)
    (h1 : -149 ≤ e + (bitLen m : Nat) - 24) (h2 : e + n + (bitLen m : Nat) ≤ 127) :
    ShiftN n (F32.round s m e) (F32.round s m (e + n)) := by
  obtain ⟨b1, b2⟩ := Mnorm_bounds m hm
  rw [round_normal s m e hm h1 (by omega), round_normal s m (e + n) hm (by omega) h2]
  have hQ : (((e + ((bitLen m : Nat) : Int) + 125).toNat : Nat) : Int)
      = e + ((bitLen m : Nat) : Int) + 125 := Int.toNat_of_nonneg (by omega)
  have hQ' : (e + n + ((bitLen m : Nat) : Int) + 125).toNat
      = (e + ((bitLen m : Nat) : Int) + 125).toNat + n := by omega
  rw [hQ']
  generalize (e + ((bitLen m : Nat) : Int) + 125).toNat = Q at *
  obtain ⟨f1, f2, f3⟩ := mk_fields s Q (Mnorm m) (by omega) b1 b2
  obtain ⟨g1, g2, g3⟩ := mk_fields s (Q + n) (Mnorm m) (by omega) b1 b2
  refine ⟨by rw [g1, f1], by rw [g2, f2], ?_, ?_, ?_⟩
  · rw [g3, f3]; split <;> omega
  · rw [f3]; split <;> omega
  · rw [g3]; split <;> omega


theorem val_upper (m : Nat) (e : Int) (hm : m ≠ 0) :
    (m : ℚ) * 2 ^ e < 2 ^ (((bitLen m : Nat) : Int) + e) := by
  obtain ⟨_, _, hhi⟩ := bitLen_spec m hm
  rw [zpow_add₀ two_ne]
  apply mul_lt_mul_of_pos_right _ (by positivity)
  have h1 : (m : ℚ) < ((2 ^ bitLen m : Nat) : ℚ) := by exact_mod_cast hhi
  have h2 : (2 : ℚ) ^ (((bitLen m : Nat) : Int)) = ((2 ^ bitLen m : Nat) : ℚ) := by
    push_cast
    rw [zpow_natCast]
  rw [h2]
  exact h1

theorem normal_of_val (m : Nat) (e : Int) (hm : m ≠ 0)
    (h : (2 : ℚ) ^ (-126 : Int) ≤ m * 2 ^ e) : -149 ≤ e + (bitLen m : Nat) - 24 := by
  have h2 := lt_of_le_of_lt h (val_upper m e hm)
  rw [zpow_lt_zpow_iff_right₀ (by norm_num)] at h2
  omega

/-- The shift lemma with the range conditions on the values. -/
theorem round_shift_val (s : Bool) (m : Nat) (e : Int) (n : Nat) (hm : m ≠ 0)
    (lo : (2 : ℚ) ^ (-126 : Int) ≤ m * 2 ^ e) (hi : (m : ℚ) * 2 ^ (e + n) < 2 ^ (127 : Int)) :
    ShiftN n (F32.round s m e) (F32.round s m (e + n)) :=
  round_shift s m e n hm (normal_of_val m e hm lo) (bitLen_bound m (e + n) hm hi)

theorem mul_eq_round (a b : F32) (ha : a.isFinite = true) (hb : b.isFinite = true) :
    a * b = F32.round (a.sign != b.sign) (a.sig * b.sig) (a.qexp + b.qexp) := by
  rw [mul_def]
  simp [F32.mul, finite_not_nan a ha, finite_not_nan b hb, finite_not_inf a ha,
    finite_not_inf b hb]

theorem abs_mul_val (a b : F32) :
    |a.toRat * b.toRat| = ((a.sig * b.sig : Nat) : ℚ) * 2 ^ (a.qexp + b.qexp) := by
  have hprod : a.toRat * b.toRat
      = sgn (a.sign != b.sign) * (((a.sig * b.sig : Nat) : ℚ) * 2 ^ (a.qexp + b.qexp)) := by
    rw [toRat_eq, toRat_eq, sgn_xor, zpow_add₀ two_ne]
    push_cast
    ring
  rw [hprod, abs_sgn_mul, abs_of_nonneg (by positivity)]

/-- Products of operands with equal significands and signs, the exponents of
the second pair adding up to `n` more: the second product is the first one
multiplied by `2^n`. -/
theorem mul_shift_gen (a a' b b' : F32) (n : Nat)
    (ha : a.isFinite = true) (ha' : a'.isFinite = true)
    (hb : b.isFinite = true) (hb' : b'.isFinite = true)
    (sa : a'.sign = a.sign) (sb : b'.sign = b.sign)
    (ma : a'.sig = a.sig) (mb : b'.sig = b.sig)
    (hq : a'.qexp + b'.qexp = a.qexp + b.qexp + n)
    (lo : (2 : ℚ) ^ (-126 : Int) ≤ |a.toRat * b.toRat|)
    (hi : |a'.toRat * b'.toRat| < 2 ^ (127 : Int)) :
    ShiftN n (a * b) (a' * b') := by
  rw [mul_eq_round a b ha hb, mul_eq_round a' b' ha' hb', sa, sb, ma, mb, hq]
  rw [abs_mul_val] at lo hi
  rw [ma, mb, hq] at hi
  have hm : a.sig * b.sig ≠ 0 := by
    intro h0
    rw [h0] at lo
    simp at lo
    have : (0 : ℚ) < 2 ^ (-126 : Int) := by positivity
    linarith
  exact round_shift_val _ _ _ n hm lo hi

theorem mul_cancel (a a' b b' : F32)
    (ha : a.isFinite = true) (ha' : a'.isFinite = true)
    (hb : b.isFinite = true) (hb' : b'.isFinite = true)
    (sa : a'.sign = a.sign) (sb : b'.sign = b.sign)
    (ma : a'.sig = a.sig) (mb : b'.sig = b.sig)
    (hq : a'.qexp + b'.qexp = a.qexp + b.qexp) : a' * b' = a * b := by
  rw [mul_eq_round a b ha hb, mul_eq_round a' b' ha' hb', sa, sb, ma, mb, hq]

theorem shiftN_facts {n : Nat} {a b : F32} (h : ShiftN n a b) :
    b.sig = a.sig ∧ b.qexp = a.qexp + n ∧ a.isFinite = true ∧ b.isFinite = true ∧
    b.sign = a.sign := by
  obtain ⟨h1, h2, h3, h4, h5⟩ := h
  refine ⟨?_, ?_, ?_, ?_, h1⟩
  · simp only [sig, h2, h3]
    rw [if_neg (by omega), if_neg (by omega)]
  · simp only [qexp, h3]
    rw [if_neg (by omega), if_neg (by omega)]
    push_cast
    ring
  · simp only [isFinite, bne_iff_ne, ne_eq]; omega
  · simp only [isFinite, bne_iff_ne, ne_eq]; omega

/-- Value of a shifted float. -/
theorem shiftN_val {n : Nat} {a b : F32} (h : ShiftN n a b) :
    b.toRat = 2 ^ n * a.toRat := by
  obtain ⟨h1, h2, _, _, h5⟩ := shiftN_facts h
  rw [toRat_eq, toRat_eq, h1, h2, h5, zpow_add₀ two_ne, zpow_natCast]
  ring

/-- Size of a normal float. -/
theorem normal_val (a : F32) (h1 : 1 ≤ a.expo) :
    (2 : ℚ) ^ ((a.expo : Int) - 127) ≤ |a.toRat| ∧ |a.toRat| < 2 ^ ((a.expo : Int) - 126) := by
  have hfr : a.frac < 2 ^ 23 := Nat.mod_lt _ (by norm_num)
  have hfrq : (a.frac : ℚ) < 8388608 := by exact_mod_cast hfr
  have hv : |a.toRat| = ((2 ^ 23 + a.frac : Nat) : ℚ) * 2 ^ ((a.expo : Int) - 150) := by
    rw [toRat_eq, mul_assoc, abs_sgn_mul, abs_of_nonneg (by positivity)]
    simp only [sig, qexp]
    rw [if_neg (by omega), if_neg (by omega)]
  have hp : (0 : ℚ) < 2 ^ ((a.expo : Int) - 150) := by positivity
  rw [hv]
  constructor
  · have e1 : (2 : ℚ) ^ ((a.expo : Int) - 127) = 8388608 * 2 ^ ((a.expo : Int) - 150) := by
      have : (8388608 : ℚ) = 2 ^ (23 : Int) := by norm_num
      rw [this, ← zpow_add₀ two_ne]
      congr 1
      ring
    rw [e1]
    apply mul_le_mul_of_nonneg_right _ hp.le
    push_cast
    linarith [Nat.cast_nonneg (α := ℚ) a.frac]
  · have e1 : (2 : ℚ) ^ ((a.expo : Int) - 126) = 16777216 * 2 ^ ((a.expo : Int) - 150) := by
      have : (16777216 : ℚ) = 2 ^ (24 : Int) := by norm_num
      rw [this, ← zpow_add₀ two_ne]
      congr 1
      ring
    rw [e1]
    apply mul_lt_mul_of_pos_right _ hp
    push_cast
    linarith


theorem bitLen_unique (m k : Nat) (hk : 1 ≤ k) (h1 : 2 ^ (k - 1) ≤ m) (h2 : m < 2 ^ k) :
    bitLen m = k := by
  have hm : m ≠ 0 := by
    have : 0 < 2 ^ (k - 1) := Nat.two_pow_pos _
    omega
  obtain ⟨hL1, hlo, hhi⟩ := bitLen_spec m hm
  have a1 : k - 1 < bitLen m := (Nat.pow_lt_pow_iff_right (by norm_num)).mp (lt_of_le_of_lt h1 hhi)
  have a2 : bitLen m - 1 < k := (Nat.pow_lt_pow_iff_right (by norm_num)).mp (lt_of_le_of_lt hlo h2)
  omega

theorem bitLen_sig (a : F32) (h : 1 ≤ a.expo) : bitLen a.sig = 24 ∧ a.sig ≠ 0 := by
  have hfr : a.frac < 2 ^ 23 := Nat.mod_lt _ (by norm_num)
  have hs : a.sig = 2 ^ 23 + a.frac := by
    simp only [sig]; rw [if_neg (by omega)]
  refine ⟨bitLen_unique _ 24 (by norm_num) (by rw [hs]; norm_num) (by rw [hs]; omega), ?_⟩
  rw [hs]; omega

theorem rne_exact (c k : Nat) : rne (c * 2 ^ k) k = c := by
  have hp : 0 < 2 ^ k := Nat.two_pow_pos k
  have hh : 0 < 2 ^ (k - 1) := Nat.two_pow_pos _
  unfold rne
  simp only [Nat.mul_div_cancel _ hp, Nat.mul_mod_left]
  rw [if_neg]
  rintro (h | ⟨h, _⟩) <;> omega

/-- Rounding a 24-bit significand that was aligned to the exponent `-149`. -/
theorem round_aligned (s : Bool) (m j : Nat) (hL : bitLen m = 24) (hj : (j : Int) ≤ 252) :
    F32.round s (m * 2 ^ j) (-149) = F32.round s m (-149 + j) := by
  have hm : m ≠ 0 := by
    intro h0
    rw [h0] at hL
    have h00 : bitLen 0 = 0 := rfl
    omega
  obtain ⟨_, hlo, hhi⟩ := bitLen_spec m hm
  rw [hL] at hlo hhi
  have hLj : bitLen (m * 2 ^ j) = 24 + j := by
    apply bitLen_unique _ _ (by omega)
    · calc 2 ^ (24 + j - 1) = 2 ^ 23 * 2 ^ j := by rw [← pow_add]; congr 1; omega
        _ ≤ m * 2 ^ j := Nat.mul_le_mul_right _ hlo
    · calc m * 2 ^ j < 2 ^ 24 * 2 ^ j := Nat.mul_lt_mul_of_pos_right hhi (Nat.two_pow_pos j)
        _ = 2 ^ (24 + j) := (pow_add 2 24 j).symm
  have hmj : m * 2 ^ j ≠ 0 := Nat.mul_ne_zero hm (Nat.two_pow_pos j).ne'
  rw [round_normal s (m * 2 ^ j) (-149) hmj (by rw [hLj]; push_cast; omega)
      (by rw [hLj]; push_cast; omega),
    round_normal s m (-149 + j) hm (by rw [hL]; omega) (by rw [hL]; omega), hLj, hL]
  have hM : Mnorm (m * 2 ^ j) = Mnorm m := by
    unfold Mnorm
    rw [hLj, hL]
    by_cases h0 : j = 0
    · subst h0; simp
    · rw [if_neg (by omega), if_pos (le_refl _)]
      have : 24 + j - 24 = j := by omega
      rw [this, rne_exact m j]
      simp
  have hQ : (-149 + (((24 + j : Nat) : Nat) : Int) + 125).toNat
      = (-149 + (j : Int) + ((24 : Nat) : Int) + 125).toNat := by
    apply congrArg
    push_cast
    ring
  rw [hM, hQ]

theorem add_eq_round (a b : F32) (ha : a.isFinite = true) (hb : b.isFinite = true) :
    a + b = if a.ssig * 2 ^ (a.qexp - min a.qexp b.qexp).toNat
          + b.ssig * 2 ^ (b.qexp - min a.qexp b.qexp).toNat = 0
      then F32.zero (a.sign && b.sign)
      else F32.round (decide (a.ssig * 2 ^ (a.qexp - min a.qexp b.qexp).toNat
          + b.ssig * 2 ^ (b.qexp - min a.qexp b.qexp).toNat < 0))
        (a.ssig * 2 ^ (a.qexp - min a.qexp b.qexp).toNat
          + b.ssig * 2 ^ (b.qexp - min a.qexp b.qexp).toNat).natAbs (min a.qexp b.qexp) := by
  rw [add_def]
  simp only [F32.add, finite_not_nan a ha, finite_not_nan b hb, finite_not_inf a ha,
    finite_not_inf b hb, Bool.or_self, Bool.false_eq_true, if_false]

theorem ssig_pos (a : F32) (hs : a.sign = false) : a.ssig = (a.sig : Int) := by
  simp [ssig, hs]

theorem ssig_zero (z : F32) (hz : z.isZero = true) : z.ssig = 0 ∧ z.qexp = -149 := by
  simp only [isZero, Bool.and_eq_true, beq_iff_eq] at hz
  simp [ssig, sig, qexp, hz.1, hz.2]

theorem zero_finite (z : F32) (hz : z.isZero = true) : z.isFinite = true := by
  simp only [isZero, Bool.and_eq_true, beq_iff_eq] at hz
  simp [isFinite, hz.1]

/-- Adding a zero to a positive normal value gives the value back, as the
rounding of its own significand. -/
theorem add_zero_right (a z : F32) (h1 : 1 ≤ a.expo) (h2 : a.expo ≤ 253) (hs : a.sign = false)
    (hz : z.isZero = true) : a + z = F32.round false a.sig a.qexp := by
  have ha : a.isFinite = true := by simp only [isFinite, bne_iff_ne, ne_eq]; omega
  obtain ⟨z1, z2⟩ := ssig_zero z hz
  obtain ⟨hL, hm⟩ := bitLen_sig a h1
  have hq : a.qexp = (a.expo : Int) - 150 := by simp only [qexp]; rw [if_neg (by omega)]
  have hmin : min a.qexp z.qexp = -149 := by rw [z2, hq]; omega
  rw [add_eq_round a z ha (zero_finite z hz), hmin, z1, z2, ssig_pos a hs]
  have hj : (((a.qexp - -149).toNat : Nat) : Int) = a.qexp + 149 :=
    by rw [Int.toNat_of_nonneg (by omega)]; ring
  have hv : (a.sig : Int) * 2 ^ (a.qexp - -149).toNat + 0 * 2 ^ (-149 - -149 : Int).toNat
      = ((a.sig * 2 ^ (a.qexp - -149).toNat : Nat) : Int) := by push_cast; ring
  rw [hv]
  have hne : a.sig * 2 ^ (a.qexp - -149).toNat ≠ 0 :=
    Nat.mul_ne_zero hm (Nat.two_pow_pos _).ne'
  rw [if_neg (by exact_mod_cast hne)]
  have hd : decide (((a.sig * 2 ^ (a.qexp - -149).toNat : Nat) : Int) < 0) = false := by
    simp only [decide_eq_false_iff_not, not_lt]
    exact Int.natCast_nonneg _
  rw [hd, Int.natAbs_ofNat, round_aligned false a.sig (a.qexp - -149).toNat hL (by omega)]
  congr 1
  omega

theorem add_zero_left (a z : F32) (h1 : 1 ≤ a.expo) (h2 : a.expo ≤ 253) (hs : a.sign = false)
    (hz : z.isZero = true) : z + a = F32.round false a.sig a.qexp := by
  have ha : a.isFinite = true := by simp only [isFinite, bne_iff_ne, ne_eq]; omega
  obtain ⟨z1, z2⟩ := ssig_zero z hz
  obtain ⟨hL, hm⟩ := bitLen_sig a h1
  have hq : a.qexp = (a.expo : Int) - 150 := by simp only [qexp]; rw [if_neg (by omega)]
  have hmin : min z.qexp a.qexp = -149 := by rw [z2, hq]; omega
  rw [add_eq_round z a (zero_finite z hz) ha, hmin, z1, z2, ssig_pos a hs]
  have hj : (((a.qexp - -149).toNat : Nat) : Int) = a.qexp + 149 :=
    by rw [Int.toNat_of_nonneg (by omega)]; ring
  have hv : 0 * 2 ^ (-149 - -149 : Int).toNat + (a.sig : Int) * 2 ^ (a.qexp - -149).toNat
      = ((a.sig * 2 ^ (a.qexp - -149).toNat : Nat) : Int) := by push_cast; ring
  rw [hv]
  have hne : a.sig * 2 ^ (a.qexp - -149).toNat ≠ 0 :=
    Nat.mul_ne_zero hm (Nat.two_pow_pos _).ne'
  rw [if_neg (by exact_mod_cast hne)]
  have hd : decide (((a.sig * 2 ^ (a.qexp - -149).toNat : Nat) : Int) < 0) = false := by
    simp only [decide_eq_false_iff_not, not_lt]
    exact Int.natCast_nonneg _
  rw [hd, Int.natAbs_ofNat, round_aligned false a.sig (a.qexp - -149).toNat hL (by omega)]
  congr 1
  omega


theorem round_sign (s : Bool) (m : Nat) (e : Int) (hm : m ≠ 0)
    (h1 : -149 ≤ e + (bitLen m : Nat) - 24) (h2 : e + (bitLen m : Nat) ≤ 127) :
    (F32.round s m e).sign = s := by
  obtain ⟨b1, b2⟩ := Mnorm_bounds m hm
  rw [round_normal s m e hm h1 h2]
  have hQ : (((e + ((bitLen m : Nat) : Int) + 125).toNat : Nat) : Int)
      = e + ((bitLen m : Nat) : Int) + 125 := Int.toNat_of_nonneg (by omega)
  exact (mk_fields s _ (Mnorm m) (by omega) b1 b2).1

/-- A bound on the value bounds the exponent field of the rounded result. -/
theorem round_expo_le (s : Bool) (m : Nat) (e : Int) (B : Int) (hm : m ≠ 0)
    (h1 : -149 ≤ e + (bitLen m : Nat) - 24) (hv : (m : ℚ) * 2 ^ e < 2 ^ B) (hB : B ≤ 127) :
    ((F32.round s m e).expo : Int) ≤ B + 127 := by
  obtain ⟨b1, b2⟩ := Mnorm_bounds m hm
  have h3 := lt_of_le_of_lt (val_lower m e hm) hv
  rw [zpow_lt_zpow_iff_right₀ (by norm_num)] at h3
  rw [round_normal s m e hm h1 (by omega)]
  have hQ : (((e + ((bitLen m : Nat) : Int) + 125).toNat : Nat) : Int)
      = e + ((bitLen m : Nat) : Int) + 125 := Int.toNat_of_nonneg (by omega)
  generalize (e + ((bitLen m : Nat) : Int) + 125).toNat = Q at *
  rw [(mk_fields s Q (Mnorm m) (by omega) b1 b2).2.2]
  split <;> push_cast <;> omega

theorem pos_val {a : F32} (h1 : 1 ≤ a.expo) (hs : a.sign = false) :
    (2 : ℚ) ^ ((a.expo : Int) - 127) ≤ a.toRat ∧ a.toRat < 2 ^ ((a.expo : Int) - 126) := by
  have h := normal_val a h1
  rw [abs_of_nonneg (toRat_nonneg_of_sign a hs)] at h
  exact h

theorem two_zpow_add_lt (h : Int) (x y : ℚ) (hx : x < 2 ^ (h - 126)) (hy : y < 2 ^ (h - 126)) :
    x + y < 2 ^ (h - 125) := by
  have : (2 : ℚ) ^ (h - 125) = 2 * 2 ^ (h - 126) := by
    rw [mul_comm, ← zpow_add_one₀ two_ne]; congr 1; ring
  rw [this]
  linarith

theorem zpow_mono2 {a b : Int} (h : a ≤ b) : (2 : ℚ) ^ a ≤ 2 ^ b :=
  zpow_le_zpow_right₀ (by norm_num) h

/-- The sum of two positive shifted pairs is a positive shifted pair. -/
theorem add_pos_pos (n h : Nat) (u u' v v' : F32) (hu : PosShift n h u u')
    (hv : PosShift n h v v') (hh : h ≤ 250) : PosShift n (h + 2) (u + v) (u' + v') := by
  obtain ⟨su, pu, bu⟩ := hu
  obtain ⟨sv, pv, bv⟩ := hv
  obtain ⟨u1, u2, u3, u4, u5⟩ := shiftN_facts su
  obtain ⟨v1, v2, v3, v4, v5⟩ := shiftN_facts sv
  have pu' : u'.sign = false := by rw [u5, pu]
  have pv' : v'.sign = false := by rw [v5, pv]
  obtain ⟨_, _, eu, ue1, _⟩ := su
  obtain ⟨_, _, ev, ve1, _⟩ := sv
  have hmin : min u'.qexp v'.qexp = min u.qexp v.qexp + n := by
    rw [u2, v2]; omega
  rw [add_eq_round u v u3 v3, add_eq_round u' v' u4 v4, hmin, ssig_pos u pu, ssig_pos v pv,
    ssig_pos u' pu', ssig_pos v' pv', u1, v1, u2, v2]
  have k1 : (u.qexp + n - (min u.qexp v.qexp + n)).toNat = (u.qexp - min u.qexp v.qexp).toNat := by
    congr 1; ring
  have k2 : (v.qexp + n - (min u.qexp v.qexp + n)).toNat = (v.qexp - min u.qexp v.qexp).toNat := by
    congr 1; ring
  rw [k1, k2]
  obtain ⟨_, mu⟩ := bitLen_sig u ue1
  obtain ⟨_, mv⟩ := bitLen_sig v ve1
  have hvn : (u.sig : Int) * 2 ^ (u.qexp - min u.qexp v.qexp).toNat
      + (v.sig : Int) * 2 ^ (v.qexp - min u.qexp v.qexp).toNat
      = ((u.sig * 2 ^ (u.qexp - min u.qexp v.qexp).toNat
        + v.sig * 2 ^ (v.qexp - min u.qexp v.qexp).toNat : Nat) : Int) := by push_cast; ring
  rw [hvn]
  generalize hw : u.sig * 2 ^ (u.qexp - min u.qexp v.qexp).toNat
        + v.sig * 2 ^ (v.qexp - min u.qexp v.qexp).toNat = w
  have hw0 : w ≠ 0 := by
    have : 0 < u.sig * 2 ^ (u.qexp - min u.qexp v.qexp).toNat :=
      Nat.mul_pos (Nat.pos_of_ne_zero mu) (Nat.two_pow_pos _)
    omega
  rw [if_neg (by exact_mod_cast hw0), if_neg (by exact_mod_cast hw0)]
  have hd : decide ((w : Int) < 0) = false := by
    simp only [decide_eq_false_iff_not, not_lt]
    exact Int.natCast_nonneg _
  rw [hd, Int.natAbs_ofNat]
  -- values
  have hsum : (w : ℚ) * 2 ^ (min u.qexp v.qexp) = u.toRat + v.toRat := by
    rw [← align_val u _ (min_le_left _ _), ← align_val v _ (min_le_right _ _), ← hw,
      ssig_pos u pu, ssig_pos v pv]
    push_cast
    ring
  have hsum' : (w : ℚ) * 2 ^ (min u.qexp v.qexp + n) = u'.toRat + v'.toRat := by
    rw [shiftN_val ⟨by rw [u5], by assumption, eu, ue1, by assumption⟩,
      shiftN_val ⟨by rw [v5], by assumption, ev, ve1, by assumption⟩,
      zpow_add₀ two_ne, zpow_natCast]
    linear_combination (2 : ℚ) ^ n * hsum
  obtain ⟨lu, _⟩ := pos_val ue1 pu
  obtain ⟨lv, _⟩ := pos_val ve1 pv
  obtain ⟨_, hu'⟩ := pos_val (a := u') (by omega) pu'
  obtain ⟨_, hv'⟩ := pos_val (a := v') (by omega) pv'
  have lo : (2 : ℚ) ^ (-126 : Int) ≤ (w : ℚ) * 2 ^ (min u.qexp v.qexp) := by
    rw [hsum]
    have : (2 : ℚ) ^ (-126 : Int) ≤ 2 ^ ((u.expo : Int) - 127) := zpow_mono2 (by omega)
    have : (0 : ℚ) ≤ v.toRat := toRat_nonneg_of_sign v pv
    linarith
  have hi : (w : ℚ) * 2 ^ (min u.qexp v.qexp + n) < 2 ^ ((h : Int) - 125) := by
    rw [hsum']
    apply two_zpow_add_lt
    · exact lt_of_lt_of_le hu' (zpow_mono2 (by omega))
    · exact lt_of_lt_of_le hv' (zpow_mono2 (by omega))
  have c1 := normal_of_val w _ hw0 lo
  have hi127 : (w : ℚ) * 2 ^ (min u.qexp v.qexp + n) < 2 ^ (127 : Int) :=
    lt_of_lt_of_le hi (zpow_mono2 (by omega))
  have c2 := bitLen_bound w _ hw0 hi127
  refine ⟨round_shift false w _ n hw0 c1 c2, round_sign false w _ hw0 c1 (by omega), ?_⟩
  have := round_expo_le false w (min u.qexp v.qexp + n) ((h : Int) - 125) hw0 (by omega) hi
    (by omega)
  omega


theorem pos_toRat {a : F32} (hs : a.sign = false) : a.toRat = (a.sig : ℚ) * 2 ^ a.qexp := by
  rw [toRat_eq, hs]; simp [sgn]

/-- The sum of a positive shifted pair and a zero is a positive shifted pair. -/
theorem add_pos_zero (n h : Nat) (u u' z : F32) (hu : PosShift n h u u')
    (hz : z.isZero = true) (hh : h ≤ 250) :
    PosShift n (h + 2) (u + z) (u' + z) ∧ PosShift n (h + 2) (z + u) (z + u') := by
  obtain ⟨su, pu, bu⟩ := hu
  obtain ⟨u1, u2, u3, u4, u5⟩ := shiftN_facts su
  have pu' : u'.sign = false := by rw [u5, pu]
  obtain ⟨_, _, eu, ue1, _⟩ := su
  obtain ⟨hL, mu⟩ := bitLen_sig u ue1
  have hq : u.qexp = (u.expo : Int) - 150 := by simp only [qexp]; rw [if_neg (by omega)]
  rw [add_zero_right u z ue1 (by omega) pu hz, add_zero_right u' z (by omega) (by omega) pu' hz,
    add_zero_left u z ue1 (by omega) pu hz, add_zero_left u' z (by omega) (by omega) pu' hz,
    u1, u2]
  have c1 : -149 ≤ u.qexp + ((bitLen u.sig : Nat) : Int) - 24 := by rw [hL]; omega
  have c2 : u.qexp + n + ((bitLen u.sig : Nat) : Int) ≤ 127 := by rw [hL]; omega
  obtain ⟨_, hu'⟩ := pos_val (a := u') (by omega) pu'
  have hv : (u.sig : ℚ) * 2 ^ (u.qexp + n) < 2 ^ ((h : Int) - 126) := by
    have : u'.toRat = (u.sig : ℚ) * 2 ^ (u.qexp + n) := by rw [pos_toRat pu', u1, u2]
    rw [← this]
    exact lt_of_lt_of_le hu' (zpow_mono2 (by omega))
  have hb := round_expo_le false u.sig (u.qexp + n) ((h : Int) - 126) mu (by omega) hv (by omega)
  have key : PosShift n (h + 2) (F32.round false u.sig u.qexp)
      (F32.round false u.sig (u.qexp + n)) :=
    ⟨round_shift false u.sig _ n mu c1 c2, round_sign false u.sig _ mu c1 (by omega), by omega⟩
  exact ⟨key, key⟩

theorem add_zero_zero (z1 z2 : F32) (h1 : z1.isZero = true) (h2 : z2.isZero = true) :
    (z1 + z2).isZero = true := by
  obtain ⟨a1, a2⟩ := ssig_zero z1 h1
  obtain ⟨b1, b2⟩ := ssig_zero z2 h2
  rw [add_eq_round z1 z2 (zero_finite z1 h1) (zero_finite z2 h2), a1, b1]
  simp only [zero_mul, add_zero, if_true]
  cases (z1.sign && z2.sign) <;> decide

/-- The relation between the two runs is kept by addition. -/
theorem add_rel (n h : Nat) (u u' v v' : F32) (hu : Rel n h u u') (hv : Rel n h v v')
    (hh : h ≤ 250) : Rel n (h + 2) (u + v) (u' + v') := by
  rcases hu with ⟨zu, eu⟩ | pu
  · rcases hv with ⟨zv, ev⟩ | pv
    · left
      rw [eu, ev]
      exact ⟨add_zero_zero u v zu zv, rfl⟩
    · right
      rw [eu]
      exact (add_pos_zero n h v v' u pv zu hh).2
  · rcases hv with ⟨zv, ev⟩ | pv
    · right
      rw [ev]
      exact (add_pos_zero n h u u' v pu zv hh).1
    · right
      exact add_pos_pos n h u u' v v' pu pv hh

theorem scale2_zero (n : Nat) (c : F32) (h : c.isZero = true) : scale2 n c = c := by
  simp [scale2, h]

theorem scale2_shift (n : Nat) (c : F32) (h1 : 1 ≤ c.expo) (h2 : c.expo + n ≤ 254) :
    ShiftN n c (scale2 n c) := by
  have hz : c.isZero = false := by
    simp only [isZero, Bool.and_eq_false_imp, beq_iff_eq]
    intro h0; omega
  simp only [scale2, hz, Bool.false_eq_true, if_false]
  simp only [expo] at h1 h2
  refine ⟨?_, ?_, ?_, ?_, ?_⟩
  · simp only [sign]
    congr 1
    omega
  · simp only [frac]; omega
  · simp only [expo]; omega
  · simp only [expo]; omega
  · simp only [expo]; omega

theorem mul_expo_sign (a b : F32) (B : Int) (ha : a.isFinite = true) (hb : b.isFinite = true)
    (lo : (2 : ℚ) ^ (-126 : Int) ≤ |a.toRat * b.toRat|)
    (hv : |a.toRat * b.toRat| < 2 ^ B) (hB : B ≤ 127) :
    ((a * b).expo : Int) ≤ B + 127 ∧ (a * b).sign = (a.sign != b.sign) := by
  rw [mul_eq_round a b ha hb]
  rw [abs_mul_val] at lo hv
  have hm : a.sig * b.sig ≠ 0 := by
    intro h0
    rw [h0] at lo
    simp at lo
    have : (0 : ℚ) < 2 ^ (-126 : Int) := by positivity
    linarith
  have c1 := normal_of_val _ _ hm lo
  have c2 := bitLen_bound _ _ hm (lt_of_lt_of_le hv (zpow_mono2 hB))
  exact ⟨round_expo_le _ _ _ B hm c1 hv hB, round_sign _ _ _ hm c1 c2⟩

/-- The squares of a component and of the scaled component. -/
theorem sq_rel (n : Nat) (c : F32)
    (hc : c.isZero = true ∨ (64 ≤ c.expo ∧ c.expo + n ≤ 180)) :
    Rel (n + n) 235 (c * c) (scale2 n c * scale2 n c) := by
  rcases hc with hz | ⟨h1, h2⟩
  · left
    rw [scale2_zero n c hz]
    refine ⟨?_, rfl⟩
    have hf := zero_finite c hz
    have hs : c.sig = 0 := by
      simp only [isZero, Bool.and_eq_true, beq_iff_eq] at hz
      simp [sig, hz.1, hz.2]
    rw [mul_eq_round c c hf hf, hs]
    simp only [mul_zero, round_zero]
    cases (c.sign != c.sign) <;> decide
  · right
    have sh := scale2_shift n c (by omega) (by omega)
    generalize scale2 n c = c' at *
    obtain ⟨u1, u2, u3, u4, u5⟩ := shiftN_facts sh
    obtain ⟨_, _, ec, _, _⟩ := sh
    obtain ⟨l1, _⟩ := normal_val c (by omega)
    obtain ⟨_, l2⟩ := normal_val c' (by omega)
    have lo : (2 : ℚ) ^ (-126 : Int) ≤ |c.toRat * c.toRat| := by
      rw [abs_mul]
      have e1 : (2 : ℚ) ^ (-63 : Int) ≤ |c.toRat| := le_trans (zpow_mono2 (by omega)) l1
      calc (2 : ℚ) ^ (-126 : Int) = 2 ^ (-63 : Int) * 2 ^ (-63 : Int) := by
            rw [← zpow_add₀ two_ne]; norm_num
        _ ≤ |c.toRat| * |c.toRat| := mul_le_mul e1 e1 (by positivity) (abs_nonneg _)
    have hi : |c'.toRat * c'.toRat| < 2 ^ (108 : Int) := by
      rw [abs_mul]
      have e1 : |c'.toRat| < 2 ^ (54 : Int) := lt_of_lt_of_le l2 (zpow_mono2 (by omega))
      calc |c'.toRat| * |c'.toRat| < 2 ^ (54 : Int) * 2 ^ (54 : Int) :=
            mul_lt_mul'' e1 e1 (abs_nonneg _) (abs_nonneg _)
        _ = 2 ^ (108 : Int) := by rw [← zpow_add₀ two_ne]; norm_num
    have lo' : (2 : ℚ) ^ (-126 : Int) ≤ |c'.toRat * c'.toRat| := by
      rw [shiftN_val ⟨u5, by assumption, ec, by omega, by omega⟩]
      have e2 : (2 : ℚ) ^ n * c.toRat * (2 ^ n * c.toRat) = (2 ^ n) ^ 2 * (c.toRat * c.toRat) := by
        ring
      rw [e2, abs_mul, abs_of_nonneg (by positivity)]
      have e3 : (1 : ℚ) ≤ (2 ^ n) ^ 2 := by
        have : (1 : ℚ) ≤ 2 ^ n := one_le_pow₀ (by norm_num)
        nlinarith
      calc (2 : ℚ) ^ (-126 : Int) ≤ |c.toRat * c.toRat| := lo
        _ = 1 * |c.toRat * c.toRat| := (one_mul _).symm
        _ ≤ (2 ^ n) ^ 2 * |c.toRat * c.toRat| := mul_le_mul_of_nonneg_right e3 (abs_nonneg _)
    obtain ⟨x1, _⟩ := mul_expo_sign c' c' 108 u4 u4 lo' hi (by norm_num)
    obtain ⟨_, x2⟩ := mul_expo_sign c c 108 u3 u3 lo
      (lt_of_le_of_lt (by
        rw [abs_mul, abs_mul]
        have := shiftN_val (n := n) (a := c) (b := c') ⟨u5, by assumption, ec, by omega, by omega⟩
        rw [this, abs_mul, abs_of_nonneg (by positivity : (0 : ℚ) ≤ 2 ^ n)]
        have e3 : (1 : ℚ) ≤ 2 ^ n := one_le_pow₀ (by norm_num)
        have e4 : |c.toRat| ≤ 2 ^ n * |c.toRat| := by
          calc |c.toRat| = 1 * |c.toRat| := (one_mul _).symm
            _ ≤ 2 ^ n * |c.toRat| := mul_le_mul_of_nonneg_right e3 (abs_nonneg _)
        exact mul_le_mul e4 e4 (abs_nonneg _) (by positivity)) hi) (by norm_num)
    refine ⟨mul_shift_gen c c' c c' (n + n) u3 u4 u3 u4 u5 u5 u1 u1 ?_ lo
      (lt_of_lt_of_le hi (zpow_mono2 (by norm_num))), ?_, by omega⟩
    · rw [u2]; push_cast; ring
    · rw [x2]; cases c.sign <;> rfl


/-- The intermediate values of `invSqrt` on `[10^-3, 10^6]`: all finite, positive
and of moderate size. -/
theorem invSqrt_steps (x : F32) (hlo : (1 : ℚ) / 1000 ≤ x.toRat) (hhi : x.toRat ≤ 1000000) :
    (x.sign = false ∧ 117 ≤ x.expo ∧ x.expo ≤ 146) ∧
    ((longToFloat (0x5f3759df - floatToLong x / 2)).isFinite = true ∧
      (9 : ℚ) / 10000 ≤ (longToFloat (0x5f3759df - floatToLong x / 2)).toRat ∧
      (longToFloat (0x5f3759df - floatToLong x / 2)).toRat ≤ 33) ∧
    ((f0_5 * x).isFinite = true ∧ (4 : ℚ) / 10000 ≤ (f0_5 * x).toRat ∧
      (f0_5 * x).toRat ≤ 600000) ∧
    ((f0_5 * x * longToFloat (0x5f3759df - floatToLong x / 2)).isFinite = true ∧
      (3 : ℚ) / 10000000 ≤ (f0_5 * x * longToFloat (0x5f3759df - floatToLong x / 2)).toRat ∧
      (f0_5 * x * longToFloat (0x5f3759df - floatToLong x / 2)).toRat ≤ 20000000) ∧
    ((f1_5 - f0_5 * x * longToFloat (0x5f3759df - floatToLong x / 2)
        * longToFloat (0x5f3759df - floatToLong x / 2)).isFinite = true ∧
      (9 : ℚ) / 10 ≤ (f1_5 - f0_5 * x * longToFloat (0x5f3759df - floatToLong x / 2)
        * longToFloat (0x5f3759df - floatToLong x / 2)).toRat ∧
      (f1_5 - f0_5 * x * longToFloat (0x5f3759df - floatToLong x / 2)
        * longToFloat (0x5f3759df - floatToLong x / 2)).toRat ≤ 11 / 10) := by
  obtain ⟨hs, hE1, hE2, hv⟩ := range_struct x hlo hhi
  have hxf : x.isFinite = true := by
    simp only [isFinite, bne_iff_ne, ne_eq]; omega
  obtain ⟨yf, ypos, hT1, hT2⟩ := seed_bounds x hs (by omega) (by omega) hv
  generalize longToFloat (0x5f3759df - floatToLong x / 2) = y0 at *
  obtain ⟨hY1, hY2⟩ := seed_size x.toRat y0.toRat hlo hhi ypos hT1 hT2
  have hX0 : 0 < x.toRat := lt_of_lt_of_le (by norm_num) hlo
  have hhalf : f0_5.isFinite = true := by decide
  have h15 : f1_5.isFinite = true := by decide
  obtain ⟨k1, k2, k3⟩ := mul_pos_val f0_5 x hhalf hxf (by rw [toRat_f0_5]; norm_num) hX0
    (by rw [toRat_f0_5]; linarith) (by rw [toRat_f0_5]; linarith)
  rw [toRat_f0_5] at k2 k3
  generalize f0_5 * x = halfx at *
  have hh0 : 0 < halfx.toRat := by linarith
  have hhl : (4 : ℚ) / 10000 ≤ halfx.toRat := by linarith
  have hhu : halfx.toRat ≤ 600000 := by linarith
  obtain ⟨b1, b2⟩ := prod_bounds (by norm_num) (by norm_num) hhl hhu hY1 hY2
  obtain ⟨l1, l2, l3⟩ := mul_pos_val halfx y0 k1 yf hh0 ypos (by linarith) (by linarith)
  generalize halfx * y0 = p1 at *
  have hp0 : 0 < p1.toRat := by linarith
  have hpl : (3 : ℚ) / 10000000 ≤ p1.toRat := by linarith
  have hpu : p1.toRat ≤ 20000000 := by linarith
  obtain ⟨c1, c2⟩ := prod_bounds (by norm_num) (by norm_num) hpl hpu hY1 hY2
  obtain ⟨m1, m2, m3⟩ := mul_pos_val p1 y0 l1 yf hp0 ypos (by linarith) (by linarith)
  generalize p1 * y0 = p2 at *
  obtain ⟨_, _, n3, n4⟩ := newton_a2 x.toRat y0.toRat halfx.toRat p1.toRat p2.toRat
    (1 - 1 / 10000000) (1 + 1 / 10000000) rfl rfl hX0 ypos hT1 hT2 k2 k3 l2 l3 m2 m3
  obtain ⟨s1, s2, s3⟩ := sub_pos_val f1_5 p2 h15 m1 (by rw [toRat_f1_5]; linarith)
    (by rw [toRat_f1_5]; linarith)
  rw [toRat_f1_5] at s2 s3
  generalize f1_5 - p2 = p3 at *
  have hql : (9 : ℚ) / 10 ≤ p3.toRat := by linarith
  have hqu : p3.toRat ≤ 11 / 10 := by linarith
  exact ⟨⟨hs, hE1, hE2⟩, ⟨yf, hY1, hY2⟩, ⟨k1, hhl, hhu⟩, ⟨l1, hpl, hpu⟩, ⟨s1, hql, hqu⟩⟩

theorem sign_small (b : Nat) (h : b < 2 ^ 31) : (F32.mk b).sign = false := by
  simp only [sign, beq_eq_false_iff_ne, ne_eq]
  omega

/-- The seeds of `x` and of `4^n * x`. -/
theorem seed_shift (n : Nat) (x x' : F32) (h : ShiftN (n + n) x x') (hs : x.sign = false)
    (h1 : 117 ≤ x.expo) (h2 : x'.expo ≤ 146) :
    ShiftN n (longToFloat (0x5f3759df - floatToLong x' / 2))
      (longToFloat (0x5f3759df - floatToLong x / 2)) := by
  obtain ⟨a1, a2, a3, _, _⟩ := h
  rw [seed_eq x hs, seed_eq x' (by rw [a1, hs]), a2, a3]
  have hfr : x.frac < 2 ^ 23 := Nat.mod_lt _ (by norm_num)
  rw [a3] at h2
  generalize x.expo = E at *
  generalize x.frac = f at *
  refine ⟨?_, ?_, ?_, ?_, ?_⟩
  · rw [sign_small _ (by omega), sign_small _ (by omega)]
  · simp only [frac]; omega
  · simp only [expo]; omega
  · simp only [expo]; omega
  · simp only [expo]; omega


theorem abs_prod_bounds {a b la ua lb ub : ℚ} (hla : 0 < la) (hlb : 0 < lb)
    (h1 : la ≤ a) (h2 : a ≤ ua) (h3 : lb ≤ b) (h4 : b ≤ ub) :
    la * lb ≤ |a * b| ∧ |a * b| ≤ ua * ub := by
  have ha : 0 < a := lt_of_lt_of_le hla h1
  have hb : 0 < b := lt_of_lt_of_le hlb h3
  rw [abs_of_pos (mul_pos ha hb)]
  exact prod_bounds hla.le hlb.le h1 h2 h3 h4

theorem lo126' : (2 : ℚ) ^ (-126 : Int) ≤ 1 / 10 ^ 20 := by norm_num

theorem hi127' : (10 : ℚ) ^ 20 < 2 ^ (127 : Int) := by norm_num

/-- With `x' = 4^n * x`, both in `[10^-3, 10^6]`: `invSqrt x = 2^n * invSqrt x'`
exactly. -/
theorem invSqrt_shift (n : Nat) (x x' : F32) (h : ShiftN (n + n) x x')
    (hlo : (1 : ℚ) / 1000 ≤ x.toRat) (hhi : x'.toRat ≤ 1000000) :
    ShiftN n (invSqrt x') (invSqrt x) := by
  have hxx := shiftN_val h
  have h2n : (1 : ℚ) ≤ 2 ^ (n + n) := one_le_pow₀ (by norm_num)
  have hx0 : 0 < x.toRat := lt_of_lt_of_le (by norm_num) hlo
  have hle : x.toRat ≤ x'.toRat := by
    rw [hxx]
    calc x.toRat = 1 * x.toRat := (one_mul _).symm
      _ ≤ 2 ^ (n + n) * x.toRat := mul_le_mul_of_nonneg_right h2n hx0.le
  obtain ⟨⟨s1, e1, e2⟩, ⟨yf, y1, y2⟩, ⟨hf, hl, hu⟩, ⟨pf, pl, pu⟩, ⟨qf, ql, qu⟩⟩ :=
    invSqrt_steps x hlo (by linarith)
  obtain ⟨⟨s1', e1', e2'⟩, ⟨yf', y1', y2'⟩, ⟨hf', hl', hu'⟩, ⟨pf', pl', pu'⟩, ⟨qf', ql', qu'⟩⟩ :=
    invSqrt_steps x' (by linarith) hhi
  have S := seed_shift n x x' h s1 e1 e2'
  obtain ⟨x1, x2, x3, x4, x5⟩ := shiftN_facts h
  rw [invSqrt_eq x, invSqrt_eq x']
  generalize longToFloat (0x5f3759df - floatToLong x / 2) = y0 at *
  generalize longToFloat (0x5f3759df - floatToLong x' / 2) = y0' at *
  obtain ⟨t1, t2, t3, t4, t5⟩ := shiftN_facts S
  have hhalf : f0_5.isFinite = true := by decide
  have v05 := toRat_f0_5
  -- halfx
  have H : ShiftN (n + n) (f0_5 * x) (f0_5 * x') := by
    refine mul_shift_gen f0_5 f0_5 x x' (n + n) hhalf hhalf x3 x4 rfl x5 rfl x1 ?_ ?_ ?_
    · rw [x2]; ring
    · rw [v05, abs_of_pos (by linarith)]
      exact le_trans lo126' (le_trans (by norm_num) (by linarith : (1 : ℚ) / 2000 ≤ 1 / 2 * x.toRat))
    · rw [v05, abs_of_pos (by linarith)]
      exact lt_of_le_of_lt (by linarith : 1 / 2 * x'.toRat ≤ (500000 : ℚ))
        (lt_of_le_of_lt (by norm_num) hi127')
  obtain ⟨h1, h2, h3, h4, h5⟩ := shiftN_facts H
  generalize f0_5 * x = halfx at *
  generalize f0_5 * x' = halfx' at *
  -- halfx * y
  have P : ShiftN n (halfx * y0) (halfx' * y0') := by
    refine mul_shift_gen halfx halfx' y0 y0' n h3 h4 t4 t3 h5 t5.symm h1 t1.symm ?_ ?_ ?_
    · rw [h2, t2]; push_cast; ring
    · obtain ⟨b1, _⟩ := abs_prod_bounds (by norm_num) (by norm_num) hl hu y1 y2
      exact le_trans lo126' (le_trans (by norm_num) b1)
    · obtain ⟨_, b2⟩ := abs_prod_bounds (by norm_num) (by norm_num) hl' hu' y1' y2'
      exact lt_of_le_of_lt b2 (lt_of_le_of_lt (by norm_num) hi127')
  obtain ⟨p1, p2, p3, p4, p5⟩ := shiftN_facts P
  -- halfx * y * y
  have C : halfx' * y0' * y0' = halfx * y0 * y0 := by
    refine mul_cancel (halfx * y0) (halfx' * y0') y0 y0' p3 p4 t4 t3 p5 t5.symm p1 t1.symm ?_
    rw [p2, t2]; ring
  rw [C]
  generalize f1_5 - halfx * y0 * y0 = w at *
  -- y * (...)
  refine mul_shift_gen y0' y0 w w n t3 t4 qf qf t5 rfl t1 rfl ?_ ?_ ?_
  · rw [t2]; ring
  · obtain ⟨b1, _⟩ := abs_prod_bounds (by norm_num) (by norm_num) y1' y2' ql qu
    exact le_trans lo126' (le_trans (by norm_num) b1)
  · obtain ⟨_, b2⟩ := abs_prod_bounds (by norm_num) (by norm_num) y1 y2 ql qu
    exact lt_of_le_of_lt b2 (lt_of_le_of_lt (by norm_num) hi127')


theorem rel_mono (n h h' : Nat) (u u' : F32) (hr : Rel n h u u') (hh : h ≤ h') :
    Rel n h' u u' := by
  rcases hr with hz | ⟨a, b, c⟩
  · exact Or.inl hz
  · exact Or.inr ⟨a, b, le_trans c hh⟩

theorem toRat_isZero (z : F32) (hz : z.isZero = true) : z.toRat = 0 := by
  obtain ⟨a1, _⟩ := ssig_zero z hz
  simp [toRat, a1]

/-- The sums of squares of a vector and of the vector scaled by `2^n`. -/
theorem sumsq3_shift (n : Nat) (ax ay az : F32) (hx : okComp n ax) (hy : okComp n ay)
    (hz : okComp n az) (hlo : (1 : ℚ) / 1000 ≤ (ax * ax + ay * ay + az * az).toRat) :
    ShiftN (n + n) (ax * ax + ay * ay + az * az)
      (scale2 n ax * scale2 n ax + scale2 n ay * scale2 n ay + scale2 n az * scale2 n az) := by
  have r1 := add_rel (n + n) 235 _ _ _ _ (sq_rel n ax hx) (sq_rel n ay hy) (by norm_num)
  have r2 := add_rel (n + n) 237 _ _ _ _ r1
    (rel_mono (n + n) 235 237 _ _ (sq_rel n az hz) (by norm_num)) (by norm_num)
  rcases r2 with ⟨z, _⟩ | ⟨sh, _, _⟩
  · rw [toRat_isZero _ z] at hlo
    norm_num at hlo
  · exact sh

theorem comp_scale (n : Nat) (c r r' : F32) (hc : okComp n c) (I : ShiftN n r' r) :
    scale2 n c * r' = c * r := by
  obtain ⟨t1, t2, t3, t4, t5⟩ := shiftN_facts I
  rcases hc with hz | ⟨h1, h2⟩
  · rw [scale2_zero n c hz]
    have hf := zero_finite c hz
    have hs : c.sig = 0 := by
      simp only [isZero, Bool.and_eq_true, beq_iff_eq] at hz
      simp [sig, hz.1, hz.2]
    rw [mul_eq_round c r' hf t3, mul_eq_round c r hf t4, hs, t5]
    simp only [zero_mul, round_zero]
  · have sh := scale2_shift n c (by omega) (by omega)
    generalize scale2 n c = c' at *
    obtain ⟨u1, u2, u3, u4, u5⟩ := shiftN_facts sh
    refine mul_cancel c c' r r' u3 u4 t4 t3 u5 t5.symm u1 t1.symm ?_
    rw [u2, t2]; ring

theorem eq_f0_scale (n : Nat) (c : F32) (hc : okComp n c) :
    F32.eq (scale2 n c) f0 = F32.eq c f0 := by
  rcases hc with hz | ⟨h1, h2⟩
  · rw [scale2_zero n c hz]
  · have sh := scale2_shift n c (by omega) (by omega)
    generalize scale2 n c = c' at *
    obtain ⟨_, _, ec, _, _⟩ := sh
    have key : ∀ d : F32, 1 ≤ d.expo → F32.eq d f0 = false := by
      intro d hd
      have hz : d.isZero = false := by
        simp only [isZero, Bool.and_eq_false_imp, beq_iff_eq]
        intro h0; omega
      have hb : (d.bits % 2 ^ 32 == f0.bits % 2 ^ 32) = false := by
        simp only [f0, beq_eq_false_iff_ne, ne_eq]
        simp only [expo] at hd
        omega
      have hb2 : ¬ d.bits % 4294967296 = f0.bits % 4294967296 := by
        simpa using hb
      simp [F32.eq, hz, hb2]
    rw [key c (by omega), key c' (by omega)]

/-- Scaling the accelerometer reading by `2^n` does not change the feedback. -/
theorem feedback_scale (n : Nat) (kp ki : F32) (s : State) (gx gy gz ax ay az : F32)
    (tv : Timeval) (hx : okComp n ax) (hy : okComp n ay) (hz : okComp n az)
    (hlo : (1 : ℚ) / 1000 ≤ (ax * ax + ay * ay + az * az).toRat)
    (hhi : (scale2 n ax * scale2 n ax + scale2 n ay * scale2 n ay
      + scale2 n az * scale2 n az).toRat ≤ 1000000) :
    feedback kp ki s gx gy gz (scale2 n ax) (scale2 n ay) (scale2 n az) tv
      = feedback kp ki s gx gy gz ax ay az tv := by
  have I := invSqrt_shift n _ _ (sumsq3_shift n ax ay az hx hy hz hlo) hlo hhi
  have ex := comp_scale n ax _ _ hx I
  have ey := comp_scale n ay _ _ hy I
  have ez := comp_scale n az _ _ hz I
  simp only [feedback, eq_f0_scale n ax hx, eq_f0_scale n ay hy, eq_f0_scale n az hz, ex, ey, ez]

/-- The value of a component scaled by `scale2 n` is `2^n` times the value. -/
theorem scale2_val (n : Nat) (c : F32) (hc : okComp n c) :
    (scale2 n c).toRat = 2 ^ n * c.toRat := by
  rcases hc with hz | ⟨h1, h2⟩
  · rw [scale2_zero n c hz, toRat_isZero c hz, mul_zero]
  · exact shiftN_val (scale2_shift n c (by omega) (by omega))

/-! ### Clock, validity gate and the aligned identity -/

/-- Every call records the clock reading. -/
theorem IMUupdateWith_last_tv (kp ki : F32) (s : State) (gx gy gz ax ay az : F32)
    (tv : Timeval) (q : QArr) :
    (IMUupdateWith kp ki s gx gy gz ax ay az tv q).1.last_tv = tv := by
  unfold IMUupdateWith
  split <;> rfl

theorem runWith_append (kp ki : F32) (cs : List Call) (c : Call) :
    ∀ r : State × QArr, runWith kp ki r (cs ++ [c])
      = IMUupdateWith kp ki (runWith kp ki r cs).1 c.gx c.gy c.gz c.ax c.ay c.az c.tv
          (runWith kp ki r cs).2 := by
  induction cs with
  | nil => intro r; rfl
  | cons d ds ih => intro r; simp only [List.cons_append, runWith]; exact ih _

theorem runWith_last_tv (kp ki : F32) (r : State × QArr) (cs : List Call) (c : Call) :
    (runWith kp ki r (cs ++ [c])).1.last_tv = c.tv := by
  rw [runWith_append, IMUupdateWith_last_tv]

/-- The feedback block when the accelerometer reading is not the zero vector
and the integral gain is positive. -/
theorem feedback_valid (kp ki : F32) (s : State) (gx gy gz ax ay az : F32) (tv : Timeval)
    (hv : (F32.eq ax f0 && F32.eq ay f0 && F32.eq az f0) = false) (hk : F32.gt ki f0 = true) :
    feedback kp ki s gx gy gz ax ay az tv =
      { gx := gx + (s.integralFBx + ki * (halfe s (ax * accRecipNorm ax ay az)
            (ay * accRecipNorm ax ay az) (az * accRecipNorm ax ay az)).1
              * timeDiffOf s.last_tv tv)
          + kp * (halfe s (ax * accRecipNorm ax ay az)
            (ay * accRecipNorm ax ay az) (az * accRecipNorm ax ay az)).1,
        gy := gy + (s.integralFBy + ki * (halfe s (ax * accRecipNorm ax ay az)
            (ay * accRecipNorm ax ay az) (az * accRecipNorm ax ay az)).2.1
              * timeDiffOf s.last_tv tv)
          + kp * (halfe s (ax * accRecipNorm ax ay az)
            (ay * accRecipNorm ax ay az) (az * accRecipNorm ax ay az)).2.1,
        gz := gz + (s.integralFBz + ki * (halfe s (ax * accRecipNorm ax ay az)
            (ay * accRecipNorm ax ay az) (az * accRecipNorm ax ay az)).2.2
              * timeDiffOf s.last_tv tv)
          + kp * (halfe s (ax * accRecipNorm ax ay az)
            (ay * accRecipNorm ax ay az) (az * accRecipNorm ax ay az)).2.2,
        integralFBx := s.integralFBx + ki * (halfe s (ax * accRecipNorm ax ay az)
            (ay * accRecipNorm ax ay az) (az * accRecipNorm ax ay az)).1
              * timeDiffOf s.last_tv tv,
        integralFBy := s.integralFBy + ki * (halfe s (ax * accRecipNorm ax ay az)
            (ay * accRecipNorm ax ay az) (az * accRecipNorm ax ay az)).2.1
              * timeDiffOf s.last_tv tv,
        integralFBz := s.integralFBz + ki * (halfe s (ax * accRecipNorm ax ay az)
            (ay * accRecipNorm ax ay az) (az * accRecipNorm ax ay az)).2.2
              * timeDiffOf s.last_tv tv,
        timeDiff := timeDiffOf s.last_tv tv } := by
  simp only [feedback, hv, hk, halfe, accRecipNorm, Bool.not_false, if_true]

theorem zero_mul_fin (b : F32) (hb : b.isFinite = true) : f0 * b = F32.zero b.sign := by
  have h0 : f0.isFinite = true := by decide
  have h1 : f0.sig = 0 := by decide
  have h2 : f0.sign = false := by decide
  rw [mul_eq_round f0 b h0 hb, h1, h2, Nat.zero_mul, round_zero]
  cases b.sign <;> rfl

theorem mul_zero_fin (a : F32) (ha : a.isFinite = true) : a * f0 = F32.zero a.sign := by
  have h0 : f0.isFinite = true := by decide
  have h1 : f0.sig = 0 := by decide
  have h2 : f0.sign = false := by decide
  rw [mul_eq_round a f0 ha h0, h1, h2, Nat.mul_zero, round_zero]
  cases a.sign <;> rfl

theorem sign_of_pos (x : F32) (h : 0 < x.toRat) : x.sign = false := by
  by_contra hs
  have hs' : x.sign = true := by simpa using hs
  rw [toRat_eq, hs'] at h
  have : (0 : ℚ) ≤ (x.sig : ℚ) * 2 ^ x.qexp := by positivity
  simp only [sgn, if_true] at h
  nlinarith

theorem finite_abs_lt (x : F32) (h : x.isFinite = true) : |x.toRat| < 2 ^ (128 : Int) := by
  simp only [isFinite, bne_iff_ne, ne_eq] at h
  have he : x.expo < 256 := Nat.mod_lt _ (by norm_num)
  by_cases h0 : x.expo = 0
  · have hfr : x.frac < 2 ^ 23 := Nat.mod_lt _ (by norm_num)
    have hfrq : (x.frac : ℚ) < 8388608 := by exact_mod_cast hfr
    rw [toRat_eq, mul_assoc, abs_sgn_mul, abs_of_nonneg (by positivity)]
    simp only [sig, qexp, h0, if_true]
    have hp : (0 : ℚ) < 2 ^ (-149 : Int) := by positivity
    calc (x.frac : ℚ) * 2 ^ (-149 : Int) < 8388608 * 2 ^ (-149 : Int) :=
          mul_lt_mul_of_pos_right hfrq hp
      _ ≤ 2 ^ (128 : Int) := by norm_num
  · obtain ⟨_, hu⟩ := normal_val x (by omega)
    refine lt_of_lt_of_le hu ?_
    apply zpow_le_zpow_right₀ (by norm_num)
    omega

/-- The conversion of an integer of at most 65 bits is finite. -/
theorem ofInt_bound (n : Int) (h : n.natAbs ≤ 2 ^ 64) :
    (F32.ofInt n).isFinite = true ∧ |(F32.ofInt n).toRat| ≤ 2 ^ (65 : Int) := by
  unfold F32.ofInt
  by_cases hm : n.natAbs = 0
  · rw [hm, round_zero, toRat_zero]
    exact ⟨isFinite_zero _, by norm_num⟩
  · have hq : (n.natAbs : ℚ) ≤ 2 ^ 64 := by exact_mod_cast h
    have hpos : (0 : ℚ) ≤ (n.natAbs : ℚ) := by positivity
    obtain ⟨hf, _, hb, _⟩ := round_val (decide (n < 0)) n.natAbs 0 hm
      (by rw [zpow_zero, mul_one]; exact lt_of_le_of_lt hq (by norm_num))
    refine ⟨hf, ?_⟩
    rw [zpow_zero, mul_one] at hb
    have hs : |sgn (decide (n < 0)) * (n.natAbs : ℚ)| = (n.natAbs : ℚ) := by
      rw [abs_sgn_mul, abs_of_nonneg hpos]
    have h1 := abs_sub_abs_le_abs_sub (F32.round (decide (n < 0)) n.natAbs 0).toRat
      (sgn (decide (n < 0)) * (n.natAbs : ℚ))
    rw [hs] at h1
    have h2 : (2 : ℚ) ^ (-24 : Int) * (n.natAbs : ℚ) + 2 ^ (-150 : Int) ≤ 2 ^ 64 := by
      have : (2 : ℚ) ^ (-24 : Int) * (n.natAbs : ℚ) ≤ 2 ^ (-24 : Int) * 2 ^ 64 :=
        mul_le_mul_of_nonneg_left hq (by positivity)
      refine le_trans (add_le_add_right this _) ?_
      norm_num
    have h3 : (2 : ℚ) ^ (65 : Int) = 2 ^ 64 + 2 ^ 64 := by norm_num
    rw [h3]
    linarith

theorem toRat_f1em6 : f1em6.toRat = (8796093 : ℚ) * 2 ^ (-43 : Int) := by
  have h := toRat_of f1em6 8796093 (-43) (by decide) (by decide)
  rw [h]; norm_num

/-- The elapsed time of lines 235-236 is finite for clock readings whose fields
fit in a 64-bit `long`. -/
theorem timeDiffOf_finite (l t : Timeval)
    (h1 : (t.tv_sec - l.tv_sec).natAbs ≤ 2 ^ 64) (h2 : (t.tv_usec - l.tv_usec).natAbs ≤ 2 ^ 64) :
    (timeDiffOf l t).isFinite = true := by
  obtain ⟨a1, a2⟩ := ofInt_bound _ h1
  obtain ⟨b1, b2⟩ := ofInt_bound _ h2
  unfold timeDiffOf
  generalize F32.ofInt (t.tv_sec - l.tv_sec) = A at *
  generalize F32.ofInt (t.tv_usec - l.tv_usec) = B at *
  have hc : f1em6.isFinite = true := by decide
  have hcv : |f1em6.toRat| ≤ 1 := by
    rw [toRat_f1em6, abs_of_nonneg (by positivity)]
    norm_num
  have hp : |B.toRat * f1em6.toRat| ≤ 2 ^ (65 : Int) := by
    rw [abs_mul]
    calc |B.toRat| * |f1em6.toRat| ≤ 2 ^ (65 : Int) * 1 :=
          mul_le_mul b2 hcv (abs_nonneg _) (by positivity)
      _ = 2 ^ (65 : Int) := mul_one _
  obtain ⟨p1, p2, _⟩ := mul_val B f1em6 b1 hc (lt_of_le_of_lt hp (by norm_num))
  have h3 := abs_sub_abs_le_abs_sub (B * f1em6).toRat (B.toRat * f1em6.toRat)
  have hP : |(B * f1em6).toRat| ≤ 2 ^ (66 : Int) := by
    have e1 : (2 : ℚ) ^ (-24 : Int) * |B.toRat * f1em6.toRat| ≤ 2 ^ (-24 : Int) * 2 ^ (65 : Int) :=
      mul_le_mul_of_nonneg_left hp (by positivity)
    have e2 : (2 : ℚ) ^ (-24 : Int) * 2 ^ (65 : Int) + 2 ^ (-150 : Int) + 2 ^ (65 : Int)
        ≤ 2 ^ (66 : Int) := by norm_num
    linarith
  have hs : |A.toRat + (B * f1em6).toRat| < 2 ^ (127 : Int) := by
    refine lt_of_le_of_lt (abs_add _ _) ?_
    have e3 : (2 : ℚ) ^ (65 : Int) + 2 ^ (66 : Int) < 2 ^ (127 : Int) := by norm_num
    linarith
  exact (add_val A (B * f1em6) a1 p1 hs).1

theorem finite_of_abs_lt (x : F32) (h : |x.toRat| < 2 ^ (128 : Int)) : x.isFinite = true := by
  simp only [isFinite, bne_iff_ne, ne_eq]
  intro he
  obtain ⟨hl, _⟩ := normal_val x (by omega)
  rw [he] at hl
  norm_num at hl
  exact absurd (lt_of_le_of_lt hl h) (by norm_num)

theorem eq_f0_false_of_pos (x : F32) (h : 0 < x.toRat) : F32.eq x f0 = false := by
  have hz : x.isZero = false := by
    by_contra hc
    have hc' : x.isZero = true := by simpa using hc
    rw [toRat_isZero x hc'] at h
    exact lt_irrefl _ h
  have hb : ¬ x.bits % 4294967296 = f0.bits % 4294967296 := by
    intro hb
    simp only [f0] at hb
    simp only [isZero, expo, frac, Bool.and_eq_false_imp, beq_iff_eq] at hz
    have h1 : x.bits / 2 ^ 23 % 256 = 0 := by omega
    have h2 := hz h1
    simp only [beq_eq_false_iff_ne, ne_eq] at h2
    omega
  simp [F32.eq, hz, hb]

/-- With the identity quaternion stored, the error against an accelerometer
direction `(0, 0, a)`, `a` finite and not negative, is `(0, 0, 0)`. -/
theorem halfe_aligned (l : Timeval) (a : F32) (ha : a.isFinite = true) (hs : a.sign = false) :
    halfe ⟨f1, f0, f0, f0, f0, f0, f0, l⟩ f0 f0 a = (f0, f0, f0) := by
  have hvx : f0 * f0 - f1 * f0 = f0 := by decide
  have hvy : f1 * f0 + f0 * f0 = f0 := by decide
  have hvz : f1 * f1 - f0_5 + f0 * f0 = f0_5 := by decide
  have hz : F32.zero false = f0 := rfl
  simp only [halfe, hvx, hvy, hvz, mul_zero_fin a ha, hs, hz]
  decide

/-- The integration and normalisation from the identity quaternion with zero
rates: the result does not depend on the finite time step. -/
theorem integrate_identity_zero (l : Timeval) (dt : F32) (hdt : dt.isFinite = true) :
    normalise (integrate ⟨f1, f0, f0, f0, f0, f0, f0, l⟩ f0 f0 f0 dt)
      = ⟨⟨0x3f7f910f⟩, f0, f0, f0⟩ := by
  have hh : (f0_5 * dt).isFinite = true := by
    have hb := finite_abs_lt dt hdt
    refine (mul_val f0_5 dt (by decide) hdt ?_).1
    rw [abs_mul, toRat_f0_5]
    have e : (2 : ℚ) ^ (128 : Int) = 2 * 2 ^ (127 : Int) := by norm_num
    rw [e] at hb
    rw [abs_of_pos (by norm_num : (0 : ℚ) < 1 / 2)]
    linarith
  simp only [integrate, zero_mul_fin _ hh]
  cases (f0_5 * dt).sign <;> decide!

/-! ### The exact reading of the program -/

theorem lit_zero : (FloatLit.lit 0 1 : F32) = f0 := by decide

theorem lit_half : (FloatLit.lit 5 10 : F32) = f0_5 := by decide

theorem lit_two : (FloatLit.lit 2 1 : F32) = f2 := by decide

theorem lit_0_05 : (FloatLit.lit 5 100 : F32) = f0_05 := by decide

theorem lit_1em6 : (FloatLit.lit 1 1000000 : F32) = f1em6 := by decide

theorem twoKpDefOver_binary32 : (twoKpDefOver : F32) = twoKpDef := by
  simp only [twoKpDefOver, twoKpDef, lit_two, lit_half]

theorem twoKiDefOver_binary32 : (twoKiDefOver : F32) = twoKiDef := by
  simp only [twoKiDefOver, twoKiDef, lit_two, lit_0_05]

theorem timeDiffOver_binary32 (l t : Timeval) : (timeDiffOver l t : F32) = timeDiffOf l t := by
  simp only [timeDiffOver, timeDiffOf, lit_1em6]
  rfl

/-- Over binary32 the generic text of the feedback block is the function
`feedback`. -/
theorem feedbackOver_binary32 (kp ki : F32) (s : State) (gx gy gz ax ay az : F32)
    (tv : Timeval) :
    feedbackOver invSqrt kp ki s.over gx gy gz ax ay az tv
      = (feedback kp ki s gx gy gz ax ay az tv).over := by
  simp only [feedbackOver, feedback, lit_zero, lit_half, timeDiffOver_binary32, State.over]
  have e1 : ∀ a b : F32, FloatLit.feq a b = F32.eq a b := fun _ _ => rfl
  have e2 : ∀ a b : F32, FloatLit.fgt a b = F32.gt a b := fun _ _ => rfl
  simp only [e1, e2]
  split
  · split <;> rfl
  · rfl

theorem integrateOver_binary32 (s : State) (gx gy gz dt : F32) :
    integrateOver s.over gx gy gz dt = (integrate s gx gy gz dt).over := by
  simp only [integrateOver, integrate, lit_half, State.over, QArr.over]

theorem normaliseOver_binary32 (p : QArr) :
    normaliseOver invSqrt p.over = (normalise p).over := by
  simp only [normaliseOver, normalise, QArr.over]

theorem steadyStepOver_binary32 (kp ki : F32) (s : State) (gx gy gz ax ay az : F32)
    (tv : Timeval) :
    steadyStepOver invSqrt kp ki s.over gx gy gz ax ay az tv
      = ((steadyStep kp ki s gx gy gz ax ay az tv).1.over,
          (steadyStep kp ki s gx gy gz ax ay az tv).2.over) := by
  simp only [steadyStepOver, steadyStep, feedbackOver_binary32, Feedback.over,
    integrateOver_binary32, normaliseOver_binary32]
  rfl

/-- Over binary32 the generic text of `IMUupdate` is the function `IMUupdate`. -/
theorem IMUupdateOver_binary32 (s : State) (gx gy gz ax ay az : F32) (tv : Timeval)
    (q : QArr) :
    IMUupdateOver invSqrt s.over gx gy gz ax ay az tv q.over
      = ((IMUupdate s gx gy gz ax ay az tv q).1.over,
          (IMUupdate s gx gy gz ax ay az tv q).2.over) := by
  unfold IMUupdateOver IMUupdate IMUupdateWith
  by_cases h : s.last_tv.tv_sec = 0
  · have h' : s.over.last_tv.tv_sec = 0 := h
    simp only [h, h', ne_eq, not_true_eq_false, if_false]
    rfl
  · have h' : s.over.last_tv.tv_sec ≠ 0 := h
    simp only [h, h', ne_eq, not_false_eq_true, if_true, twoKpDefOver_binary32,
      twoKiDefOver_binary32, steadyStepOver_binary32]

theorem lit_exact (n d : Nat) : (FloatLit.lit n d : ℚ) = (n : ℚ) / (d : ℚ) := rfl

theorem ofInt_exact (n : Int) : (FloatLit.ofInt n : ℚ) = (n : ℚ) := rfl

theorem feq_exact (a b : ℚ) : FloatLit.feq a b = decide (a = b) := rfl

theorem fgt_exact (a b : ℚ) : FloatLit.fgt a b = decide (b < a) := rfl

theorem twoKpDefOver_exact : (twoKpDefOver : ℚ) = 1 := by
  simp only [twoKpDefOver, lit_exact]; norm_num

theorem twoKiDefOver_exact : (twoKiDefOver : ℚ) = 1 / 10 := by
  simp only [twoKiDefOver, lit_exact]; norm_num

theorem timeDiffOver_exact (l t : Timeval) : (timeDiffOver l t : ℚ) = secondsBetween l t := by
  simp only [timeDiffOver, secondsBetween, lit_exact, ofInt_exact]
  push_cast
  ring

/-- The feedback block in exact arithmetic for an accelerometer reading that is
not the zero vector. -/
theorem feedbackOver_exact (isq : ℚ → ℚ) (s : StateOver ℚ) (gx gy gz ax ay az : ℚ)
    (tv : Timeval) (hnz : ¬ (ax = 0 ∧ ay = 0 ∧ az = 0)) :
    feedbackOver isq twoKpDefOver twoKiDefOver s gx gy gz ax ay az tv =
      { gx := gx + (s.integralFBx + twoKiDefOver * (cross3
            (ax * isq (ax * ax + ay * ay + az * az), ay * isq (ax * ax + ay * ay + az * az),
              az * isq (ax * ax + ay * ay + az * az)) (halfvOver s)).1
              * secondsBetween s.last_tv tv)
          + twoKpDefOver * (cross3
            (ax * isq (ax * ax + ay * ay + az * az), ay * isq (ax * ax + ay * ay + az * az),
              az * isq (ax * ax + ay * ay + az * az)) (halfvOver s)).1,
        gy := gy + (s.integralFBy + twoKiDefOver * (cross3
            (ax * isq (ax * ax + ay * ay + az * az), ay * isq (ax * ax + ay * ay + az * az),
              az * isq (ax * ax + ay * ay + az * az)) (halfvOver s)).2.1
              * secondsBetween s.last_tv tv)
          + twoKpDefOver * (cross3
            (ax * isq (ax * ax + ay * ay + az * az), ay * isq (ax * ax + ay * ay + az * az),
              az * isq (ax * ax + ay * ay + az * az)) (halfvOver s)).2.1,
        gz := gz + (s.integralFBz + twoKiDefOver * (cross3
            (ax * isq (ax * ax + ay * ay + az * az), ay * isq (ax * ax + ay * ay + az * az),
              az * isq (ax * ax + ay * ay + az * az)) (halfvOver s)).2.2
              * secondsBetween s.last_tv tv)
          + twoKpDefOver * (cross3
            (ax * isq (ax * ax + ay * ay + az * az), ay * isq (ax * ax + ay * ay + az * az),
              az * isq (ax * ax + ay * ay + az * az)) (halfvOver s)).2.2,
        integralFBx := s.integralFBx + twoKiDefOver * (cross3
            (ax * isq (ax * ax + ay * ay + az * az), ay * isq (ax * ax + ay * ay + az * az),
              az * isq (ax * ax + ay * ay + az * az)) (halfvOver s)).1
              * secondsBetween s.last_tv tv,
        integralFBy := s.integralFBy + twoKiDefOver * (cross3
            (ax * isq (ax * ax + ay * ay + az * az), ay * isq (ax * ax + ay * ay + az * az),
              az * isq (ax * ax + ay * ay + az * az)) (halfvOver s)).2.1
              * secondsBetween s.last_tv tv,
        integralFBz := s.integralFBz + twoKiDefOver * (cross3
            (ax * isq (ax * ax + ay * ay + az * az), ay * isq (ax * ax + ay * ay + az * az),
              az * isq (ax * ax + ay * ay + az * az)) (halfvOver s)).2.2
              * secondsBetween s.last_tv tv,
        timeDiff := secondsBetween s.last_tv tv } := by
  have hg : FloatLit.fgt (twoKiDefOver : ℚ) (FloatLit.lit 0 1) = true := by
    rw [fgt_exact, twoKiDefOver_exact, lit_exact]; norm_num
  have hv : (FloatLit.feq ax (FloatLit.lit 0 1 : ℚ) && FloatLit.feq ay (FloatLit.lit 0 1 : ℚ)
      && FloatLit.feq az (FloatLit.lit 0 1 : ℚ)) = false := by
    simp only [feq_exact, lit_exact]
    norm_num
    tauto
  simp only [feedbackOver, hv, hg, timeDiffOver_exact, cross3, halfvOver, Bool.not_false,
    if_true]

/-- The halved estimate of lines 245-247 against the rotated reference vector,
in exact arithmetic: the first two components are one half of it for every
quaternion; the third is off by half the defect of the squared norm. -/
theorem halfvOver_gravity (s : StateOver ℚ) :
    (halfvOver s).1 = 1 / 2 * (gravityOf s.q0 s.q1 s.q2 s.q3).1 ∧
    (halfvOver s).2.1 = 1 / 2 * (gravityOf s.q0 s.q1 s.q2 s.q3).2.1 ∧
    (halfvOver s).2.2 = 1 / 2 * (gravityOf s.q0 s.q1 s.q2 s.q3).2.2
      + 1 / 2 * (s.q0 ^ 2 + s.q1 ^ 2 + s.q2 ^ 2 + s.q3 ^ 2 - 1) := by
  simp only [halfvOver, gravityOf, lit_exact]
  refine ⟨by ring, by ring, ?_⟩
  push_cast
  ring

/-- The reference vector `(0,0,1)` rotated by a quaternion, with the Hamilton
product of Mathlib: `star q * k * q` is the pure quaternion `gravityOf q`. -/
theorem gravityOf_rotation (q0 q1 q2 q3 : ℚ) :
    star (⟨q0, q1, q2, q3⟩ : Quaternion ℚ) * ⟨0, 0, 0, 1⟩ * ⟨q0, q1, q2, q3⟩
      = ⟨0, (gravityOf q0 q1 q2 q3).1, (gravityOf q0 q1 q2 q3).2.1,
          (gravityOf q0 q1 q2 q3).2.2⟩ := by
  ext <;> simp [gravityOf] <;> ring

/-- Lines 276-285 in exact arithmetic are the explicit Euler step, every
component taken from the quaternion before the update. -/
theorem integrateOver_euler (s : StateOver ℚ) (gx gy gz dt : ℚ) :
    (integrateOver s gx gy gz dt).toQuat = eulerStep s.toQuat gx gy gz dt := by
  simp only [integrateOver, eulerStep, QArrOver.toQuat, StateOver.toQuat, lit_exact]
  ext <;> simp <;> ring

/-- The elapsed time that the feedback block leaves in `timeDiff`, in exact
arithmetic. -/
theorem feedbackOver_timeDiff (isq : ℚ → ℚ) (s : StateOver ℚ) (gx gy gz ax ay az : ℚ)
    (tv : Timeval) :
    (feedbackOver isq twoKpDefOver twoKiDefOver s gx gy gz ax ay az tv).timeDiff
      = if ax = 0 ∧ ay = 0 ∧ az = 0 then 0 else secondsBetween s.last_tv tv := by
  by_cases h : ax = 0 ∧ ay = 0 ∧ az = 0
  · obtain ⟨h1, h2, h3⟩ := h
    simp [feedbackOver, feq_exact, lit_exact, h1, h2, h3]
  · rw [if_neg h, feedbackOver_exact isq s gx gy gz ax ay az tv h]

/-- Lines 349-352 in exact arithmetic against the explicit Euler step. -/
theorem legacyIntegrateOver_exact (s : LegacyStateOver ℚ) (gx gy gz dt : ℚ) :
    (legacyIntegrateOver s gx gy gz dt).c0
      = (eulerStep ⟨s.q0, s.q1, s.q2, s.q3⟩ gx gy gz dt).re ∧
    (legacyIntegrateOver s gx gy gz dt).c1
      = (eulerStep ⟨s.q0, s.q1, s.q2, s.q3⟩ gx gy gz dt).imI
        + ((legacyIntegrateOver s gx gy gz dt).c0 - s.q0) * gx * dt * (1 / 2) ∧
    (legacyIntegrateOver s gx gy gz dt).c2
      = (eulerStep ⟨s.q0, s.q1, s.q2, s.q3⟩ gx gy gz dt).imJ
        + (((legacyIntegrateOver s gx gy gz dt).c0 - s.q0) * gy
            - ((legacyIntegrateOver s gx gy gz dt).c1 - s.q1) * gz) * dt * (1 / 2) ∧
    (legacyIntegrateOver s gx gy gz dt).c3
      = (eulerStep ⟨s.q0, s.q1, s.q2, s.q3⟩ gx gy gz dt).imK
        + (((legacyIntegrateOver s gx gy gz dt).c0 - s.q0) * gz
            + ((legacyIntegrateOver s gx gy gz dt).c1 - s.q1) * gy
            - ((legacyIntegrateOver s gx gy gz dt).c2 - s.q2) * gx) * dt * (1 / 2) := by
  simp only [legacyIntegrateOver, eulerStep, lit_exact]
  refine ⟨?_, ?_, ?_, ?_⟩ <;> simp <;> ring

theorem zero_sign (s : Bool) : (F32.zero s).sign = s := by
  cases s <;> decide

/-- The sign of a product that does not overflow. -/
theorem mul_sign_val (a b : F32) (ha : a.isFinite = true) (hb : b.isFinite = true)
    (hv : |a.toRat * b.toRat| < 2 ^ (127 : Int)) : (a * b).sign = (a.sign != b.sign) := by
  rw [mul_eq_round a b ha hb]
  by_cases hm : a.sig * b.sig = 0
  · rw [hm, round_zero, zero_sign]
  · rw [abs_mul_val] at hv
    exact (round_val _ _ _ hm hv).2.1

/-- The seed of `invSqrt` for a zero or subnormal argument. -/
theorem seed_subnormal (x : F32) (hs : x.sign = false) (he : x.expo = 0) :
    (longToFloat (0x5f3759df - floatToLong x / 2)).isFinite = true ∧
    0 < (longToFloat (0x5f3759df - floatToLong x / 2)).toRat ∧
    (longToFloat (0x5f3759df - floatToLong x / 2)).toRat ≤ 12016095 * 2 ^ (40 : Int) := by
  rw [seed_eq x hs, he]
  have hfr : x.frac < 2 ^ 23 := Nat.mod_lt _ (by norm_num)
  generalize x.frac = f at *
  have hb1 : 1593268704 ≤ 1597463007 - (0 * 2 ^ 23 + f) / 2 := by omega
  have hb2 : 1597463007 - (0 * 2 ^ 23 + f) / 2 ≤ 1597463007 := by omega
  generalize 1597463007 - (0 * 2 ^ 23 + f) / 2 = b at *
  have hsg : (F32.mk b).sign = false := by
    simp only [sign, beq_eq_false_iff_ne, ne_eq]; omega
  have hex : (F32.mk b).expo = 189 ∨ (F32.mk b).expo = 190 := by
    simp only [expo]; omega
  have hfin : (F32.mk b).isFinite = true := by
    simp only [isFinite, bne_iff_ne, ne_eq]; omega
  have h1 : 1 ≤ (F32.mk b).expo := by omega
  obtain ⟨plo, phi⟩ := pos_val h1 hsg
  refine ⟨hfin, lt_of_lt_of_le (by positivity) plo, ?_⟩
  rcases hex with h | h
  · rw [h] at phi
    exact le_trans phi.le (by norm_num)
  · have hfrac : (F32.mk b).frac ≤ 3627487 := by
      simp only [expo] at h
      simp only [frac]
      omega
    rw [pos_toRat hsg]
    simp only [sig, qexp, h]
    norm_num
    have : ((F32.mk b).frac : ℚ) ≤ 3627487 := by exact_mod_cast hfrac
    linarith

/-- The seed of `invSqrt` for every finite argument that is not negative:
`0 < y0 ≤ 2^64` and `x * y0^2 ≤ 2.06`. -/
theorem seed_gen (x : F32) (hf : x.isFinite = true) (hs : x.sign = false) :
    (longToFloat (0x5f3759df - floatToLong x / 2)).isFinite = true ∧
    0 < (longToFloat (0x5f3759df - floatToLong x / 2)).toRat ∧
    (longToFloat (0x5f3759df - floatToLong x / 2)).toRat ≤ 2 ^ (64 : Int) ∧
    x.toRat * (longToFloat (0x5f3759df - floatToLong x / 2)).toRat ^ 2 ≤ 206 / 100 := by
  have hX0 : 0 ≤ x.toRat := toRat_nonneg_of_sign x hs
  by_cases he : x.expo = 0
  · obtain ⟨yf, y0, yu⟩ := seed_subnormal x hs he
    generalize (longToFloat (0x5f3759df - floatToLong x / 2)) = y at *
    have hfr : x.frac < 2 ^ 23 := Nat.mod_lt _ (by norm_num)
    have hfrq : (x.frac : ℚ) ≤ 8388608 := by exact_mod_cast hfr.le
    have hX : x.toRat ≤ 2 ^ (-126 : Int) := by
      rw [pos_toRat hs]
      simp only [sig, qexp, he, if_true]
      have : (x.frac : ℚ) * 2 ^ (-149 : Int) ≤ 8388608 * 2 ^ (-149 : Int) :=
        mul_le_mul_of_nonneg_right hfrq (by positivity)
      exact le_trans this (by norm_num)
    refine ⟨yf, y0, le_trans yu (by norm_num), ?_⟩
    have hy2 : y.toRat ^ 2 ≤ (12016095 * 2 ^ (40 : Int)) ^ 2 := pow_le_pow_left₀ y0.le yu 2
    have h3 : x.toRat * y.toRat ^ 2 ≤ 2 ^ (-126 : Int) * (12016095 * 2 ^ (40 : Int)) ^ 2 :=
      mul_le_mul hX hy2 (sq_nonneg _) (by positivity)
    exact le_trans h3 (by norm_num)
  · have h1 : 1 ≤ x.expo := by omega
    have h2 : x.expo ≤ 254 := by
      simp only [isFinite, bne_iff_ne, ne_eq] at hf
      have : x.expo < 256 := Nat.mod_lt _ (by norm_num)
      omega
    have hv : x.toRat = ((2 ^ 23 + x.frac : Nat) : ℚ) * 2 ^ ((x.expo : Int) - 150) := by
      rw [pos_toRat hs]
      simp only [sig, qexp]
      rw [if_neg he, if_neg he]
    obtain ⟨yf, y0, _, yu⟩ := seed_bounds x hs h1 h2 hv
    obtain ⟨plo, _⟩ := pos_val h1 hs
    generalize (longToFloat (0x5f3759df - floatToLong x / 2)) = y at *
    have hXlo : (2 : ℚ) ^ (-126 : Int) ≤ x.toRat := by
      refine le_trans ?_ plo
      apply zpow_le_zpow_right₀ (by norm_num)
      omega
    refine ⟨yf, y0, ?_, le_trans yu (by norm_num)⟩
    by_contra hc
    push_neg at hc
    have hy2 : ((2 : ℚ) ^ (64 : Int)) ^ 2 ≤ y.toRat ^ 2 := pow_le_pow_left₀ (by positivity) hc.le 2
    have h3 : (2 : ℚ) ^ (-126 : Int) * ((2 : ℚ) ^ (64 : Int)) ^ 2 ≤ x.toRat * y.toRat ^ 2 :=
      mul_le_mul hXlo hy2 (by positivity) hX0
    have h4 : (2 : ℚ) ^ (-126 : Int) * ((2 : ℚ) ^ (64 : Int)) ^ 2 = 4 := by norm_num
    rw [h4] at h3
    linarith

theorem inf_sign (s : Bool) : (F32.inf s).sign = s := by
  cases s <;> decide

/-- Rounding keeps the sign. -/
theorem round_sign_all (s : Bool) (m : Nat) (e : Int) : (F32.round s m e).sign = s := by
  unfold F32.round
  by_cases hm : m = 0
  · rw [if_pos hm]; exact zero_sign s
  · rw [if_neg hm]
    simp only []
    generalize ((max (e + ((bitLen m : Nat) : Int) - 24) (-149) + 149).toNat * 2 ^ 23
      + (if max (e + ((bitLen m : Nat) : Int) - 24) (-149) ≤ e
          then m * 2 ^ (e - max (e + ((bitLen m : Nat) : Int) - 24) (-149)).toNat
          else rne m (max (e + ((bitLen m : Nat) : Int) - 24) (-149) - e).toNat)) = mag
    by_cases hi : 2139095040 ≤ mag
    · rw [if_pos hi]; exact inf_sign s
    · rw [if_neg hi]
      cases s
      · simp only [sign, Bool.false_eq_true, if_false, beq_eq_false_iff_ne, ne_eq]
        omega
      · simp only [sign, if_true, beq_iff_eq]
        omega

/-- The product of two finite values that are not negative. -/
theorem mul_pp (a b : F32) (ha : a.isFinite = true) (hb : b.isFinite = true)
    (sa : a.sign = false) (sb : b.sign = false)
    (hv : a.toRat * b.toRat < 2 ^ (127 : Int)) :
    (a * b).isFinite = true ∧ (a * b).sign = false ∧
    (1 - 1 / 10000000) * (a.toRat * b.toRat) - eta ≤ (a * b).toRat ∧
    (a * b).toRat ≤ (1 + 1 / 10000000) * (a.toRat * b.toRat) + eta := by
  have pa := toRat_nonneg_of_sign a sa
  have pb := toRat_nonneg_of_sign b sb
  have hp : 0 ≤ a.toRat * b.toRat := mul_nonneg pa pb
  have habs : |a.toRat * b.toRat| = a.toRat * b.toRat := abs_of_nonneg hp
  obtain ⟨m1, m2, _⟩ := mul_val a b ha hb (by rw [habs]; exact hv)
  rw [habs] at m2
  have hs : (a * b).sign = false := by
    rw [mul_eq_round a b ha hb, round_sign_all, sa, sb]; rfl
  exact ⟨m1, hs, err_bounds hp m2⟩

/-- The sum of two finite values that are not negative. -/
theorem add_pp (a b : F32) (ha : a.isFinite = true) (hb : b.isFinite = true)
    (sa : a.sign = false) (sb : b.sign = false)
    (hv : a.toRat + b.toRat < 2 ^ (127 : Int)) :
    (a + b).isFinite = true ∧ (a + b).sign = false ∧
    (1 - 1 / 10000000) * (a.toRat + b.toRat) - eta ≤ (a + b).toRat ∧
    (a + b).toRat ≤ (1 + 1 / 10000000) * (a.toRat + b.toRat) + eta := by
  have pa := toRat_nonneg_of_sign a sa
  have pb := toRat_nonneg_of_sign b sb
  obtain ⟨m1, _, m3⟩ := add_nonneg_val a b ha hb pa pb hv
  refine ⟨m1, ?_, err_bounds (add_nonneg pa pb) m3⟩
  rw [add_eq_round a b ha hb, ssig_pos a sa, ssig_pos b sb, sa, sb]
  split
  · rfl
  · rw [round_sign_all]
    simp only [decide_eq_false_iff_not, not_lt]
    positivity

/-- The Newton step of `invSqrt` from a seed `Y` with `0 < Y ≤ 2^64` and
`X * Y^2 ≤ 2.06`: the three products stay small. -/
theorem newton_gen_arith (X Y h a1 a2 e : ℚ) (he : e ≤ 1 / 10 ^ 45)
    (hX0 : 0 ≤ X) (hX : X ≤ 2 ^ 128) (hY0 : 0 < Y) (hY : Y ≤ 2 ^ 64)
    (hP : X * Y ^ 2 ≤ 206 / 100) :
    (h ≤ (1 + 1 / 10000000) * (1 / 2 * X) + e → h * Y ≤ 2 ^ 66) ∧
    (h ≤ (1 + 1 / 10000000) * (1 / 2 * X) + e → 0 ≤ a1 →
      a1 ≤ (1 + 1 / 10000000) * (h * Y) + e → a1 * Y ≤ 1031 / 1000) ∧
    (h ≤ (1 + 1 / 10000000) * (1 / 2 * X) + e → 0 ≤ a1 →
      a1 ≤ (1 + 1 / 10000000) * (h * Y) + e →
      a2 ≤ (1 + 1 / 10000000) * (a1 * Y) + e → a2 ≤ 1032 / 1000) := by
  have hXY : X * Y ≤ 2 ^ 65 := by
    by_contra hc
    push_neg at hc
    have h1 : ((2 : ℚ) ^ 65) ^ 2 < (X * Y) ^ 2 := pow_lt_pow_left₀ hc (by positivity) (by norm_num)
    have h2 : (X * Y) ^ 2 = X * (X * Y ^ 2) := by ring
    have h3 : X * (X * Y ^ 2) ≤ 2 ^ 128 * (206 / 100) :=
      mul_le_mul hX hP (mul_nonneg hX0 (sq_nonneg _)) (by positivity)
    rw [h2] at h1
    have h4 : (2 : ℚ) ^ 128 * (206 / 100) < (2 ^ 65) ^ 2 := by norm_num
    linarith
  have heY : e * Y ≤ 1 / 10 ^ 45 * 2 ^ 64 := mul_le_mul he hY hY0.le (by positivity)
  have hY2 : Y ^ 2 ≤ (2 ^ 64) ^ 2 := pow_le_pow_left₀ hY0.le hY 2
  have heY2 : e * Y ^ 2 ≤ 1 / 10 ^ 45 * (2 ^ 64) ^ 2 :=
    mul_le_mul he hY2 (sq_nonneg _) (by positivity)
  have n1 : (1 : ℚ) / 10 ^ 45 * 2 ^ 64 ≤ 1 / 10 ^ 20 := by norm_num
  have n2 : (1 : ℚ) / 10 ^ 45 * (2 ^ 64) ^ 2 ≤ 4 / 10 ^ 7 := by norm_num
  have n3 : (2 : ℚ) ^ 65 = 36893488147419103232 := by norm_num
  have n4 : (2 : ℚ) ^ 66 = 73786976294838206464 := by norm_num
  rw [n3] at hXY
  rw [n4]
  have kA : h ≤ (1 + 1 / 10000000) * (1 / 2 * X) + e → h * Y
      ≤ (1 + 1 / 10000000) * (1 / 2 * (X * Y)) + e * Y := by
    intro hh
    have := mul_le_mul_of_nonneg_right hh hY0.le
    linarith
  have kA2 : h ≤ (1 + 1 / 10000000) * (1 / 2 * X) + e → h * Y ^ 2
      ≤ (1 + 1 / 10000000) * (1 / 2 * (X * Y ^ 2)) + e * Y ^ 2 := by
    intro hh
    have := mul_le_mul_of_nonneg_right hh (sq_nonneg Y)
    linarith
  have kB : h ≤ (1 + 1 / 10000000) * (1 / 2 * X) + e → 0 ≤ a1 →
      a1 ≤ (1 + 1 / 10000000) * (h * Y) + e → a1 * Y ≤ 1031 / 1000 := by
    intro hh _ h1
    have t1 := mul_le_mul_of_nonneg_right h1 hY0.le
    have t2 := kA2 hh
    have t3 : ((1 + 1 / 10000000) * (h * Y) + e) * Y
        = (1 + 1 / 10000000) * (h * Y ^ 2) + e * Y := by ring
    rw [t3] at t1
    linarith
  refine ⟨fun hh => ?_, kB, fun hh h0 h1 h2 => ?_⟩
  · have := kA hh
    linarith
  · have := kB hh h0 h1
    linarith

/-- The function `invSqrt` on every finite argument that is not negative: the
result is finite, not negative, and at most `1.502` times a seed `Y` with
`0 < Y ≤ 2^64` and `x * Y^2 ≤ 2.06`. -/
theorem invSqrt_gen (x : F32) (hf : x.isFinite = true) (hs : x.sign = false) :
    (invSqrt x).isFinite = true ∧ (invSqrt x).sign = false ∧
    ∃ Y : ℚ, 0 < Y ∧ Y ≤ 2 ^ 64 ∧ x.toRat * Y ^ 2 ≤ 206 / 100 ∧
      (invSqrt x).toRat ≤ 1502 / 1000 * Y + eta := by
  obtain ⟨yf, y0, yu, yP⟩ := seed_gen x hf hs
  rw [invSqrt_eq]
  generalize longToFloat (0x5f3759df - floatToLong x / 2) = y at *
  have ys : y.sign = false := sign_of_pos y y0
  have hX0 := toRat_nonneg_of_sign x hs
  have hXu : x.toRat ≤ 2 ^ 128 := by
    have := finite_abs_lt x hf
    rw [abs_of_nonneg hX0] at this
    exact le_trans this.le (by norm_num)
  have yu' : y.toRat ≤ 2 ^ 64 := le_trans yu (by norm_num)
  have he := eta_le
  have he0 := eta_pos
  have hhalf : f0_5.isFinite = true := by decide
  have shalf : f0_5.sign = false := by decide
  obtain ⟨k1, k2, k3⟩ := newton_gen_arith x.toRat y.toRat (f0_5 * x).toRat
    (f0_5 * x * y).toRat (f0_5 * x * y * y).toRat eta he hX0 hXu y0 yu' yP
  -- halfx
  obtain ⟨h1, h2, _, h4⟩ := mul_pp f0_5 x hhalf hf shalf hs (by
    rw [toRat_f0_5]
    have : (2 : ℚ) ^ (127 : Int) = 1 / 2 * 2 ^ 128 := by norm_num
    have h3 := finite_abs_lt x hf
    rw [abs_of_nonneg hX0] at h3
    have : (2 : ℚ) ^ (128 : Int) = 2 * 2 ^ (127 : Int) := by norm_num
    linarith)
  rw [toRat_f0_5] at h4
  -- halfx * y
  have b1 := k1 h4
  obtain ⟨a1f, a1s, _, a14⟩ := mul_pp (f0_5 * x) y h1 yf h2 ys
    (lt_of_le_of_lt b1 (by norm_num))
  have a10 := toRat_nonneg_of_sign _ a1s
  have b2 := k2 h4 a10 a14
  obtain ⟨a2f, a2s, _, a24⟩ := mul_pp (f0_5 * x * y) y a1f yf a1s ys
    (lt_of_le_of_lt b2 (by norm_num))
  have a20 := toRat_nonneg_of_sign _ a2s
  have b3 := k3 h4 a10 a14 a24
  -- 1.5 - ...
  have t15 : f1_5.toRat = 3 / 2 := toRat_f1_5
  have d0 : (468 : ℚ) / 1000 ≤ f1_5.toRat - (f0_5 * x * y * y).toRat := by rw [t15]; linarith
  have d1 : f1_5.toRat - (f0_5 * x * y * y).toRat ≤ 3 / 2 := by rw [t15]; linarith
  obtain ⟨a3f, a3l, a3u⟩ := sub_pos_val f1_5 (f0_5 * x * y * y) (by decide) a2f
    (le_trans (by norm_num) d0) (le_trans d1 (by norm_num))
  have a3pos : 0 < (f1_5 - f0_5 * x * y * y).toRat := by
    refine lt_of_lt_of_le ?_ a3l
    exact mul_pos (by norm_num) (lt_of_lt_of_le (by norm_num) d0)
  have a3s := sign_of_pos _ a3pos
  have a3hi : (f1_5 - f0_5 * x * y * y).toRat ≤ 15000002 / 10000000 := by
    refine le_trans a3u ?_
    have := mul_le_mul_of_nonneg_left d1 (by norm_num : (0 : ℚ) ≤ 1 + 1 / 10000000)
    linarith
  -- y * (...)
  have pr : y.toRat * (f1_5 - f0_5 * x * y * y).toRat ≤ 2 ^ 64 * (15000002 / 10000000) :=
    mul_le_mul yu' a3hi a3pos.le (by positivity)
  obtain ⟨rf, rs, _, r4⟩ := mul_pp y (f1_5 - f0_5 * x * y * y) yf a3f ys a3s
    (lt_of_le_of_lt pr (by norm_num))
  refine ⟨rf, rs, y.toRat, y0, yu', yP, le_trans r4 ?_⟩
  have pr2 : y.toRat * (f1_5 - f0_5 * x * y * y).toRat ≤ y.toRat * (15000002 / 10000000) :=
    mul_le_mul_of_nonneg_left a3hi y0.le
  have pr3 := mul_le_mul_of_nonneg_left pr2 (by norm_num : (0 : ℚ) ≤ 1 + 1 / 10000000)
  linarith

/-- The normalisation of the accelerometer reading `(0, 0, k)` for every
`0 < k ≤ 2^63`. -/
theorem accel_vertical_gen (k : F32) (h1 : 0 < k.toRat) (h2 : k.toRat ≤ 2 ^ 63) :
    f0 * accRecipNorm f0 f0 k = f0 ∧ (k * accRecipNorm f0 f0 k).isFinite = true ∧
    (k * accRecipNorm f0 f0 k).sign = false := by
  have hkf : k.isFinite = true := by
    apply finite_of_abs_lt
    rw [abs_of_pos h1]
    exact lt_of_le_of_lt h2 (by norm_num)
  have hks : k.sign = false := sign_of_pos k h1
  have hsq : k.toRat * k.toRat ≤ 2 ^ 63 * 2 ^ 63 := mul_le_mul h2 h2 h1.le (by positivity)
  obtain ⟨s1, s2, s3, s4⟩ := mul_pp k k hkf hkf hks hks (lt_of_le_of_lt hsq (by norm_num))
  have e0 : f0 * f0 + f0 * f0 = f0 := by decide
  have t0 : f0.toRat = 0 := toRat_zero false
  have he := eta_le
  have he0 := eta_pos
  have hkk0 := toRat_nonneg_of_sign _ s2
  have hkku : (k * k).toRat ≤ 2 ^ 126 + 2 ^ 103 := by
    have : (1 + 1 / 10000000 : ℚ) * (2 ^ 63 * 2 ^ 63) + 1 / 10 ^ 45 ≤ 2 ^ 126 + 2 ^ 103 := by
      norm_num
    have := mul_le_mul_of_nonneg_left hsq (by norm_num : (0 : ℚ) ≤ 1 + 1 / 10000000)
    linarith
  obtain ⟨x1, x2, x3, _⟩ := add_pp f0 (k * k) (by decide) s1 (by decide) s2
    (by rw [t0, zero_add]; exact lt_of_le_of_lt hkku (by norm_num))
  rw [t0, zero_add] at x3
  have hx : accRecipNorm f0 f0 k = invSqrt (f0 + k * k) := by
    unfold accRecipNorm; rw [e0]
  obtain ⟨rf, rs, Y, Y0, Yu, YP, hR⟩ := invSqrt_gen (f0 + k * k) x1 x2
  rw [hx]
  generalize invSqrt (f0 + k * k) = r at *
  generalize (f0 + k * k).toRat = X at *
  generalize (k * k).toRat = KK at *
  have hr0 := toRat_nonneg_of_sign r rs
  refine ⟨by rw [zero_mul_fin r rf, rs]; rfl, ?_⟩
  have q1 : (1 - 1 / 10000000) ^ 2 * (k.toRat * k.toRat) ≤ X + 2 * eta := by
    have := mul_le_mul_of_nonneg_left s3 (by norm_num : (0 : ℚ) ≤ 1 - 1 / 10000000)
    nlinarith
  have hY2 : Y ^ 2 ≤ (2 ^ 64) ^ 2 := pow_le_pow_left₀ Y0.le Yu 2
  have heY2 : eta * Y ^ 2 ≤ 1 / 10 ^ 45 * (2 ^ 64) ^ 2 :=
    mul_le_mul he hY2 (sq_nonneg _) (by positivity)
  have n2 : (1 : ℚ) / 10 ^ 45 * (2 ^ 64) ^ 2 ≤ 4 / 10 ^ 7 := by norm_num
  have q2 := mul_le_mul_of_nonneg_right q1 (sq_nonneg Y)
  have q3 : (k.toRat * Y) ^ 2 ≤ 207 / 100 := by
    have e1 : (1 - 1 / 10000000) ^ 2 * (k.toRat * k.toRat) * Y ^ 2
        = (1 - 1 / 10000000 : ℚ) ^ 2 * (k.toRat * Y) ^ 2 := by ring
    have e2 : (X + 2 * eta) * Y ^ 2 = X * Y ^ 2 + 2 * (eta * Y ^ 2) := by ring
    rw [e1, e2] at q2
    have e3 : (1 - 1 / 10000000 : ℚ) ^ 2 = 99999980000001 / 100000000000000 := by norm_num
    rw [e3] at q2
    linarith
  have q4 : k.toRat * Y ≤ 3 / 2 := by
    by_contra hc
    push_neg at hc
    have : ((3 : ℚ) / 2) ^ 2 < (k.toRat * Y) ^ 2 := pow_lt_pow_left₀ hc (by norm_num) (by norm_num)
    norm_num at this
    linarith
  have q5 : k.toRat * eta ≤ 2 ^ 63 * (1 / 10 ^ 45) := mul_le_mul h2 he he0.le (by positivity)
  have q6 : k.toRat * r.toRat ≤ k.toRat * (1502 / 1000 * Y + eta) :=
    mul_le_mul_of_nonneg_left hR h1.le
  have q7 : k.toRat * r.toRat ≤ 3 := by
    have e4 : k.toRat * (1502 / 1000 * Y + eta) = 1502 / 1000 * (k.toRat * Y) + k.toRat * eta := by
      ring
    rw [e4] at q6
    have n5 : (2 : ℚ) ^ 63 * (1 / 10 ^ 45) ≤ 1 / 10 := by norm_num
    linarith
  obtain ⟨m1, m2, _⟩ := mul_pp k r hkf rf hks rs (lt_of_le_of_lt q7 (by norm_num))
  exact ⟨m1, m2⟩

/-! ### Error propagation through one call -/

/-- A value in `[2^-126, 2^128)` is a positive normal number. -/
theorem pos_normal_struct (x : F32) (hlo : (2 : ℚ) ^ (-126 : Int) ≤ x.toRat)
    (hhi : x.toRat < 2 ^ (128 : Int)) :
    x.sign = false ∧ 1 ≤ x.expo ∧ x.expo ≤ 254 ∧
    x.toRat = ((2 ^ 23 + x.frac : Nat) : ℚ) * 2 ^ ((x.expo : Int) - 150) := by
  have hfr : x.frac < 2 ^ 23 := Nat.mod_lt _ (by norm_num)
  have hfrq : (x.frac : ℚ) < 8388608 := by exact_mod_cast hfr
  have hpos : 0 < x.toRat := lt_of_lt_of_le (by positivity) hlo
  have hsign : x.sign = false := sign_of_pos x hpos
  have hval : x.toRat = (x.sig : ℚ) * 2 ^ x.qexp := by
    rw [toRat_eq, hsign]; simp [sgn]
  have he0 : x.expo ≠ 0 := by
    intro h0
    rw [hval] at hlo
    simp only [sig, qexp, h0, if_true] at hlo
    have : (x.frac : ℚ) * 2 ^ (-149 : Int) < 8388608 * 2 ^ (-149 : Int) :=
      mul_lt_mul_of_pos_right hfrq (by positivity)
    have h3 : (8388608 : ℚ) * 2 ^ (-149 : Int) = 2 ^ (-126 : Int) := by norm_num
    rw [h3] at this
    exact absurd (lt_of_le_of_lt hlo this) (lt_irrefl _)
  have hval2 : x.toRat = ((2 ^ 23 + x.frac : Nat) : ℚ) * 2 ^ ((x.expo : Int) - 150) := by
    rw [hval]; simp only [sig, qexp, he0, if_false]
  have hfin : x.isFinite = true :=
    finite_of_abs_lt x (by rw [abs_of_pos hpos]; exact hhi)
  have hE : x.expo < 256 := Nat.mod_lt _ (by norm_num)
  simp only [isFinite, bne_iff_ne, ne_eq] at hfin
  exact ⟨hsign, by omega, by omega, hval2⟩

/-- A positive value whose square is at least `L^2` is at least `L`. -/
theorem le_of_sq_le {a L : ℚ} (ha : 0 < a) (h : L ^ 2 ≤ a ^ 2) : L ≤ a := by
  by_contra hc
  push_neg at hc
  have := pow_lt_pow_left₀ hc ha.le (by norm_num : (2 : ℕ) ≠ 0)
  linarith

/-- A positive value whose square is at most `U^2` is at most `U`. -/
theorem le_of_sq_ge {a U : ℚ} (hU : 0 ≤ U) (h : a ^ 2 ≤ U ^ 2) : a ≤ U := by
  by_contra hc
  push_neg at hc
  have := pow_lt_pow_left₀ hc hU (by norm_num : (2 : ℕ) ≠ 0)
  linarith

/-- Sizes of the seed `Y` and of `X Y` from the bounds on `X Y^2`, for `X` in
`[10^-25, 10^25]`. -/
theorem seed_size_wide (X Y : ℚ) (hX1 : (1 : ℚ) / 10 ^ 25 ≤ X) (hX2 : X ≤ 10 ^ 25) (hY : 0 < Y)
    (hT1 : (93 : ℚ) / 100 ≤ X * Y ^ 2) (hT2 : X * Y ^ 2 ≤ 107 / 100) :
    (1 / 10 ^ 13 ≤ Y ∧ Y ≤ 10 ^ 13) ∧ (1 / 10 ^ 13 ≤ X * Y ∧ X * Y ≤ 10 ^ 13) := by
  have hX0 : 0 < X := lt_of_lt_of_le (by norm_num) hX1
  have y2 : 0 ≤ Y ^ 2 := sq_nonneg Y
  refine ⟨⟨le_of_sq_le hY ?_, le_of_sq_ge (by norm_num) ?_⟩,
    ⟨le_of_sq_le (mul_pos hX0 hY) ?_, le_of_sq_ge (by norm_num) ?_⟩⟩
  · -- Y^2 ≥ 0.93 / X ≥ 0.93e-25
    have : X * Y ^ 2 ≤ 10 ^ 25 * Y ^ 2 := mul_le_mul_of_nonneg_right hX2 y2
    norm_num
    norm_num at this
    linarith
  · have : 1 / 10 ^ 25 * Y ^ 2 ≤ X * Y ^ 2 := mul_le_mul_of_nonneg_right hX1 y2
    norm_num
    norm_num at this
    linarith
  · have e : (X * Y) ^ 2 = X * (X * Y ^ 2) := by ring
    have : 1 / 10 ^ 25 * (93 / 100) ≤ X * (X * Y ^ 2) :=
      mul_le_mul hX1 hT1 (by norm_num) hX0.le
    rw [e]
    norm_num
    norm_num at this
    linarith
  · have e : (X * Y) ^ 2 = X * (X * Y ^ 2) := by ring
    have : X * (X * Y ^ 2) ≤ 10 ^ 25 * (107 / 100) :=
      mul_le_mul hX2 hT2 (by positivity) (by norm_num)
    rw [e]
    norm_num
    norm_num at this
    linarith

/-- Accuracy of `invSqrt` on `[10^-25, 10^25]`, in squared form: the result `y` is
finite and positive and `0.9962 < y^2 * x < 1.000002`. -/
theorem invSqrt_wide (x : F32) (hlo : (1 : ℚ) / 10 ^ 25 ≤ x.toRat) (hhi : x.toRat ≤ 10 ^ 25) :
    (invSqrt x).isFinite = true ∧ 0 < (invSqrt x).toRat ∧
    (9962 : ℚ) / 10000 < (invSqrt x).toRat ^ 2 * x.toRat ∧
    (invSqrt x).toRat ^ 2 * x.toRat < 1000002 / 1000000 := by
  obtain ⟨hs, hE1, hE2, hv⟩ := pos_normal_struct x (le_trans (by norm_num) hlo)
    (lt_of_le_of_lt hhi (by norm_num))
  have hxf : x.isFinite = true := by
    simp only [isFinite, bne_iff_ne, ne_eq]; omega
  obtain ⟨yf, ypos, hT1, hT2⟩ := seed_bounds x hs hE1 hE2 hv
  rw [invSqrt_eq]
  generalize longToFloat (0x5f3759df - floatToLong x / 2) = y0 at *
  obtain ⟨⟨hY1, hY2⟩, hP1, hP2⟩ := seed_size_wide x.toRat y0.toRat hlo hhi ypos hT1 hT2
  have hX0 : 0 < x.toRat := lt_of_lt_of_le (by norm_num) hlo
  have hhalf : f0_5.isFinite = true := by decide
  have h15 : f1_5.isFinite = true := by decide
  -- halfx = 0.5f * x
  obtain ⟨k1, k2, k3⟩ := mul_pos_val f0_5 x hhalf hxf (by rw [toRat_f0_5]; norm_num) hX0
    (by rw [toRat_f0_5]; linarith) (by rw [toRat_f0_5]; linarith)
  rw [toRat_f0_5] at k2 k3
  generalize f0_5 * x = halfx at *
  have hh0 : 0 < halfx.toRat := by linarith
  -- halfx * y
  have b1 : (1 - 1 / 10000000) * (1 / 2 * (x.toRat * y0.toRat)) ≤ halfx.toRat * y0.toRat := by
    have := mul_le_mul_of_nonneg_right k2 ypos.le
    calc (1 - 1 / 10000000) * (1 / 2 * (x.toRat * y0.toRat))
        = (1 - 1 / 10000000) * (1 / 2 * x.toRat) * y0.toRat := by ring
      _ ≤ halfx.toRat * y0.toRat := this
  have b2 : halfx.toRat * y0.toRat ≤ (1 + 1 / 10000000) * (1 / 2 * (x.toRat * y0.toRat)) := by
    have := mul_le_mul_of_nonneg_right k3 ypos.le
    calc halfx.toRat * y0.toRat ≤ (1 + 1 / 10000000) * (1 / 2 * x.toRat) * y0.toRat := this
      _ = (1 + 1 / 10000000) * (1 / 2 * (x.toRat * y0.toRat)) := by ring
  obtain ⟨l1, l2, l3⟩ := mul_pos_val halfx y0 k1 yf hh0 ypos (by linarith) (by linarith)
  generalize halfx * y0 = p1 at *
  have hp0 : 0 < p1.toRat := by
    have : 0 < halfx.toRat * y0.toRat := mul_pos hh0 ypos
    linarith
  -- halfx * y * y
  have hp1l : (1 : ℚ) / 10 ^ 14 ≤ p1.toRat := by linarith
  have hp1u : p1.toRat ≤ 10 ^ 14 := by linarith
  obtain ⟨c1, c2⟩ := prod_bounds (by norm_num) (by norm_num) hp1l hp1u hY1 hY2
  obtain ⟨m1, m2, m3⟩ := mul_pos_val p1 y0 l1 yf hp0 ypos (by linarith) (by linarith)
  generalize p1 * y0 = p2 at *
  obtain ⟨_, _, n3, n4⟩ := newton_a2 x.toRat y0.toRat halfx.toRat p1.toRat p2.toRat
    (1 - 1 / 10000000) (1 + 1 / 10000000) rfl rfl hX0 ypos hT1 hT2 k2 k3 l2 l3 m2 m3
  -- 1.5f - halfx * y * y
  obtain ⟨s1, s2, s3⟩ := sub_pos_val f1_5 p2 h15 m1 (by rw [toRat_f1_5]; linarith)
    (by rw [toRat_f1_5]; linarith)
  rw [toRat_f1_5] at s2 s3
  generalize f1_5 - p2 = p3 at *
  have hq0 : 0 < p3.toRat := by linarith
  have hql : (9 : ℚ) / 10 ≤ p3.toRat := by linarith
  have hqu : p3.toRat ≤ 11 / 10 := by linarith
  -- y * (...)
  obtain ⟨d1, d2⟩ := prod_bounds (by norm_num) (by norm_num) hY1 hY2 hql hqu
  obtain ⟨r1, r2, r3⟩ := mul_pos_val y0 p3 yf s1 ypos hq0 (by linarith) (by linarith)
  obtain ⟨_, _, z1, z2, z3⟩ := newton_arith x.toRat y0.toRat halfx.toRat p1.toRat p2.toRat
    p3.toRat (y0 * p3).toRat (1 - 1 / 10000000) (1 + 1 / 10000000) rfl rfl hX0 ypos hT1 hT2
    k2 k3 l2 l3 m2 m3 s2 s3 r2 r3
  exact ⟨r1, z1, z2, z3⟩

theorem eta_small : eta ≤ 1 / 10 ^ 40 := le_trans eta_le (by norm_num)

theorem near_exact (x : F32) (h : x.isFinite = true) : Near x x.toRat 0 :=
  ⟨h, by simp⟩

theorem near_mono {x : F32} {v ε ε' : ℚ} (h : Near x v ε) (he : ε ≤ ε') : Near x v ε' :=
  ⟨h.1, le_trans h.2 he⟩

theorem near_abs {x : F32} {v ε A : ℚ} (h : Near x v ε) (hA : |v| ≤ A) : |x.toRat| ≤ A + ε := by
  have h1 : |x.toRat| ≤ |x.toRat - v| + |v| := by
    have := abs_add (x.toRat - v) v
    simpa using this
  linarith [h.2]

theorem near_nonneg {x : F32} {v ε : ℚ} (h : Near x v ε) : 0 ≤ ε :=
  le_trans (abs_nonneg _) h.2

theorem add_gen_bounds (a b : F32) (ha : a.isFinite = true) (hb : b.isFinite = true)
    (hv : |a.toRat + b.toRat| ≤ 10 ^ 30) :
    (a + b).isFinite = true ∧
    |(a + b).toRat - (a.toRat + b.toRat)| ≤ 1 / 10000000 * |a.toRat + b.toRat| + eta := by
  obtain ⟨h1, h2, _⟩ := add_val a b ha hb (lt_of_le_of_lt hv hi127)
  refine ⟨h1, le_trans h2 ?_⟩
  have hu : (2 : ℚ) ^ (-24 : Int) * |a.toRat + b.toRat| ≤ 1 / 10000000 * |a.toRat + b.toRat| :=
    mul_le_mul_of_nonneg_right u24_le (abs_nonneg _)
  change _ + eta ≤ _ + eta
  linarith

theorem sub_gen_bounds (a b : F32) (ha : a.isFinite = true) (hb : b.isFinite = true)
    (hv : |a.toRat - b.toRat| ≤ 10 ^ 30) :
    (a - b).isFinite = true ∧
    |(a - b).toRat - (a.toRat - b.toRat)| ≤ 1 / 10000000 * |a.toRat - b.toRat| + eta := by
  obtain ⟨h1, h2, _⟩ := sub_val a b ha hb (lt_of_le_of_lt hv hi127)
  refine ⟨h1, le_trans h2 ?_⟩
  have hu : (2 : ℚ) ^ (-24 : Int) * |a.toRat - b.toRat| ≤ 1 / 10000000 * |a.toRat - b.toRat| :=
    mul_le_mul_of_nonneg_right u24_le (abs_nonneg _)
  change _ + eta ≤ _ + eta
  linarith

/-- Error of a product. -/
theorem near_mul {a b : F32} {va vb ea eb A B : ℚ} (ha : Near a va ea) (hb : Near b vb eb)
    (hA : |va| ≤ A) (hB : |vb| ≤ B) (hsz : (A + ea) * (B + eb) ≤ 10 ^ 30) :
    Near (a * b) (va * vb)
      (ea * (B + eb) + A * eb + 1 / 10000000 * ((A + ea) * (B + eb)) + 1 / 10 ^ 40) := by
  have a0 := near_abs ha hA
  have b0 := near_abs hb hB
  have ea0 := near_nonneg ha
  have eb0 := near_nonneg hb
  have A0 : 0 ≤ A := le_trans (abs_nonneg _) hA
  have B0 : 0 ≤ B := le_trans (abs_nonneg _) hB
  have hp : |a.toRat * b.toRat| ≤ (A + ea) * (B + eb) := by
    rw [abs_mul]
    exact mul_le_mul a0 b0 (abs_nonneg _) (by linarith)
  obtain ⟨hf, he⟩ := mul_gen_bounds a b ha.1 hb.1 (le_trans hp hsz)
  refine ⟨hf, ?_⟩
  have h1 : |a.toRat * b.toRat - va * vb| ≤ ea * (B + eb) + A * eb := by
    have e1 : a.toRat * b.toRat - va * vb = (a.toRat - va) * b.toRat + va * (b.toRat - vb) := by
      ring
    rw [e1]
    refine le_trans (abs_add _ _) ?_
    rw [abs_mul, abs_mul]
    have t1 : |a.toRat - va| * |b.toRat| ≤ ea * (B + eb) :=
      mul_le_mul ha.2 b0 (abs_nonneg _) ea0
    have t2 : |va| * |b.toRat - vb| ≤ A * eb := mul_le_mul hA hb.2 (abs_nonneg _) A0
    linarith
  have h2 : |(a * b).toRat - va * vb|
      ≤ |(a * b).toRat - a.toRat * b.toRat| + |a.toRat * b.toRat - va * vb| := by
    have := abs_add ((a * b).toRat - a.toRat * b.toRat) (a.toRat * b.toRat - va * vb)
    simpa using this
  have h3 : (1 : ℚ) / 10000000 * |a.toRat * b.toRat| ≤ 1 / 10000000 * ((A + ea) * (B + eb)) :=
    mul_le_mul_of_nonneg_left hp (by norm_num)
  have := eta_small
  linarith

/-- Error of a sum. -/
theorem near_add {a b : F32} {va vb ea eb A B : ℚ} (ha : Near a va ea) (hb : Near b vb eb)
    (hA : |va| ≤ A) (hB : |vb| ≤ B) (hsz : A + ea + (B + eb) ≤ 10 ^ 30) :
    Near (a + b) (va + vb)
      (ea + eb + 1 / 10000000 * (A + ea + (B + eb)) + 1 / 10 ^ 40) := by
  have a0 := near_abs ha hA
  have b0 := near_abs hb hB
  have hp : |a.toRat + b.toRat| ≤ A + ea + (B + eb) :=
    le_trans (abs_add _ _) (by linarith)
  obtain ⟨hf, he⟩ := add_gen_bounds a b ha.1 hb.1 (le_trans hp hsz)
  refine ⟨hf, ?_⟩
  have h1 : |a.toRat + b.toRat - (va + vb)| ≤ ea + eb := by
    have e1 : a.toRat + b.toRat - (va + vb) = (a.toRat - va) + (b.toRat - vb) := by ring
    rw [e1]
    exact le_trans (abs_add _ _) (by linarith [ha.2, hb.2])
  have h2 : |(a + b).toRat - (va + vb)|
      ≤ |(a + b).toRat - (a.toRat + b.toRat)| + |a.toRat + b.toRat - (va + vb)| := by
    have := abs_add ((a + b).toRat - (a.toRat + b.toRat)) (a.toRat + b.toRat - (va + vb))
    simpa using this
  have h3 : (1 : ℚ) / 10000000 * |a.toRat + b.toRat| ≤ 1 / 10000000 * (A + ea + (B + eb)) :=
    mul_le_mul_of_nonneg_left hp (by norm_num)
  have := eta_small
  linarith

/-- Error of a difference. -/
theorem near_sub {a b : F32} {va vb ea eb A B : ℚ} (ha : Near a va ea) (hb : Near b vb eb)
    (hA : |va| ≤ A) (hB : |vb| ≤ B) (hsz : A + ea + (B + eb) ≤ 10 ^ 30) :
    Near (a - b) (va - vb)
      (ea + eb + 1 / 10000000 * (A + ea + (B + eb)) + 1 / 10 ^ 40) := by
  have a0 := near_abs ha hA
  have b0 := near_abs hb hB
  have hp : |a.toRat - b.toRat| ≤ A + ea + (B + eb) := by
    have := abs_sub a.toRat b.toRat
    linarith
  obtain ⟨hf, he⟩ := sub_gen_bounds a b ha.1 hb.1 (le_trans hp hsz)
  refine ⟨hf, ?_⟩
  have h1 : |a.toRat - b.toRat - (va - vb)| ≤ ea + eb := by
    have e1 : a.toRat - b.toRat - (va - vb) = (a.toRat - va) - (b.toRat - vb) := by ring
    rw [e1]
    have := abs_sub (a.toRat - va) (b.toRat - vb)
    linarith [ha.2, hb.2]
  have h2 : |(a - b).toRat - (va - vb)|
      ≤ |(a - b).toRat - (a.toRat - b.toRat)| + |a.toRat - b.toRat - (va - vb)| := by
    have := abs_add ((a - b).toRat - (a.toRat - b.toRat)) (a.toRat - b.toRat - (va - vb))
    simpa using this
  have h3 : (1 : ℚ) / 10000000 * |a.toRat - b.toRat| ≤ 1 / 10000000 * (A + ea + (B + eb)) :=
    mul_le_mul_of_nonneg_left hp (by norm_num)
  have := eta_small
  linarith

theorem eq_f0_false_of_ne (x : F32) (h : x.toRat ≠ 0) : F32.eq x f0 = false := by
  have hz : x.isZero = false := by
    by_contra hc
    have hc' : x.isZero = true := by simpa using hc
    exact h (toRat_isZero x hc')
  have hb : ¬ x.bits % 4294967296 = f0.bits % 4294967296 := by
    intro hb
    simp only [f0] at hb
    simp only [isZero, expo, frac, Bool.and_eq_false_imp, beq_iff_eq] at hz
    have h1 : x.bits / 2 ^ 23 % 256 = 0 := by omega
    have h2 := hz h1
    simp only [beq_eq_false_iff_ne, ne_eq] at h2
    omega
  simp [F32.eq, hz, hb]

/-- The square of a finite float. -/
theorem near_sq (a : F32) (ha : a.isFinite = true) (hv : a.toRat ^ 2 ≤ 10 ^ 30) :
    Near (a * a) (a.toRat ^ 2) (1 / 10000000 * a.toRat ^ 2 + 1 / 10 ^ 40) := by
  have h := near_mul (near_exact a ha) (near_exact a ha) (le_refl |a.toRat|) (le_refl |a.toRat|)
    (by rw [add_zero, abs_mul_abs_self, ← pow_two]; exact hv)
  rw [← pow_two] at h
  refine near_mono h (le_of_eq ?_)
  rw [add_zero, abs_mul_abs_self]
  ring

/-- The sum of the three squares of line 239 against the exact squared norm. -/
theorem sumsq3_near (ax ay az : F32) (hx : ax.isFinite = true) (hy : ay.isFinite = true)
    (hz : az.isFinite = true)
    (h2 : ax.toRat ^ 2 + ay.toRat ^ 2 + az.toRat ^ 2 ≤ 10 ^ 24) :
    Near (ax * ax + ay * ay + az * az) (ax.toRat ^ 2 + ay.toRat ^ 2 + az.toRat ^ 2)
      (32 / 100000000 * (ax.toRat ^ 2 + ay.toRat ^ 2 + az.toRat ^ 2) + 1 / 10 ^ 39) := by
  have px := sq_nonneg ax.toRat
  have py := sq_nonneg ay.toRat
  have pz := sq_nonneg az.toRat
  have nx := near_sq ax hx (by linarith)
  have ny := near_sq ay hy (by linarith)
  have nz := near_sq az hz (by linarith)
  have s1 := near_add nx ny (le_of_eq (abs_of_nonneg px)) (le_of_eq (abs_of_nonneg py))
    (by linarith)
  have s2 := near_add s1 nz (le_of_eq (abs_of_nonneg (add_nonneg px py)))
    (le_of_eq (abs_of_nonneg pz)) (by linarith)
  refine near_mono s2 ?_
  generalize ax.toRat ^ 2 = X at *
  generalize ay.toRat ^ 2 = Y at *
  generalize az.toRat ^ 2 = Z at *
  norm_num
  linarith

theorem abs_le_of_sq (x B : ℚ) (hB : 0 ≤ B) (h : x ^ 2 ≤ B ^ 2) : |x| ≤ B :=
  abs_le_of_sq_le_sq h hB

/-- The normalisation of the accelerometer reading (lines 239-242): the
reciprocal norm `r` is finite and positive with `0.99619 ≤ r² |a|² ≤ 1.0000024`,
each product is finite and within `1.1e-7` of `a_i r`, the latter is at most
`1.00001` in magnitude, and the validity gate of line 233 is open. -/
theorem accel_near (ax ay az : F32) (hx : ax.isFinite = true) (hy : ay.isFinite = true)
    (hz : az.isFinite = true)
    (h1 : 1 / 10 ^ 24 ≤ ax.toRat ^ 2 + ay.toRat ^ 2 + az.toRat ^ 2)
    (h2 : ax.toRat ^ 2 + ay.toRat ^ 2 + az.toRat ^ 2 ≤ 10 ^ 24) :
    (F32.eq ax f0 && F32.eq ay f0 && F32.eq az f0) = false ∧
    0 < (accRecipNorm ax ay az).toRat ∧
    99619 / 100000 ≤ (accRecipNorm ax ay az).toRat ^ 2
      * (ax.toRat ^ 2 + ay.toRat ^ 2 + az.toRat ^ 2) ∧
    (accRecipNorm ax ay az).toRat ^ 2 * (ax.toRat ^ 2 + ay.toRat ^ 2 + az.toRat ^ 2)
      ≤ 10000024 / 10000000 ∧
    (Near (ax * accRecipNorm ax ay az) (ax.toRat * (accRecipNorm ax ay az).toRat) (11 / 10 ^ 8) ∧
     Near (ay * accRecipNorm ax ay az) (ay.toRat * (accRecipNorm ax ay az).toRat) (11 / 10 ^ 8) ∧
     Near (az * accRecipNorm ax ay az) (az.toRat * (accRecipNorm ax ay az).toRat) (11 / 10 ^ 8)) ∧
    (|ax.toRat * (accRecipNorm ax ay az).toRat| ≤ 100001 / 100000 ∧
     |ay.toRat * (accRecipNorm ax ay az).toRat| ≤ 100001 / 100000 ∧
     |az.toRat * (accRecipNorm ax ay az).toRat| ≤ 100001 / 100000) := by
  have px := sq_nonneg ax.toRat
  have py := sq_nonneg ay.toRat
  have pz := sq_nonneg az.toRat
  obtain ⟨sf, se⟩ := sumsq3_near ax ay az hx hy hz h2
  rw [abs_le] at se
  obtain ⟨rf, r0, r1, r2⟩ := invSqrt_wide (ax * ax + ay * ay + az * az)
    (by linarith) (by linarith)
  have hgate : (F32.eq ax f0 && F32.eq ay f0 && F32.eq az f0) = false := by
    by_cases c1 : ax.toRat = 0
    · by_cases c2 : ay.toRat = 0
      · have c3 : az.toRat ≠ 0 := by
          intro c3
          rw [c1, c2, c3] at h1
          norm_num at h1
        simp [eq_f0_false_of_ne az c3]
      · simp [eq_f0_false_of_ne ay c2]
    · simp [eq_f0_false_of_ne ax c1]
  unfold accRecipNorm
  generalize invSqrt (ax * ax + ay * ay + az * az) = r at *
  generalize (ax * ax + ay * ay + az * az).toRat = S at *
  have hR2 : 0 ≤ r.toRat ^ 2 := sq_nonneg _
  have e1 : r.toRat ^ 2 * ((1 - 33 / 100000000) * (ax.toRat ^ 2 + ay.toRat ^ 2 + az.toRat ^ 2))
      ≤ r.toRat ^ 2 * S := mul_le_mul_of_nonneg_left (by linarith) hR2
  have e2 : r.toRat ^ 2 * S
      ≤ r.toRat ^ 2 * ((1 + 33 / 100000000) * (ax.toRat ^ 2 + ay.toRat ^ 2 + az.toRat ^ 2)) :=
    mul_le_mul_of_nonneg_left (by linarith) hR2
  have e3 : r.toRat ^ 2 * ((1 - 33 / 100000000) * (ax.toRat ^ 2 + ay.toRat ^ 2 + az.toRat ^ 2))
      = (1 - 33 / 100000000)
        * (r.toRat ^ 2 * (ax.toRat ^ 2 + ay.toRat ^ 2 + az.toRat ^ 2)) := by ring
  have e4 : r.toRat ^ 2 * ((1 + 33 / 100000000) * (ax.toRat ^ 2 + ay.toRat ^ 2 + az.toRat ^ 2))
      = (1 + 33 / 100000000)
        * (r.toRat ^ 2 * (ax.toRat ^ 2 + ay.toRat ^ 2 + az.toRat ^ 2)) := by ring
  rw [e3] at e1
  rw [e4] at e2
  have hP : r.toRat ^ 2 * (ax.toRat ^ 2 + ay.toRat ^ 2 + az.toRat ^ 2)
      = (ax.toRat * r.toRat) ^ 2 + (ay.toRat * r.toRat) ^ 2 + (az.toRat * r.toRat) ^ 2 := by ring
  have hU : r.toRat ^ 2 * (ax.toRat ^ 2 + ay.toRat ^ 2 + az.toRat ^ 2) ≤ 10000024 / 10000000 := by
    linarith
  have hL : 99619 / 100000 ≤ r.toRat ^ 2 * (ax.toRat ^ 2 + ay.toRat ^ 2 + az.toRat ^ 2) := by
    linarith
  have qx := sq_nonneg (ax.toRat * r.toRat)
  have qy := sq_nonneg (ay.toRat * r.toRat)
  have qz := sq_nonneg (az.toRat * r.toRat)
  have bx : |ax.toRat * r.toRat| ≤ 100001 / 100000 :=
    abs_le_of_sq _ _ (by norm_num) (by rw [hP] at hU; linarith)
  have by' : |ay.toRat * r.toRat| ≤ 100001 / 100000 :=
    abs_le_of_sq _ _ (by norm_num) (by rw [hP] at hU; linarith)
  have bz : |az.toRat * r.toRat| ≤ 100001 / 100000 :=
    abs_le_of_sq _ _ (by norm_num) (by rw [hP] at hU; linarith)
  have nr := near_exact r rf
  have mk : ∀ a : F32, a.isFinite = true → |a.toRat * r.toRat| ≤ 100001 / 100000 →
      Near (a * r) (a.toRat * r.toRat) (11 / 10 ^ 8) := by
    intro a ha hb
    have hb' : |a.toRat| * |r.toRat| ≤ 100001 / 100000 := by rw [← abs_mul]; exact hb
    have h := near_mul (near_exact a ha) nr (le_refl |a.toRat|) (le_refl |r.toRat|)
      (by rw [add_zero, add_zero]; exact le_trans hb' (by norm_num))
    refine near_mono h ?_
    rw [add_zero, add_zero]
    generalize |a.toRat| * |r.toRat| = P at *
    generalize |a.toRat| = A at *
    norm_num
    linarith
  exact ⟨hgate, r0, hL, hU, ⟨mk ax hx bx, mk ay hy by', mk az hz bz⟩, bx, by', bz⟩

/-- The cells of a stored quaternion of squared norm at most `1.004`. -/
theorem quat_cells (s : State) (hn : s.quat.normSq ≤ 1004 / 1000) :
    |s.q0.toRat| ≤ 1002 / 1000 ∧ |s.q1.toRat| ≤ 1002 / 1000 ∧
    |s.q2.toRat| ≤ 1002 / 1000 ∧ |s.q3.toRat| ≤ 1002 / 1000 := by
  simp only [QArr.normSq, State.quat] at hn
  have p0 := sq_nonneg s.q0.toRat
  have p1 := sq_nonneg s.q1.toRat
  have p2 := sq_nonneg s.q2.toRat
  have p3 := sq_nonneg s.q3.toRat
  refine ⟨abs_le_of_sq _ _ (by norm_num) ?_, abs_le_of_sq _ _ (by norm_num) ?_,
    abs_le_of_sq _ _ (by norm_num) ?_, abs_le_of_sq _ _ (by norm_num) ?_⟩ <;>
  · norm_num
    linarith

/-- The exact halved direction of gravity is at most `0.51` in each
coordinate. -/
theorem halfvExact_bound (s : State) (hn : s.quat.normSq ≤ 1004 / 1000) :
    |(halfvExact s).1| ≤ 51 / 100 ∧ |(halfvExact s).2.1| ≤ 51 / 100 ∧
    |(halfvExact s).2.2| ≤ 51 / 100 := by
  simp only [QArr.normSq, State.quat] at hn
  simp only [halfvExact]
  generalize s.q0.toRat = a at *
  generalize s.q1.toRat = b at *
  generalize s.q2.toRat = c at *
  generalize s.q3.toRat = d at *
  have p0 := sq_nonneg a
  have p1 := sq_nonneg b
  have p2 := sq_nonneg c
  have p3 := sq_nonneg d
  refine ⟨?_, ?_, ?_⟩ <;> rw [abs_le] <;> constructor
  · nlinarith [sq_nonneg (b + d), sq_nonneg (a - c)]
  · nlinarith [sq_nonneg (b - d), sq_nonneg (a + c)]
  · nlinarith [sq_nonneg (a + b), sq_nonneg (c + d)]
  · nlinarith [sq_nonneg (a - b), sq_nonneg (c - d)]
  · nlinarith
  · nlinarith

/-- The computed halved direction of gravity against the exact one. -/
theorem halfv_near (s : State) (hf : s.quat.finite = true) (hn : s.quat.normSq ≤ 1004 / 1000) :
    Near (s.q1 * s.q3 - s.q0 * s.q2) (halfvExact s).1 (7 / 10 ^ 7) ∧
    Near (s.q0 * s.q1 + s.q2 * s.q3) (halfvExact s).2.1 (7 / 10 ^ 7) ∧
    Near (s.q0 * s.q0 - f0_5 + s.q3 * s.q3) (halfvExact s).2.2 (7 / 10 ^ 7) := by
  obtain ⟨b0, b1, b2, b3⟩ := quat_cells s hn
  simp only [QArr.finite, State.quat, Bool.and_eq_true] at hf
  obtain ⟨⟨⟨f0', f1'⟩, f2'⟩, f3'⟩ := hf
  have n0 := near_exact s.q0 f0'
  have n1 := near_exact s.q1 f1'
  have n2 := near_exact s.q2 f2'
  have n3 := near_exact s.q3 f3'
  have hh : Near f0_5 (1 / 2) 0 := by
    have := near_exact f0_5 (by decide)
    rwa [toRat_f0_5] at this
  have bp : ∀ x y : ℚ, |x| ≤ 1002 / 1000 → |y| ≤ 1002 / 1000 → |x * y| ≤ 1004004 / 1000000 := by
    intro x y hx hy
    rw [abs_mul]
    calc |x| * |y| ≤ 1002 / 1000 * (1002 / 1000) :=
          mul_le_mul hx hy (abs_nonneg _) (by norm_num)
      _ = 1004004 / 1000000 := by norm_num
  have pr : ∀ (x y : F32), Near x x.toRat 0 → Near y y.toRat 0 → |x.toRat| ≤ 1002 / 1000 →
      |y.toRat| ≤ 1002 / 1000 → Near (x * y) (x.toRat * y.toRat) (101 / 10 ^ 9) := by
    intro x y hx hy bx by'
    exact near_mono (near_mul hx hy bx by' (by norm_num)) (by norm_num)
  simp only [halfvExact]
  refine ⟨?_, ?_, ?_⟩
  · exact near_mono (near_sub (pr _ _ n1 n3 b1 b3) (pr _ _ n0 n2 b0 b2) (bp _ _ b1 b3)
      (bp _ _ b0 b2) (by norm_num)) (by norm_num)
  · exact near_mono (near_add (pr _ _ n0 n1 b0 b1) (pr _ _ n2 n3 b2 b3) (bp _ _ b0 b1)
      (bp _ _ b2 b3) (by norm_num)) (by norm_num)
  · have h1 := near_mono (near_sub (pr _ _ n0 n0 b0 b0) hh (bp _ _ b0 b0)
      (le_of_eq (abs_of_nonneg (by norm_num : (0 : ℚ) ≤ 1 / 2))) (by norm_num))
      (show _ ≤ (26 : ℚ) / 10 ^ 8 by norm_num)
    have hb : |s.q0.toRat * s.q0.toRat - 1 / 2| ≤ 1504004 / 1000000 := by
      have := bp _ _ b0 b0
      have := abs_sub (s.q0.toRat * s.q0.toRat) (1 / 2)
      have h2 : |(1 : ℚ) / 2| = 1 / 2 := abs_of_nonneg (by norm_num)
      linarith
    exact near_mono (near_add h1 (pr _ _ n3 n3 b3 b3) hb (bp _ _ b3 b3) (by norm_num))
      (by norm_num)

/-- The computed halved error against the exact one, for a computed direction
within `2e-7` of `n`. -/
theorem halfe_near (s : State) (hf : s.quat.finite = true) (hn : s.quat.normSq ≤ 1004 / 1000)
    (nx ny nz : F32) (n : ℚ × ℚ × ℚ)
    (hx : Near nx n.1 (2 / 10 ^ 7)) (hy : Near ny n.2.1 (2 / 10 ^ 7))
    (hz : Near nz n.2.2 (2 / 10 ^ 7))
    (bx : |n.1| ≤ 100001 / 100000) (by' : |n.2.1| ≤ 100001 / 100000)
    (bz : |n.2.2| ≤ 100001 / 100000) :
    (Near (halfe s nx ny nz).1 (halfeExact s n).1 (2 / 10 ^ 6) ∧
     Near (halfe s nx ny nz).2.1 (halfeExact s n).2.1 (2 / 10 ^ 6) ∧
     Near (halfe s nx ny nz).2.2 (halfeExact s n).2.2 (2 / 10 ^ 6)) ∧
    |(halfeExact s n).1| ≤ 103 / 100 ∧ |(halfeExact s n).2.1| ≤ 103 / 100 ∧
    |(halfeExact s n).2.2| ≤ 103 / 100 := by
  obtain ⟨v1, v2, v3⟩ := halfv_near s hf hn
  obtain ⟨c1, c2, c3⟩ := halfvExact_bound s hn
  have bp : ∀ x y : ℚ, |x| ≤ 100001 / 100000 → |y| ≤ 51 / 100 → |x * y| ≤ 511 / 1000 := by
    intro x y hx hy
    rw [abs_mul]
    calc |x| * |y| ≤ 100001 / 100000 * (51 / 100) :=
          mul_le_mul hx hy (abs_nonneg _) (by norm_num)
      _ ≤ 511 / 1000 := by norm_num
  have pr : ∀ (x y : F32) (X Y : ℚ), Near x X (2 / 10 ^ 7) → Near y Y (7 / 10 ^ 7) →
      |X| ≤ 100001 / 100000 → |Y| ≤ 51 / 100 → Near (x * y) (X * Y) (9 / 10 ^ 7) := by
    intro x y X Y hx hy bx by'
    exact near_mono (near_mul hx hy bx by' (by norm_num)) (by norm_num)
  have cr : ∀ (x y z w : F32) (X Y Z W : ℚ), Near x X (2 / 10 ^ 7) → Near y Y (7 / 10 ^ 7) →
      Near z Z (2 / 10 ^ 7) → Near w W (7 / 10 ^ 7) →
      |X| ≤ 100001 / 100000 → |Y| ≤ 51 / 100 → |Z| ≤ 100001 / 100000 → |W| ≤ 51 / 100 →
      Near (x * y - z * w) (X * Y - Z * W) (2 / 10 ^ 6) ∧ |X * Y - Z * W| ≤ 103 / 100 := by
    intro x y z w X Y Z W hx hy hz hw bx by' bz bw
    refine ⟨near_mono (near_sub (pr _ _ _ _ hx hy bx by') (pr _ _ _ _ hz hw bz bw)
      (bp _ _ bx by') (bp _ _ bz bw) (by norm_num)) (by norm_num), ?_⟩
    have := abs_sub (X * Y) (Z * W)
    have := bp _ _ bx by'
    have := bp _ _ bz bw
    linarith
  simp only [halfe, halfeExact]
  obtain ⟨a1, a2⟩ := cr _ _ _ _ _ _ _ _ hy v3 hz v2 by' c3 bz c2
  obtain ⟨a3, a4⟩ := cr _ _ _ _ _ _ _ _ hz v1 hx v3 bz c1 bx c3
  obtain ⟨a5, a6⟩ := cr _ _ _ _ _ _ _ _ hx v2 hy v1 bx c2 by' c1
  exact ⟨⟨a1, a3, a5⟩, a2, a4, a6⟩

theorem twoKpDef_eq : twoKpDef = f1 := by decide

theorem twoKiDef_near : Near twoKiDef (1 / 10) (2 / 10 ^ 9) := by
  have hb : twoKiDef = ⟨0x3dcccccd⟩ := by decide
  have h := toRat_of twoKiDef 13421773 (-27) (by decide) (by decide)
  refine ⟨by decide, ?_⟩
  rw [h, abs_le]
  constructor <;> norm_num

theorem twoKiDef_gt : F32.gt twoKiDef f0 = true := by decide

/-- The proportional and integral feedback of lines 255-272 on one axis: for a
computed halved error within `2e-6` of `E`, an accumulator of magnitude at most
10, a gyro rate of at most 100 and a finite time difference `dt` of at most 1002
seconds, the new accumulator is within `3e-7 |dt| + 2e-6` of `I + E/10 * dt` and the
corrected rate within `4e-7 |dt| + 3e-5` of `g + (I + E/10 * dt) + E`. -/
theorem pi_near (I g he dt : F32) (E : ℚ) (hI : I.isFinite = true) (hg : g.isFinite = true)
    (hd : dt.isFinite = true) (hE : Near he E (2 / 10 ^ 6)) (bE : |E| ≤ 103 / 100)
    (bI : |I.toRat| ≤ 10) (bg : |g.toRat| ≤ 100) (bd : |dt.toRat| ≤ 1002) :
    Near (I + twoKiDef * he * dt) (I.toRat + E / 10 * dt.toRat)
      (3 / 10 ^ 7 * |dt.toRat| + 2 / 10 ^ 6) ∧
    Near (g + (I + twoKiDef * he * dt) + twoKpDef * he)
      (g.toRat + (I.toRat + E / 10 * dt.toRat) + E) (4 / 10 ^ 7 * |dt.toRat| + 3 / 10 ^ 5) ∧
    |I.toRat + E / 10 * dt.toRat| ≤ 10 + 103 / 1000 * |dt.toRat| ∧
    |g.toRat + (I.toRat + E / 10 * dt.toRat) + E| ≤ 112 + 103 / 1000 * |dt.toRat| := by
  have t0 := abs_nonneg dt.toRat
  have w := near_mono (near_mul twoKiDef_near hE
    (show |(1 : ℚ) / 10| ≤ 1 / 10 from le_of_eq (abs_of_nonneg (by norm_num))) bE (by norm_num))
    (show _ ≤ (22 : ℚ) / 10 ^ 8 by norm_num)
  have bw : |1 / 10 * E| ≤ 103 / 1000 := by
    rw [abs_mul, abs_of_nonneg (by norm_num : (0 : ℚ) ≤ 1 / 10)]
    linarith
  have d := near_mul w (near_exact dt hd) bw (le_refl |dt.toRat|)
    (by rw [add_zero]; nlinarith)
  have d' : Near (twoKiDef * he * dt) (E / 10 * dt.toRat) (25 / 10 ^ 8 * |dt.toRat| + 1 / 10 ^ 40) := by
    have e : E / 10 * dt.toRat = 1 / 10 * E * dt.toRat := by ring
    rw [e]
    refine near_mono d ?_
    rw [add_zero]
    generalize |dt.toRat| = T at *
    norm_num
    linarith
  have bd' : |E / 10 * dt.toRat| ≤ 103 / 1000 * |dt.toRat| := by
    have e : E / 10 * dt.toRat = 1 / 10 * E * dt.toRat := by ring
    rw [e, abs_mul]
    exact mul_le_mul_of_nonneg_right bw t0
  have i1 := near_add (near_exact I hI) d' bI bd' (by linarith)
  have i1' : Near (I + twoKiDef * he * dt) (I.toRat + E / 10 * dt.toRat)
      (3 / 10 ^ 7 * |dt.toRat| + 2 / 10 ^ 6) := by
    refine near_mono i1 ?_
    generalize |dt.toRat| = T at *
    norm_num
    linarith
  have bi : |I.toRat + E / 10 * dt.toRat| ≤ 10 + 103 / 1000 * |dt.toRat| :=
    le_trans (abs_add _ _) (by linarith)
  have g1 := near_add (near_exact g hg) i1' bg bi (by linarith)
  have bg1 : |g.toRat + (I.toRat + E / 10 * dt.toRat)| ≤ 110 + 103 / 1000 * |dt.toRat| :=
    le_trans (abs_add _ _) (by linarith)
  have hone : Near twoKpDef 1 0 := by
    have := near_exact twoKpDef (by decide)
    rwa [twoKpDef_eq, toRat_f1, ← twoKpDef_eq] at this
  have k := near_mono (near_mul hone hE
    (show |(1 : ℚ)| ≤ 1 from le_of_eq (abs_of_nonneg (by norm_num))) bE (by norm_num))
    (show _ ≤ (22 : ℚ) / 10 ^ 7 by norm_num)
  rw [one_mul] at k
  have g2 := near_add g1 k bg1 bE (by linarith)
  refine ⟨i1', near_mono g2 ?_, bi, ?_⟩
  · generalize |dt.toRat| = T at *
    norm_num
    linarith
  · exact le_trans (abs_add _ _) (by linarith)

/-- The conversion of an integer of magnitude at most `10^9`. -/
theorem near_ofInt (n : Int) (h : n.natAbs ≤ 10 ^ 9) :
    Near (F32.ofInt n) (n : ℚ) (1 / 10000000 * |(n : ℚ)| + 1 / 10 ^ 40) := by
  unfold F32.ofInt
  by_cases hm : n.natAbs = 0
  · have hn : n = 0 := Int.natAbs_eq_zero.mp hm
    rw [hm, round_zero]
    refine ⟨isFinite_zero _, ?_⟩
    rw [toRat_zero, hn]
    norm_num
  · have hq : (n.natAbs : ℚ) ≤ 10 ^ 9 := by exact_mod_cast h
    obtain ⟨hf, _, hb, _⟩ := round_val (decide (n < 0)) n.natAbs 0 hm
      (by rw [zpow_zero, mul_one]; exact lt_of_le_of_lt hq (by norm_num))
    refine ⟨hf, ?_⟩
    rw [zpow_zero, mul_one] at hb
    have hab : |(n : ℚ)| = (n.natAbs : ℚ) := by
      rw [← Int.cast_abs, Int.abs_eq_natAbs, Int.cast_natCast]
    have hs : sgn (decide (n < 0)) * (n.natAbs : ℚ) = (n : ℚ) := by
      by_cases hneg : n < 0
      · have : (n : ℚ) < 0 := by exact_mod_cast hneg
        rw [← hab, abs_of_neg this]
        simp [sgn, hneg]
      · have : (0 : ℚ) ≤ (n : ℚ) := by exact_mod_cast (not_lt.mp hneg)
        rw [← hab, abs_of_nonneg this]
        simp [sgn, hneg]
    rw [hs] at hb
    rw [hab]
    have hu : (2 : ℚ) ^ (-24 : Int) * (n.natAbs : ℚ) ≤ 1 / 10000000 * (n.natAbs : ℚ) :=
      mul_le_mul_of_nonneg_right u24_le (by positivity)
    have he : (2 : ℚ) ^ (-150 : Int) ≤ 1 / 10 ^ 40 := eta_small
    exact le_trans hb (add_le_add hu he)

theorem f1em6_near : Near f1em6 (1 / 1000000) (3 / 10 ^ 15) := by
  refine ⟨by decide, ?_⟩
  rw [toRat_f1em6, abs_le]
  constructor <;> norm_num

/-- The elapsed time of lines 235-236 against the exact number of seconds
between the two clock readings. -/
theorem timeDiff_near (l t : Timeval) (h1 : (t.tv_sec - l.tv_sec).natAbs ≤ 1000)
    (h2 : (t.tv_usec - l.tv_usec).natAbs ≤ 1000000) :
    Near (timeDiffOf l t) (secondsBetween l t)
      (21 / 10 ^ 8 * |secondsBetween l t| + 6 / 10 ^ 7) ∧
    |secondsBetween l t| ≤ 1001 := by
  have a := near_ofInt (t.tv_sec - l.tv_sec) (by omega)
  have b := near_ofInt (t.tv_usec - l.tv_usec) (by omega)
  have ha : |((t.tv_sec - l.tv_sec : Int) : ℚ)| ≤ 1000 := by
    rw [← Int.cast_abs, Int.abs_eq_natAbs]
    exact_mod_cast h1
  have hb : |((t.tv_usec - l.tv_usec : Int) : ℚ)| ≤ 1000000 := by
    rw [← Int.cast_abs, Int.abs_eq_natAbs]
    exact_mod_cast h2
  unfold timeDiffOf secondsBetween
  generalize F32.ofInt (t.tv_sec - l.tv_sec) = A at *
  generalize F32.ofInt (t.tv_usec - l.tv_usec) = B at *
  generalize ((t.tv_sec - l.tv_sec : Int) : ℚ) = S at *
  generalize ((t.tv_usec - l.tv_usec : Int) : ℚ) = U at *
  have b' : Near B U (1000001 / 10000000) := by
    refine near_mono b ?_
    norm_num
    linarith
  have p := near_mono (near_mul b' f1em6_near hb
    (le_of_eq (abs_of_nonneg (by norm_num : (0 : ℚ) ≤ 1 / 1000000))) (by norm_num))
    (show _ ≤ (21 : ℚ) / 10 ^ 8 by norm_num)
  have bp : |U * (1 / 1000000)| ≤ 1 := by
    rw [abs_mul, abs_of_nonneg (by norm_num : (0 : ℚ) ≤ 1 / 1000000)]
    linarith
  have d := near_add a p (le_refl |S|) bp (by linarith)
  have e : S + U / 1000000 = S + U * (1 / 1000000) := by ring
  rw [e]
  have hS : |S| ≤ |S + U * (1 / 1000000)| + 1 := by
    have h3 : |S| = |(S + U * (1 / 1000000)) - U * (1 / 1000000)| := by congr 1; ring
    rw [h3]
    exact le_trans (abs_sub _ _) (by linarith)
  refine ⟨near_mono d ?_, le_trans (abs_add _ _) (by linarith)⟩
  have v0 := abs_nonneg S
  generalize |S + U * (1 / 1000000)| = W at *
  generalize |S| = V at *
  linarith

/-- The feedback block of lines 233-273 against its exact reading: with `n` the
accelerometer as the code normalises it and `E` the exact halved error, the new
accumulator is near `I + E/10 * dt` and the corrected rate near
`g + (I + E/10 * dt) + E`, where `dt` is the value of the computed time
difference. -/
theorem feedback_near (s : State) (gx gy gz ax ay az : F32) (tv : Timeval)
    (hs : s.inRange) (hg : rateInRange gx gy gz) (ha : accelInRange ax ay az)
    (hd : (timeDiffOf s.last_tv tv).isFinite = true)
    (bd : |(timeDiffOf s.last_tv tv).toRat| ≤ 1002) :
    (feedback twoKpDef twoKiDef s gx gy gz ax ay az tv).timeDiff = timeDiffOf s.last_tv tv ∧
    (Near (feedback twoKpDef twoKiDef s gx gy gz ax ay az tv).integralFBx
      (s.integralFBx.toRat + (halfeExact s (accDir ax ay az)).1 / 10
        * (timeDiffOf s.last_tv tv).toRat)
      (3 / 10 ^ 7 * |(timeDiffOf s.last_tv tv).toRat| + 2 / 10 ^ 6) ∧
     Near (feedback twoKpDef twoKiDef s gx gy gz ax ay az tv).integralFBy
      (s.integralFBy.toRat + (halfeExact s (accDir ax ay az)).2.1 / 10
        * (timeDiffOf s.last_tv tv).toRat)
      (3 / 10 ^ 7 * |(timeDiffOf s.last_tv tv).toRat| + 2 / 10 ^ 6) ∧
     Near (feedback twoKpDef twoKiDef s gx gy gz ax ay az tv).integralFBz
      (s.integralFBz.toRat + (halfeExact s (accDir ax ay az)).2.2 / 10
        * (timeDiffOf s.last_tv tv).toRat)
      (3 / 10 ^ 7 * |(timeDiffOf s.last_tv tv).toRat| + 2 / 10 ^ 6)) ∧
    (Near (feedback twoKpDef twoKiDef s gx gy gz ax ay az tv).gx
      (gx.toRat + (s.integralFBx.toRat + (halfeExact s (accDir ax ay az)).1 / 10
        * (timeDiffOf s.last_tv tv).toRat) + (halfeExact s (accDir ax ay az)).1)
      (4 / 10 ^ 7 * |(timeDiffOf s.last_tv tv).toRat| + 3 / 10 ^ 5) ∧
     Near (feedback twoKpDef twoKiDef s gx gy gz ax ay az tv).gy
      (gy.toRat + (s.integralFBy.toRat + (halfeExact s (accDir ax ay az)).2.1 / 10
        * (timeDiffOf s.last_tv tv).toRat) + (halfeExact s (accDir ax ay az)).2.1)
      (4 / 10 ^ 7 * |(timeDiffOf s.last_tv tv).toRat| + 3 / 10 ^ 5) ∧
     Near (feedback twoKpDef twoKiDef s gx gy gz ax ay az tv).gz
      (gz.toRat + (s.integralFBz.toRat + (halfeExact s (accDir ax ay az)).2.2 / 10
        * (timeDiffOf s.last_tv tv).toRat) + (halfeExact s (accDir ax ay az)).2.2)
      (4 / 10 ^ 7 * |(timeDiffOf s.last_tv tv).toRat| + 3 / 10 ^ 5)) := by
  obtain ⟨hq, hn, ⟨fx, fy, fz⟩, bx, by', bz⟩ := hs
  obtain ⟨⟨gfx, gfy, gfz⟩, gbx, gby, gbz⟩ := hg
  obtain ⟨⟨afx, afy, afz⟩, h1, h2⟩ := ha
  have hn' : s.quat.normSq ≤ 1004 / 1000 := by
    rw [abs_le] at hn
    linarith
  obtain ⟨hgate, _, _, _, ⟨nx, ny, nz⟩, cx, cy, cz⟩ := accel_near ax ay az afx afy afz h1 h2
  have w : ∀ {x : F32} {v : ℚ}, Near x v (11 / 10 ^ 8) → Near x v (2 / 10 ^ 7) :=
    fun h => near_mono h (by norm_num)
  obtain ⟨⟨e1, e2, e3⟩, d1, d2, d3⟩ := halfe_near s hq hn' _ _ _ (accDir ax ay az)
    (w nx) (w ny) (w nz) cx cy cz
  rw [feedback_valid twoKpDef twoKiDef s gx gy gz ax ay az tv hgate twoKiDef_gt]
  obtain ⟨x1, x2, _, _⟩ := pi_near s.integralFBx gx _ _ _ fx gfx hd e1 d1 bx gbx bd
  obtain ⟨y1, y2, _, _⟩ := pi_near s.integralFBy gy _ _ _ fy gfy hd e2 d2 by' gby bd
  obtain ⟨z1, z2, _, _⟩ := pi_near s.integralFBz gz _ _ _ fz gfz hd e3 d3 bz gbz bd
  exact ⟨rfl, ⟨x1, y1, z1⟩, x2, y2, z2⟩

theorem abs_mul_le {x y X Y : ℝ} (hx : |x| ≤ X) (hy : |y| ≤ Y) : |x * y| ≤ X * Y := by
  rw [abs_mul]
  exact mul_le_mul hx hy (abs_nonneg _) (le_trans (abs_nonneg _) hx)

theorem factor_bounds (t : ℝ) (t0 : 0 < t) (hL : 99619 / 100000 ≤ t ^ 2)
    (hU : t ^ 2 ≤ 10000024 / 10000000) :
    99809 / 100000 ≤ t ∧ t ≤ 10000012 / 10000000 := by
  constructor
  · by_contra hc
    push_neg at hc
    have : t ^ 2 < (99809 / 100000) ^ 2 := pow_lt_pow_left₀ hc t0.le (by norm_num)
    norm_num at this
    linarith
  · by_contra hc
    push_neg at hc
    have : (10000012 / 10000000 : ℝ) ^ 2 < t ^ 2 := pow_lt_pow_left₀ hc (by norm_num) (by norm_num)
    norm_num at this
    linarith

theorem unit_cells (x y z : ℝ) (h : x ^ 2 + y ^ 2 + z ^ 2 = 1) :
    |x| ≤ 1 ∧ |y| ≤ 1 ∧ |z| ≤ 1 := by
  have px := sq_nonneg x
  have py := sq_nonneg y
  have pz := sq_nonneg z
  refine ⟨abs_le_of_sq_le_sq ?_ (by norm_num), abs_le_of_sq_le_sq ?_ (by norm_num),
    abs_le_of_sq_le_sq ?_ (by norm_num)⟩ <;>
  · rw [one_pow]
    linarith

theorem gravity_cells (q0 q1 q2 q3 B : ℝ) (h : q0 ^ 2 + q1 ^ 2 + q2 ^ 2 + q3 ^ 2 ≤ B) :
    |2 * (q1 * q3 - q0 * q2)| ≤ B ∧ |2 * (q0 * q1 + q2 * q3)| ≤ B ∧
    |q0 ^ 2 - q1 ^ 2 - q2 ^ 2 + q3 ^ 2| ≤ B := by
  have p0 := sq_nonneg q0
  have p1 := sq_nonneg q1
  have p2 := sq_nonneg q2
  have p3 := sq_nonneg q3
  refine ⟨?_, ?_, ?_⟩ <;> rw [abs_le] <;> constructor
  · nlinarith [sq_nonneg (q1 + q3), sq_nonneg (q0 - q2)]
  · nlinarith [sq_nonneg (q1 - q3), sq_nonneg (q0 + q2)]
  · nlinarith [sq_nonneg (q0 + q1), sq_nonneg (q2 + q3)]
  · nlinarith [sq_nonneg (q0 - q1), sq_nonneg (q2 - q3)]
  · linarith
  · linarith

/-- The exact halved error of the code against half the error of the claims:
they differ by at most `0.004` per coordinate when the reciprocal norm `R`
satisfies `0.99619 ≤ R² |a|² ≤ 1.0000024` and the squared norm of the quaternion
is within `0.004` of 1. -/
theorem halfe_vs_error (q0 q1 q2 q3 ax ay az R l : ℝ)
    (hn : |q0 ^ 2 + q1 ^ 2 + q2 ^ 2 + q3 ^ 2 - 1| ≤ 4 / 1000)
    (hl0 : 0 < l) (hl : l ^ 2 = ax ^ 2 + ay ^ 2 + az ^ 2) (hR : 0 < R)
    (hL : 99619 / 100000 ≤ R ^ 2 * (ax ^ 2 + ay ^ 2 + az ^ 2))
    (hU : R ^ 2 * (ax ^ 2 + ay ^ 2 + az ^ 2) ≤ 10000024 / 10000000) :
    (|(ay * R * (q0 * q0 - 1 / 2 + q3 * q3) - az * R * (q0 * q1 + q2 * q3))
        - 1 / 2 * (errorOf l ax ay az q0 q1 q2 q3).1| ≤ 4 / 1000 ∧
     |(az * R * (q1 * q3 - q0 * q2) - ax * R * (q0 * q0 - 1 / 2 + q3 * q3))
        - 1 / 2 * (errorOf l ax ay az q0 q1 q2 q3).2.1| ≤ 4 / 1000 ∧
     |(ax * R * (q0 * q1 + q2 * q3) - ay * R * (q1 * q3 - q0 * q2))
        - 1 / 2 * (errorOf l ax ay az q0 q1 q2 q3).2.2| ≤ 4 / 1000) ∧
    |(errorOf l ax ay az q0 q1 q2 q3).1| ≤ 2008 / 1000 ∧
    |(errorOf l ax ay az q0 q1 q2 q3).2.1| ≤ 2008 / 1000 ∧
    |(errorOf l ax ay az q0 q1 q2 q3).2.2| ≤ 2008 / 1000 := by
  have hl' : l ≠ 0 := ne_of_gt hl0
  have hu : (ax / l) ^ 2 + (ay / l) ^ 2 + (az / l) ^ 2 = 1 := by
    field_simp
    linarith
  obtain ⟨bux, buy, buz⟩ := unit_cells _ _ _ hu
  have t0 : 0 < R * l := mul_pos hR hl0
  have t2 : (R * l) ^ 2 = R ^ 2 * (ax ^ 2 + ay ^ 2 + az ^ 2) := by rw [← hl]; ring
  rw [← t2] at hL hU
  obtain ⟨tl, tu⟩ := factor_bounds _ t0 hL hU
  have hnu : q0 ^ 2 + q1 ^ 2 + q2 ^ 2 + q3 ^ 2 ≤ 1004 / 1000 := by
    rw [abs_le] at hn; linarith
  obtain ⟨bvx, bvy, bvz⟩ := gravity_cells q0 q1 q2 q3 _ hnu
  have eax : ax * R = R * l * (ax / l) := by field_simp; ring
  have eay : ay * R = R * l * (ay / l) := by field_simp; ring
  have eaz : az * R = R * l * (az / l) := by field_simp; ring
  rw [eax, eay, eaz]
  simp only [errorOf]
  generalize ax / l = ux at *
  generalize ay / l = uy at *
  generalize az / l = uz at *
  generalize R * l = t at *
  clear eax eay eaz hu t2 hL hU hl hl' hl0 hR
  have tb : |t - 1| ≤ 191 / 100000 := by
    rw [abs_le]; constructor <;> linarith
  have tb' : |t| ≤ 10000012 / 10000000 := by
    rw [abs_of_pos t0]; exact tu
  have h1 : q0 * q0 - 1 / 2 + q3 * q3 = 1 / 2 * ((q0 ^ 2 - q1 ^ 2 - q2 ^ 2 + q3 ^ 2)
      + (q0 ^ 2 + q1 ^ 2 + q2 ^ 2 + q3 ^ 2 - 1)) := by ring
  rw [h1]
  generalize q0 ^ 2 + q1 ^ 2 + q2 ^ 2 + q3 ^ 2 - 1 = d at *
  generalize q1 * q3 - q0 * q2 = hx at *
  generalize q0 * q1 + q2 * q3 = hy at *
  generalize q0 ^ 2 - q1 ^ 2 - q2 ^ 2 + q3 ^ 2 = vz at *
  clear h1 hnu
  have cr : ∀ a b v w : ℝ, |a| ≤ 1 → |b| ≤ 1 → |v| ≤ 1004 / 1000 → |w| ≤ 1004 / 1000 →
      |a * v - b * w| ≤ 2008 / 1000 := by
    intro a b v w ha hb hv hw
    have := abs_sub (a * v) (b * w)
    have := abs_mul_le ha hv
    have := abs_mul_le hb hw
    linarith
  have key : ∀ E u : ℝ, |E| ≤ 2008 / 1000 → |u| ≤ 1 →
      |1 / 2 * ((t - 1) * E) + 1 / 2 * (d * (t * u))| ≤ 4 / 1000 := by
    intro E u hE hu
    have a1 := abs_mul_le tb hE
    have a2 := abs_mul_le hn (abs_mul_le tb' hu)
    have a3 := abs_add (1 / 2 * ((t - 1) * E)) (1 / 2 * (d * (t * u)))
    rw [abs_mul, abs_mul (1 / 2) (d * (t * u)),
      abs_of_nonneg (by norm_num : (0 : ℝ) ≤ 1 / 2)] at a3
    linarith
  have c1 := cr uy uz vz (2 * hy) buy buz bvz bvy
  have c2 := cr uz ux (2 * hx) vz buz bux bvx bvz
  have c3 := cr ux uy (2 * hy) (2 * hx) bux buy bvy bvx
  refine ⟨⟨?_, ?_, ?_⟩, c1, c2, c3⟩
  · have e : t * uy * (1 / 2 * (vz + d)) - t * uz * hy - 1 / 2 * (uy * vz - uz * (2 * hy))
        = 1 / 2 * ((t - 1) * (uy * vz - uz * (2 * hy))) + 1 / 2 * (d * (t * uy)) := by ring
    rw [e]
    exact key _ _ c1 buy
  · have e : t * uz * hx - t * ux * (1 / 2 * (vz + d)) - 1 / 2 * (uz * (2 * hx) - ux * vz)
        = 1 / 2 * ((t - 1) * (uz * (2 * hx) - ux * vz)) + 1 / 2 * (d * (t * (-ux))) := by ring
    rw [e]
    exact key _ _ c2 (by rw [abs_neg]; exact bux)
  · have e : t * ux * hy - t * uy * hx - 1 / 2 * (ux * (2 * hy) - uy * (2 * hx))
        = 1 / 2 * ((t - 1) * (ux * (2 * hy) - uy * (2 * hx))) + 1 / 2 * (d * (t * 0)) := by ring
    rw [e]
    exact key _ _ c3 (by norm_num)

theorem near_real {x : F32} {v ε : ℚ} (h : Near x v ε) :
    |((x.toRat : ℚ) : ℝ) - ((v : ℚ) : ℝ)| ≤ ((ε : ℚ) : ℝ) := by
  have := h.2
  exact_mod_cast this

/-- From the exact reading of the code to the formula of the claims, for the
accumulator. -/
theorem acc_combine (x I E T e S : ℝ)
    (h1 : |x - (I + E / 10 * T)| ≤ 3 / 10 ^ 7 * |T| + 2 / 10 ^ 6)
    (h2 : |E - 1 / 2 * e| ≤ 4 / 1000) (h3 : |e| ≤ 2008 / 1000)
    (h4 : |T - S| ≤ 21 / 10 ^ 8 * |S| + 6 / 10 ^ 7) :
    |x - (I + 1 / 20 * e * S)| ≤ 41 / 10 ^ 5 * |S| + 3 / 10 ^ 6 := by
  have e1 : x - (I + 1 / 20 * e * S)
      = (x - (I + E / 10 * T)) + (1 / 10 * ((E - 1 / 2 * e) * T) + 1 / 20 * (e * (T - S))) := by
    ring
  have hT : |T| ≤ |S| + (21 / 10 ^ 8 * |S| + 6 / 10 ^ 7) := by
    have h5 : |T| = |(T - S) + S| := by congr 1; ring
    rw [h5]
    exact le_trans (abs_add _ _) (by linarith)
  have a1 := abs_mul_le h2 (le_refl |T|)
  have a2 := abs_mul_le h3 h4
  have a3 := abs_add (1 / 10 * ((E - 1 / 2 * e) * T)) (1 / 20 * (e * (T - S)))
  rw [abs_mul, abs_mul (1 / 20) (e * (T - S)), abs_of_nonneg (by norm_num : (0 : ℝ) ≤ 1 / 10),
    abs_of_nonneg (by norm_num : (0 : ℝ) ≤ 1 / 20)] at a3
  rw [e1]
  refine le_trans (abs_add _ _) ?_
  have s0 := abs_nonneg S
  generalize |S| = W at *
  generalize |T| = V at *
  linarith

/-- From the exact reading of the code to the formula of the claims, for the
corrected rate. -/
theorem rate_combine (x g I E T e S : ℝ)
    (h1 : |x - (g + (I + E / 10 * T) + E)| ≤ 4 / 10 ^ 7 * |T| + 3 / 10 ^ 5)
    (h2 : |E - 1 / 2 * e| ≤ 4 / 1000) (h3 : |e| ≤ 2008 / 1000)
    (h4 : |T - S| ≤ 21 / 10 ^ 8 * |S| + 6 / 10 ^ 7) :
    |x - (g + (I + 1 / 20 * e * S) + 1 / 2 * e)| ≤ 41 / 10 ^ 5 * |S| + 41 / 10 ^ 4 := by
  have e1 : x - (g + (I + 1 / 20 * e * S) + 1 / 2 * e)
      = (x - (g + (I + E / 10 * T) + E))
        + ((1 / 10 * ((E - 1 / 2 * e) * T) + 1 / 20 * (e * (T - S))) + (E - 1 / 2 * e)) := by
    ring
  have hT : |T| ≤ |S| + (21 / 10 ^ 8 * |S| + 6 / 10 ^ 7) := by
    have h5 : |T| = |(T - S) + S| := by congr 1; ring
    rw [h5]
    exact le_trans (abs_add _ _) (by linarith)
  have a1 := abs_mul_le h2 (le_refl |T|)
  have a2 := abs_mul_le h3 h4
  have a3 := abs_add (1 / 10 * ((E - 1 / 2 * e) * T)) (1 / 20 * (e * (T - S)))
  rw [abs_mul, abs_mul (1 / 20) (e * (T - S)), abs_of_nonneg (by norm_num : (0 : ℝ) ≤ 1 / 10),
    abs_of_nonneg (by norm_num : (0 : ℝ) ≤ 1 / 20)] at a3
  have a4 := abs_add (1 / 10 * ((E - 1 / 2 * e) * T) + 1 / 20 * (e * (T - S))) (E - 1 / 2 * e)
  rw [e1]
  refine le_trans (abs_add _ _) ?_
  have s0 := abs_nonneg S
  generalize |S| = W at *
  generalize |T| = V at *
  linarith

theorem halfQ_inRange : (steadyAt halfQ).inRange := by
  have h0 : f0.toRat = 0 := toRat_zero false
  refine ⟨by decide, ?_, ⟨by decide, by decide, by decide⟩, ?_, ?_, ?_⟩
  · simp only [QArr.normSq, State.quat, steadyAt, halfQ, toRat_f0_5]
    norm_num
  · simp only [steadyAt, h0]; norm_num
  · simp only [steadyAt, h0]; norm_num
  · simp only [steadyAt, h0]; norm_num

theorem zero_rateInRange : rateInRange f0 f0 f0 := by
  have h0 : f0.toRat = 0 := toRat_zero false
  refine ⟨⟨by decide, by decide, by decide⟩, ?_, ?_, ?_⟩ <;> rw [h0] <;> norm_num

theorem vertical_accelInRange : accelInRange f0 f0 f1 := by
  have h0 : f0.toRat = 0 := toRat_zero false
  refine ⟨⟨by decide, by decide, by decide⟩, ?_, ?_⟩ <;> rw [h0, toRat_f1] <;> norm_num

/-- C1 (defect of the code): in a steady-state call with accelerometer `(0,0,0)`
the code does not integrate the gyro over the elapsed time. From the identity
quaternion, gyro `(1,0,0)` and one elapsed second, `IMUupdate` returns
`(0.99830717, 0, 0, 0)`, the normalisation of the unchanged quaternion, while the
pure gyro integration reference is `(0.8942820, 0.4471410, 0, 0)`. -/
theorem C1_zero_accel_drops_gyro_integration :
    (IMUupdate steadyIdentity f1 f0 f0 f0 f0 f0 ⟨2, 0⟩ identityQ).2
      = ⟨⟨0x3f7f910f⟩, f0, f0, f0⟩ ∧
    pureGyroReference steadyIdentity f1 f0 f0 ⟨2, 0⟩
      = ⟨⟨0x3f64efab⟩, ⟨0x3ee4efab⟩, f0, f0⟩ := by
  decide!

/-- C2 as stated fails: a steady-state call from the identity quaternion with
zero gyro rate and accelerometer `(0,0,1)` returns `(0.99830717, 0, 0, 0)`, whose
squared norm `0.9966172` differs from 1 by more than `1e-4`. -/
theorem C2_tolerance_counterexample :
    (IMUupdate steadyIdentity f0 f0 f0 f0 f0 f1 ⟨2, 0⟩ identityQ).2
      = ⟨⟨0x3f7f910f⟩, f0, f0, f0⟩ ∧
    (1 : ℚ) / 10000
      < |(IMUupdate steadyIdentity f0 f0 f0 f0 f0 f1 ⟨2, 0⟩ identityQ).2.normSq - 1| := by
  have h : (IMUupdate steadyIdentity f0 f0 f0 f0 f0 f1 ⟨2, 0⟩ identityQ).2
      = ⟨⟨0x3f7f910f⟩, f0, f0, f0⟩ := by decide!
  refine ⟨h, ?_⟩
  rw [h]
  have h0 : f0.toRat = 0 := toRat_zero false
  have h1 : (F32.mk 0x3f7f910f).toRat = ((16748815 : Int) : ℚ) * 2 ^ (-24 : Int) :=
    toRat_of _ 16748815 (-24) (by decide) (by decide)
  simp only [QArr.normSq, h0, h1]
  norm_num [abs_lt, lt_abs]

/-- C2 (amended): for every steady-state call of `IMUupdate` whose inputs are
valid, in that the integrated quaternion is finite with a squared norm between
`0.002` and `500000`, the stored and the returned quaternion are the same, are
finite and satisfy `|q0^2+q1^2+q2^2+q3^2 - 1| ≤ 4e-3`; the renormalisation is the
one of `invSqrt` as implemented. -/
theorem C2_norm_within_tolerance (s : State) (gx gy gz ax ay az : F32) (tv : Timeval)
    (q : QArr) (h : s.last_tv.tv_sec ≠ 0)
    (hf : (preNorm s gx gy gz ax ay az tv).finite = true)
    (h1 : 1 / 500 ≤ (preNorm s gx gy gz ax ay az tv).normSq)
    (h2 : (preNorm s gx gy gz ax ay az tv).normSq ≤ 500000) :
    (IMUupdate s gx gy gz ax ay az tv q).1.quat = (IMUupdate s gx gy gz ax ay az tv q).2 ∧
    (IMUupdate s gx gy gz ax ay az tv q).2.finite = true ∧
    |(IMUupdate s gx gy gz ax ay az tv q).2.normSq - 1| ≤ 4 / 1000 := by
  rw [IMUupdate_steady s gx gy gz ax ay az tv q h]
  obtain ⟨e1, e2⟩ := steadyStep_snd s gx gy gz ax ay az tv
  rw [e1, e2]
  exact ⟨rfl, normalise_norm _ hf h1 h2⟩

theorem C2_norm_within_tolerance_witness :
    (steadyIdentity.last_tv.tv_sec ≠ 0 ∧
      (preNorm steadyIdentity f0 f0 f0 f0 f0 f1 ⟨2, 0⟩).finite = true ∧
      (1 : ℚ) / 500 ≤ (preNorm steadyIdentity f0 f0 f0 f0 f0 f1 ⟨2, 0⟩).normSq ∧
      (preNorm steadyIdentity f0 f0 f0 f0 f0 f1 ⟨2, 0⟩).normSq ≤ 500000) ∧
    (IMUupdate steadyIdentity f0 f0 f0 f0 f0 f1 ⟨2, 0⟩ identityQ).1.quat
      = (IMUupdate steadyIdentity f0 f0 f0 f0 f0 f1 ⟨2, 0⟩ identityQ).2 ∧
    (IMUupdate steadyIdentity f0 f0 f0 f0 f0 f1 ⟨2, 0⟩ identityQ).2.finite = true ∧
    |(IMUupdate steadyIdentity f0 f0 f0 f0 f0 f1 ⟨2, 0⟩ identityQ).2.normSq - 1| ≤ 4 / 1000 := by
  have hp : preNorm steadyIdentity f0 f0 f0 f0 f0 f1 ⟨2, 0⟩ = identityQ := by decide!
  have hn : identityQ.normSq = 1 := by
    have h0 : f0.toRat = 0 := toRat_zero false
    simp only [QArr.normSq, identityQ, h0, toRat_f1]
    norm_num
  have hf : identityQ.finite = true := by decide
  have a1 : steadyIdentity.last_tv.tv_sec ≠ 0 := by decide
  have a2 : (preNorm steadyIdentity f0 f0 f0 f0 f0 f1 ⟨2, 0⟩).finite = true := by rw [hp]; exact hf
  have a3 : (1 : ℚ) / 500 ≤ (preNorm steadyIdentity f0 f0 f0 f0 f0 f1 ⟨2, 0⟩).normSq := by
    rw [hp, hn]; norm_num
  have a4 : (preNorm steadyIdentity f0 f0 f0 f0 f0 f1 ⟨2, 0⟩).normSq ≤ 500000 := by
    rw [hp, hn]; norm_num
  exact ⟨⟨a1, a2, a3, a4⟩,
    C2_norm_within_tolerance steadyIdentity f0 f0 f0 f0 f0 f1 ⟨2, 0⟩ identityQ a1 a2 a3 a4⟩


/-- C3 as stated fails: after `ahrsInit` with no timestamp recorded, a first
`IMUupdate` called with an array holding `(0,0,0,0)` leaves `(0,0,0,0)` in it,
not `(1,0,0,0)`. -/
theorem C3_first_call_array_counterexample :
    (IMUupdate (ahrsInit initState) f0 f0 f0 f0 f0 f1 ⟨1, 0⟩ ⟨f0, f0, f0, f0⟩).2
      = ⟨f0, f0, f0, f0⟩ ∧
    (IMUupdate (ahrsInit initState) f0 f0 f0 f0 f0 f1 ⟨1, 0⟩ ⟨f0, f0, f0, f0⟩).2
      ≠ identityQ := by
  decide!

/-- C3 (amended): one `IMUupdate` call after `ahrsInit`, with no previous
timestamp recorded, does not write the caller's array, which keeps its prior
content for every sample and clock reading; the quaternion stored in the filter
is `(1,0,0,0)`. -/
theorem C3_first_call_keeps_array (s : State) (gx gy gz ax ay az : F32) (tv : Timeval)
    (q : QArr) (h : s.last_tv.tv_sec = 0) :
    (IMUupdate (ahrsInit s) gx gy gz ax ay az tv q).2 = q ∧
    (IMUupdate (ahrsInit s) gx gy gz ax ay az tv q).1.quat = identityQ := by
  have h1 : (ahrsInit s).last_tv.tv_sec = 0 := h
  rw [IMUupdate, IMUupdateWith_first _ _ _ _ _ _ _ _ _ _ _ h1]
  exact ⟨rfl, ahrsInit_quat s⟩

theorem C3_first_call_keeps_array_witness :
    (IMUupdate (ahrsInit initState) f1 f0 f0 f0 f0 f1 ⟨7, 5⟩ ⟨f0, f1, f0, f1⟩).2
      = ⟨f0, f1, f0, f1⟩ ∧
    (IMUupdate (ahrsInit initState) f1 f0 f0 f0 f0 f1 ⟨7, 5⟩ ⟨f0, f1, f0, f1⟩).1.quat
      = identityQ :=
  C3_first_call_keeps_array initState f1 f0 f0 f0 f0 f1 ⟨7, 5⟩ ⟨f0, f1, f0, f1⟩ rfl

/-- C4 as stated fails: in the state reached by one `IMUupdate` call at clock
reading 1 s, `ahrsInit` leaves the timestamp at 1 s, and the next `IMUupdate`
takes the steady-state path: it stores `(0.99830717, 0, 0, 0)`, not `(1,0,0,0)`. -/
theorem C4_init_keeps_timestamp_counterexample :
    (ahrsInit (IMUupdate initState f0 f0 f0 f0 f0 f1 ⟨1, 0⟩ identityQ).1).last_tv
      = ⟨1, 0⟩ ∧
    (IMUupdate (ahrsInit (IMUupdate initState f0 f0 f0 f0 f0 f1 ⟨1, 0⟩ identityQ).1)
        f0 f0 f0 f0 f0 f1 ⟨2, 0⟩ identityQ).1.quat
      = ⟨⟨0x3f7f910f⟩, f0, f0, f0⟩ := by
  decide!

/-- C4 (amended): `ahrsInit` leaves the last-update timestamp as it was, for
every prior state. The next `IMUupdate` takes the first-call path (no
integration, stored quaternion `(1,0,0,0)`, array untouched) exactly when no
timestamp was recorded before the reset; otherwise it runs the steady-state
step from the identity quaternion. -/
theorem C4_init_keeps_timestamp (s : State) (gx gy gz ax ay az : F32) (tv : Timeval)
    (q : QArr) :
    (ahrsInit s).last_tv = s.last_tv ∧
    (s.last_tv.tv_sec = 0 →
      IMUupdate (ahrsInit s) gx gy gz ax ay az tv q
        = ({ ahrsInit s with last_tv := tv }, q) ∧
      (IMUupdate (ahrsInit s) gx gy gz ax ay az tv q).1.quat = identityQ) ∧
    (s.last_tv.tv_sec ≠ 0 →
      IMUupdate (ahrsInit s) gx gy gz ax ay az tv q
        = steadyStep twoKpDef twoKiDef (ahrsInit s) gx gy gz ax ay az tv) := by
  refine ⟨rfl, ?_, ?_⟩
  · intro h
    have h1 : (ahrsInit s).last_tv.tv_sec = 0 := h
    rw [IMUupdate, IMUupdateWith_first _ _ _ _ _ _ _ _ _ _ _ h1]
    exact ⟨rfl, ahrsInit_quat s⟩
  · intro h
    have h1 : (ahrsInit s).last_tv.tv_sec ≠ 0 := h
    simp [IMUupdate, IMUupdateWith, h1]

/-- C5: for every prior filter state, immediately after `ahrsInit` the stored
quaternion `(q0,q1,q2,q3)` is exactly `(1,0,0,0)`. -/
theorem C5_init_identity (s : State) :
    (ahrsInit s).q0 = ⟨0x3f800000⟩ ∧ (ahrsInit s).q1 = ⟨0⟩ ∧
    (ahrsInit s).q2 = ⟨0⟩ ∧ (ahrsInit s).q3 = ⟨0⟩ := by
  simp [ahrsInit, ofInt_one, ofInt_zero, f1, f0]

/-- C6: in a state with no recorded timestamp (`last_tv.tv_sec = 0`), for every
sample and clock reading, `IMUupdate` leaves the stored quaternion and the
integral feedback accumulator unchanged; only the last-update timestamp changes,
to the current clock reading (the caller's array is not written either). -/
theorem C6_first_call_frame (s : State) (gx gy gz ax ay az : F32) (tv : Timeval)
    (q : QArr) (h : s.last_tv.tv_sec = 0) :
    IMUupdate s gx gy gz ax ay az tv q = ({ s with last_tv := tv }, q) ∧
    (IMUupdate s gx gy gz ax ay az tv q).1.quat = s.quat ∧
    (IMUupdate s gx gy gz ax ay az tv q).1.integralFBx = s.integralFBx ∧
    (IMUupdate s gx gy gz ax ay az tv q).1.integralFBy = s.integralFBy ∧
    (IMUupdate s gx gy gz ax ay az tv q).1.integralFBz = s.integralFBz ∧
    (IMUupdate s gx gy gz ax ay az tv q).1.last_tv = tv := by
  rw [IMUupdate, IMUupdateWith_first _ _ _ _ _ _ _ _ _ _ _ h]
  exact ⟨rfl, rfl, rfl, rfl, rfl, rfl⟩

theorem C6_first_call_frame_witness :
    IMUupdate initState f1 f0 f0 f0 f0 f1 ⟨7, 5⟩ identityQ
      = ({ initState with last_tv := ⟨7, 5⟩ }, identityQ) ∧
    (IMUupdate initState f1 f0 f0 f0 f0 f1 ⟨7, 5⟩ identityQ).1.quat = initState.quat ∧
    (IMUupdate initState f1 f0 f0 f0 f0 f1 ⟨7, 5⟩ identityQ).1.integralFBx
      = initState.integralFBx ∧
    (IMUupdate initState f1 f0 f0 f0 f0 f1 ⟨7, 5⟩ identityQ).1.integralFBy
      = initState.integralFBy ∧
    (IMUupdate initState f1 f0 f0 f0 f0 f1 ⟨7, 5⟩ identityQ).1.integralFBz
      = initState.integralFBz ∧
    (IMUupdate initState f1 f0 f0 f0 f0 f1 ⟨7, 5⟩ identityQ).1.last_tv = ⟨7, 5⟩ :=
  C6_first_call_frame initState f1 f0 f0 f0 f0 f1 ⟨7, 5⟩ identityQ rfl

/-- C7: with the integral gain `twoKi` configured to zero and every component of
the integral feedback accumulator zero initially, after every finite sequence of
`IMUupdate` calls, with arbitrary samples and clock readings, every component of
the accumulator is still zero. -/
theorem C7_zero_gain_accumulator_stays_zero (twoKp twoKi : F32) (s : State) (q : QArr)
    (calls : List Call) (hK : twoKi.isZero = true)
    (hx : s.integralFBx.isZero = true) (hy : s.integralFBy.isZero = true)
    (hz : s.integralFBz.isZero = true) :
    (runWith twoKp twoKi (s, q) calls).1.integralFBx.isZero = true ∧
    (runWith twoKp twoKi (s, q) calls).1.integralFBy.isZero = true ∧
    (runWith twoKp twoKi (s, q) calls).1.integralFBz.isZero = true :=
  runWith_acc_zero twoKp twoKi (isZero_not_gt twoKi hK) calls (s, q) hx hy hz

theorem C7_zero_gain_accumulator_stays_zero_witness :
    (runWith f1 f0 (steadyIdentity, identityQ)
      [⟨f0, f0, f0, f1, f0, f1, ⟨2, 0⟩⟩, ⟨f1, f0, f0, f0, f1, f0, ⟨3, 0⟩⟩]).1.integralFBx.isZero
        = true ∧
    (runWith f1 f0 (steadyIdentity, identityQ)
      [⟨f0, f0, f0, f1, f0, f1, ⟨2, 0⟩⟩, ⟨f1, f0, f0, f0, f1, f0, ⟨3, 0⟩⟩]).1.integralFBy.isZero
        = true ∧
    (runWith f1 f0 (steadyIdentity, identityQ)
      [⟨f0, f0, f0, f1, f0, f1, ⟨2, 0⟩⟩, ⟨f1, f0, f0, f0, f1, f0, ⟨3, 0⟩⟩]).1.integralFBz.isZero
        = true :=
  C7_zero_gain_accumulator_stays_zero f1 f0 steadyIdentity identityQ
    [⟨f0, f0, f0, f1, f0, f1, ⟨2, 0⟩⟩, ⟨f1, f0, f0, f0, f1, f0, ⟨3, 0⟩⟩] rfl rfl rfl rfl

/-- C8: for every binary32 `x` whose value lies in `[10^-3, 10^6]` (so positive
and finite), `invSqrt x` is finite and its relative error against the exact
`1 / sqrt x` is below 0.2 %: `|invSqrt x * sqrt x - 1| < 0.002`. -/
theorem C8_invSqrt_accuracy (x : F32) (hlo : (1 : ℚ) / 1000 ≤ x.toRat)
    (hhi : x.toRat ≤ 1000000) :
    (invSqrt x).isFinite = true ∧
    |((invSqrt x).toRat : ℝ) * Real.sqrt ((x.toRat : ℚ) : ℝ) - 1| < 2 / 1000 := by
  obtain ⟨h1, h2, h3, h4⟩ := invSqrt_val x hlo hhi
  have g0 : (0 : ℚ) ≤ x.toRat := by linarith
  have g1 : (0 : ℝ) < ((invSqrt x).toRat : ℝ) := by exact_mod_cast h2
  have g2 : (0 : ℝ) ≤ ((x.toRat : ℚ) : ℝ) := by exact_mod_cast g0
  have g3 : (996004 : ℝ) / 1000000 < ((invSqrt x).toRat : ℝ) ^ 2 * ((x.toRat : ℚ) : ℝ) := by
    have h5 := (Rat.cast_lt (K := ℝ)).mpr h3
    push_cast at h5
    linarith
  have g4 : ((invSqrt x).toRat : ℝ) ^ 2 * ((x.toRat : ℚ) : ℝ) < 1004004 / 1000000 := by
    have h5 := (Rat.cast_lt (K := ℝ)).mpr h4
    push_cast at h5
    linarith
  exact ⟨h1, rel_err_of_sq _ _ g1 g2 g3 g4⟩

theorem C8_invSqrt_accuracy_witness :
    ((1 : ℚ) / 1000 ≤ f1.toRat ∧ f1.toRat ≤ 1000000) ∧
    (invSqrt f1).isFinite = true ∧
    |((invSqrt f1).toRat : ℝ) * Real.sqrt ((f1.toRat : ℚ) : ℝ) - 1| < 2 / 1000 :=
  ⟨⟨by rw [toRat_f1]; norm_num, by rw [toRat_f1]; norm_num⟩,
    C8_invSqrt_accuracy f1 (by rw [toRat_f1]; norm_num) (by rw [toRat_f1]; norm_num)⟩

/-- From the inverted unit quaternion `(0,1,0,0)`, with accelerometer `(0,0,1)`,
zero gyro rate and a time step of one second, the estimated gravity direction
never gets a positive vertical component. -/
theorem inverted_never_aligns :
    ¬ ∃ n : Nat, 0 < (halfv (staticRun 1 n (steadyAt invertedQ))).2.2.toRat := by
  rintro ⟨n, hn⟩
  have key : (halfv (staticRun 1 n (steadyAt invertedQ))).2.2 = ⟨0xbf000000⟩ := by
    rcases inverted_orbit n (steadyAt invertedQ) (by decide) (Or.inl rfl) with h | h | h <;>
      · rw [halfv_of_vars _ _ _ _ _ h]
        decide!
  rw [key, toRat_neg_half] at hn
  norm_num at hn

/-- The float `3.0f`. -/
theorem ofInt_three : F32.ofInt 3 = ⟨0x40400000⟩ := by decide

/-- The accelerometer scale does not matter when the factor is a power of two.
For every filter state, gyro reading, clock reading and accelerometer vector `a`
whose components are zero or normal floats of magnitude in `[2^-63, 2^54 / 2^n)`,
with computed squared norm of `a` at least `10^-3` and computed squared norm of
`2^n * a` at most `10^6`, `IMUupdate` called with the accelerometer `2^n * a`
returns the same filter state (quaternion and integral accumulator) and the same
output array as `IMUupdate` called with `a`. -/
theorem scale2_same_output (n : Nat) (s : State) (gx gy gz ax ay az : F32)
    (tv : Timeval) (q : QArr) (hx : okComp n ax) (hy : okComp n ay) (hz : okComp n az)
    (hlo : (1 : ℚ) / 1000 ≤ (ax * ax + ay * ay + az * az).toRat)
    (hhi : (scale2 n ax * scale2 n ax + scale2 n ay * scale2 n ay
      + scale2 n az * scale2 n az).toRat ≤ 1000000) :
    ((scale2 n ax).toRat = 2 ^ n * ax.toRat ∧ (scale2 n ay).toRat = 2 ^ n * ay.toRat ∧
      (scale2 n az).toRat = 2 ^ n * az.toRat) ∧
    IMUupdate s gx gy gz (scale2 n ax) (scale2 n ay) (scale2 n az) tv q
      = IMUupdate s gx gy gz ax ay az tv q := by
  refine ⟨⟨scale2_val n ax hx, scale2_val n ay hy, scale2_val n az hz⟩, ?_⟩
  simp only [IMUupdate, IMUupdateWith, steadyStep,
    feedback_scale n twoKpDef twoKiDef s gx gy gz ax ay az tv hx hy hz hlo hhi]

theorem scale2_same_output_example :
    (okComp 1 f1 ∧ okComp 1 f0 ∧
      (1 : ℚ) / 1000 ≤ (f1 * f1 + f0 * f0 + f1 * f1).toRat ∧
      (scale2 1 f1 * scale2 1 f1 + scale2 1 f0 * scale2 1 f0
        + scale2 1 f1 * scale2 1 f1).toRat ≤ 1000000) ∧
    scale2 1 f1 = f2 ∧
    IMUupdate steadyIdentity f1 f0 f0 (scale2 1 f1) (scale2 1 f0) (scale2 1 f1) ⟨1, 10000⟩
        identityQ
      = IMUupdate steadyIdentity f1 f0 f0 f1 f0 f1 ⟨1, 10000⟩ identityQ := by
  have a1 : okComp 1 f1 := Or.inr ⟨by decide, by decide⟩
  have a0 : okComp 1 f0 := Or.inl (by decide)
  have e1 : f1 * f1 + f0 * f0 + f1 * f1 = ⟨0x40000000⟩ := by decide
  have e2 : scale2 1 f1 * scale2 1 f1 + scale2 1 f0 * scale2 1 f0
      + scale2 1 f1 * scale2 1 f1 = ⟨0x41000000⟩ := by decide
  have v1 : (F32.mk 0x40000000).toRat = ((8388608 : Int) : ℚ) * 2 ^ (-22 : Int) :=
    toRat_of _ 8388608 (-22) (by decide) (by decide)
  have v2 : (F32.mk 0x41000000).toRat = ((8388608 : Int) : ℚ) * 2 ^ (-20 : Int) :=
    toRat_of _ 8388608 (-20) (by decide) (by decide)
  have a3 : (1 : ℚ) / 1000 ≤ (f1 * f1 + f0 * f0 + f1 * f1).toRat := by
    rw [e1, v1]; norm_num
  have a4 : (scale2 1 f1 * scale2 1 f1 + scale2 1 f0 * scale2 1 f0
      + scale2 1 f1 * scale2 1 f1).toRat ≤ 1000000 := by
    rw [e2, v2]; norm_num
  exact ⟨⟨a1, a0, a3, a4⟩, by decide,
    (scale2_same_output 1 steadyIdentity f1 f0 f0 f1 f0 f1 ⟨1, 10000⟩ identityQ
      a1 a0 a1 a3 a4).2⟩

/-- C11 (counterexample): with the quaternion `(1/2,1/2,1/2,1/2)` stored, an empty
accumulator, the accelerometer reading `(0,0,1)` of norm 1 and one second
elapsed, the error is `e = (-1,0,0)` and the claim gives the accumulator
`0 + 0.05 * (-1) * 1 = -0.05`; `IMUupdate` stores `0xbd4c740c`, which is more than
`8e-5` above. -/
theorem C11_approximate_norm_counterexample :
    (IMUupdate (steadyAt halfQ) f0 f0 f0 f0 f0 f1 ⟨2, 0⟩ identityQ).1.integralFBx
      = ⟨0xbd4c740c⟩ ∧
    (1 : ℚ) ^ 2 = f0.toRat ^ 2 + f0.toRat ^ 2 + f1.toRat ^ 2 ∧
    errorAt ℚ (steadyAt halfQ) f0 f0 f1 1 = (-1, 0, 0) ∧
    (steadyAt halfQ).integralFBx.toRat
      + 1 / 20 * (errorAt ℚ (steadyAt halfQ) f0 f0 f1 1).1 * secondsBetween ⟨1, 0⟩ ⟨2, 0⟩
      = -1 / 20 ∧
    -1 / 20 + 8 / 100000
      < (IMUupdate (steadyAt halfQ) f0 f0 f0 f0 f0 f1 ⟨2, 0⟩ identityQ).1.integralFBx.toRat := by
  have h0 : f0.toRat = 0 := toRat_zero false
  have hv : (IMUupdate (steadyAt halfQ) f0 f0 f0 f0 f0 f1 ⟨2, 0⟩ identityQ).1.integralFBx
      = ⟨0xbd4c740c⟩ := by decide!
  have he : errorAt ℚ (steadyAt halfQ) f0 f0 f1 1 = (-1, 0, 0) := by
    simp only [errorAt, errorOf, steadyAt, halfQ, h0, toRat_f1, toRat_f0_5]
    norm_num
  refine ⟨hv, ?_, he, ?_, ?_⟩
  · rw [h0, toRat_f1]; norm_num
  · rw [he]
    simp only [steadyAt, h0, secondsBetween]
    norm_num
  · rw [hv, toRat_of ⟨0xbd4c740c⟩ (-13399052) (-28) (by decide) (by decide)]
    norm_num

/-- C11 (amended): in a steady-state call with a valid accelerometer reading the
accumulator stored by `IMUupdate` and the gyro rate it integrates are those of
the feedback block, and they follow the proportional-integral law of the claim
within a tolerance. With `e` the cross product of the accelerometer reading
divided by its norm `l` and the estimated direction of gravity, and `dt` the
exact seconds between the two clock readings, the computed time difference is
within `2.1e-7 |dt| + 6e-7` of `dt`, each accumulator coordinate is finite and
within `4.1e-4 |dt| + 3e-6` of `I + 0.05 e dt`, and each rate coordinate is finite
and within `4.1e-4 |dt| + 4.1e-3` of `g + (I + 0.05 e dt) + 0.5 e`. The state is in
range (quaternion within `0.004` of unit squared norm, accumulator at most 10),
the rate at most 100, the squared norm of the accelerometer in `[10^-24, 10^24]`
and the clock fields differ by at most 1000 s and `10^6` µs. -/
theorem C11_pi_feedback_within_tolerance (s : State) (gx gy gz ax ay az : F32) (tv : Timeval)
    (q : QArr) (l : ℝ) (hst : s.last_tv.tv_sec ≠ 0)
    (hs : s.inRange) (hg : rateInRange gx gy gz) (ha : accelInRange ax ay az)
    (hl0 : 0 < l)
    (hl : l ^ 2 = (ax.toRat : ℝ) ^ 2 + (ay.toRat : ℝ) ^ 2 + (az.toRat : ℝ) ^ 2)
    (h1 : (tv.tv_sec - s.last_tv.tv_sec).natAbs ≤ 1000)
    (h2 : (tv.tv_usec - s.last_tv.tv_usec).natAbs ≤ 1000000) :
    ((IMUupdate s gx gy gz ax ay az tv q).1.integralFBx
        = (feedback twoKpDef twoKiDef s gx gy gz ax ay az tv).integralFBx ∧
     (IMUupdate s gx gy gz ax ay az tv q).1.integralFBy
        = (feedback twoKpDef twoKiDef s gx gy gz ax ay az tv).integralFBy ∧
     (IMUupdate s gx gy gz ax ay az tv q).1.integralFBz
        = (feedback twoKpDef twoKiDef s gx gy gz ax ay az tv).integralFBz ∧
     (IMUupdate s gx gy gz ax ay az tv q).2
        = normalise (integrate s (feedback twoKpDef twoKiDef s gx gy gz ax ay az tv).gx
            (feedback twoKpDef twoKiDef s gx gy gz ax ay az tv).gy
            (feedback twoKpDef twoKiDef s gx gy gz ax ay az tv).gz
            (feedback twoKpDef twoKiDef s gx gy gz ax ay az tv).timeDiff)) ∧
    Within (feedback twoKpDef twoKiDef s gx gy gz ax ay az tv).timeDiff
      (secondsBetween s.last_tv tv)
      (21 / 10 ^ 8 * |(secondsBetween s.last_tv tv : ℝ)| + 6 / 10 ^ 7) ∧
    (Within (feedback twoKpDef twoKiDef s gx gy gz ax ay az tv).integralFBx
      (s.integralFBx.toRat + 1 / 20 * (errorAt ℝ s ax ay az l).1 * secondsBetween s.last_tv tv)
      (41 / 10 ^ 5 * |(secondsBetween s.last_tv tv : ℝ)| + 3 / 10 ^ 6) ∧
     Within (feedback twoKpDef twoKiDef s gx gy gz ax ay az tv).integralFBy
      (s.integralFBy.toRat + 1 / 20 * (errorAt ℝ s ax ay az l).2.1 * secondsBetween s.last_tv tv)
      (41 / 10 ^ 5 * |(secondsBetween s.last_tv tv : ℝ)| + 3 / 10 ^ 6) ∧
     Within (feedback twoKpDef twoKiDef s gx gy gz ax ay az tv).integralFBz
      (s.integralFBz.toRat + 1 / 20 * (errorAt ℝ s ax ay az l).2.2 * secondsBetween s.last_tv tv)
      (41 / 10 ^ 5 * |(secondsBetween s.last_tv tv : ℝ)| + 3 / 10 ^ 6)) ∧
    (Within (feedback twoKpDef twoKiDef s gx gy gz ax ay az tv).gx
      (gx.toRat + (s.integralFBx.toRat
          + 1 / 20 * (errorAt ℝ s ax ay az l).1 * secondsBetween s.last_tv tv)
        + 1 / 2 * (errorAt ℝ s ax ay az l).1)
      (41 / 10 ^ 5 * |(secondsBetween s.last_tv tv : ℝ)| + 41 / 10 ^ 4) ∧
     Within (feedback twoKpDef twoKiDef s gx gy gz ax ay az tv).gy
      (gy.toRat + (s.integralFBy.toRat
          + 1 / 20 * (errorAt ℝ s ax ay az l).2.1 * secondsBetween s.last_tv tv)
        + 1 / 2 * (errorAt ℝ s ax ay az l).2.1)
      (41 / 10 ^ 5 * |(secondsBetween s.last_tv tv : ℝ)| + 41 / 10 ^ 4) ∧
     Within (feedback twoKpDef twoKiDef s gx gy gz ax ay az tv).gz
      (gz.toRat + (s.integralFBz.toRat
          + 1 / 20 * (errorAt ℝ s ax ay az l).2.2 * secondsBetween s.last_tv tv)
        + 1 / 2 * (errorAt ℝ s ax ay az l).2.2)
      (41 / 10 ^ 5 * |(secondsBetween s.last_tv tv : ℝ)| + 41 / 10 ^ 4)) := by
  obtain ⟨td, tb⟩ := timeDiff_near s.last_tv tv h1 h2
  have hT : |(timeDiffOf s.last_tv tv).toRat| ≤ 1002 := by
    have := near_abs td (le_refl _)
    linarith
  obtain ⟨ft, ⟨ix, iy, iz⟩, rx, ry, rz⟩ := feedback_near s gx gy gz ax ay az tv hs hg ha td.1 hT
  obtain ⟨_, hn, _, _⟩ := hs
  obtain ⟨⟨afx, afy, afz⟩, ha1, ha2⟩ := ha
  obtain ⟨_, r0, rL, rU, _, _⟩ := accel_near ax ay az afx afy afz ha1 ha2
  have hnR : |(s.q0.toRat : ℝ) ^ 2 + (s.q1.toRat : ℝ) ^ 2 + (s.q2.toRat : ℝ) ^ 2
      + (s.q3.toRat : ℝ) ^ 2 - 1| ≤ 4 / 1000 := by
    simp only [QArr.normSq, State.quat] at hn
    have := (Rat.cast_le (K := ℝ)).mpr hn
    push_cast at this
    exact this
  have r0R : (0 : ℝ) < ((accRecipNorm ax ay az).toRat : ℝ) := by exact_mod_cast r0
  have rLR : (99619 : ℝ) / 100000 ≤ ((accRecipNorm ax ay az).toRat : ℝ) ^ 2
      * ((ax.toRat : ℝ) ^ 2 + (ay.toRat : ℝ) ^ 2 + (az.toRat : ℝ) ^ 2) := by
    have := (Rat.cast_le (K := ℝ)).mpr rL
    push_cast at this
    exact this
  have rUR : ((accRecipNorm ax ay az).toRat : ℝ) ^ 2
      * ((ax.toRat : ℝ) ^ 2 + (ay.toRat : ℝ) ^ 2 + (az.toRat : ℝ) ^ 2)
      ≤ 10000024 / 10000000 := by
    have := (Rat.cast_le (K := ℝ)).mpr rU
    push_cast at this
    exact this
  obtain ⟨⟨k1, k2, k3⟩, m1, m2, m3⟩ := halfe_vs_error _ _ _ _ _ _ _ _ l hnR hl0 hl r0R rLR rUR
  have tdR := near_real td
  push_cast at tdR
  have hst' := IMUupdate_steady s gx gy gz ax ay az tv q hst
  refine ⟨⟨by rw [hst']; rfl, by rw [hst']; rfl, by rw [hst']; rfl, by rw [hst']; rfl⟩,
    ⟨by rw [ft]; exact td.1, by rw [ft]; exact tdR⟩, ⟨⟨ix.1, ?_⟩, ⟨iy.1, ?_⟩, ⟨iz.1, ?_⟩⟩,
    ⟨rx.1, ?_⟩, ⟨ry.1, ?_⟩, ⟨rz.1, ?_⟩⟩
  · have h := near_real ix
    simp only [halfeExact, halfvExact, accDir] at h
    push_cast at h
    exact acc_combine _ _ _ _ _ _ h k1 m1 tdR
  · have h := near_real iy
    simp only [halfeExact, halfvExact, accDir] at h
    push_cast at h
    exact acc_combine _ _ _ _ _ _ h k2 m2 tdR
  · have h := near_real iz
    simp only [halfeExact, halfvExact, accDir] at h
    push_cast at h
    exact acc_combine _ _ _ _ _ _ h k3 m3 tdR
  · have h := near_real rx
    simp only [halfeExact, halfvExact, accDir] at h
    push_cast at h
    exact rate_combine _ _ _ _ _ _ _ h k1 m1 tdR
  · have h := near_real ry
    simp only [halfeExact, halfvExact, accDir] at h
    push_cast at h
    exact rate_combine _ _ _ _ _ _ _ h k2 m2 tdR
  · have h := near_real rz
    simp only [halfeExact, halfvExact, accDir] at h
    push_cast at h
    exact rate_combine _ _ _ _ _ _ _ h k3 m3 tdR

theorem C11_pi_feedback_within_tolerance_witness :
    (steadyAt halfQ).inRange ∧ rateInRange f0 f0 f0 ∧ accelInRange f0 f0 f1 ∧
    Within (feedback twoKpDef twoKiDef (steadyAt halfQ) f0 f0 f0 f0 f0 f1 ⟨2, 0⟩).integralFBx
      ((steadyAt halfQ).integralFBx.toRat
        + 1 / 20 * (errorAt ℝ (steadyAt halfQ) f0 f0 f1 1).1 * secondsBetween ⟨1, 0⟩ ⟨2, 0⟩)
      (41 / 10 ^ 5 * |(secondsBetween ⟨1, 0⟩ ⟨2, 0⟩ : ℝ)| + 3 / 10 ^ 6) :=
  ⟨halfQ_inRange, zero_rateInRange, vertical_accelInRange,
    (C11_pi_feedback_within_tolerance (steadyAt halfQ) f0 f0 f0 f0 f0 f1 ⟨2, 0⟩ identityQ 1
      (by decide) halfQ_inRange zero_rateInRange vertical_accelInRange (by norm_num)
      (by rw [show f0.toRat = 0 from toRat_zero false, toRat_f1]; norm_num)
      (by decide) (by decide)).2.2.1.1⟩

/-- C12 as stated fails: for the quaternion `(0.99830717, 0, 0, 0)` that the
filter stores after one update from the identity, the third component computed
at line 247 is `0.4966172`, while one half of `q0² - q1² - q2² + q3²` is
`0.4983086`. -/
theorem C12_stored_quaternion_counterexample :
    (IMUupdate steadyIdentity f0 f0 f0 f0 f0 f1 ⟨2, 0⟩ identityQ).1.quat
      = ⟨⟨0x3f7f910f⟩, f0, f0, f0⟩ ∧
    (halfv (IMUupdate steadyIdentity f0 f0 f0 f0 f0 f1 ⟨2, 0⟩ identityQ).1).2.2
      = ⟨0x3efe449c⟩ ∧
    (F32.mk 0x3efe449c).toRat + 1 / 1000
      < 1 / 2 * ((F32.mk 0x3f7f910f).toRat ^ 2 - f0.toRat ^ 2 - f0.toRat ^ 2 + f0.toRat ^ 2) := by
  refine ⟨by decide!, by decide!, ?_⟩
  have h0 : f0.toRat = 0 := toRat_zero false
  have h1 : (F32.mk 0x3efe449c).toRat = ((16663708 : Int) : ℚ) * 2 ^ (-25 : Int) :=
    toRat_of _ 16663708 (-25) (by decide) (by decide)
  have h2 : (F32.mk 0x3f7f910f).toRat = ((16748815 : Int) : ℚ) * 2 ^ (-24 : Int) :=
    toRat_of _ 16748815 (-24) (by decide) (by decide)
  rw [h0, h1, h2]
  norm_num

/-- C12 (amended): in exact arithmetic, the first two components of the
estimate computed at lines 245-246 are one half of the rotated reference
vector for every quaternion; the third component (line 247) is one half of
`q0² - q1² - q2² + q3²` exactly when the quaternion has unit norm. The vector
`(2(q1q3 - q0q2), 2(q0q1 + q2q3), q0² - q1² - q2² + q3²)` is the reference
vector `(0,0,1)` rotated by the quaternion, `star q * k * q`. -/
theorem C12_half_gravity (s : StateOver ℚ) :
    (halfvOver s).1 = 1 / 2 * (gravityOf s.q0 s.q1 s.q2 s.q3).1 ∧
    (halfvOver s).2.1 = 1 / 2 * (gravityOf s.q0 s.q1 s.q2 s.q3).2.1 ∧
    ((halfvOver s).2.2 = 1 / 2 * (gravityOf s.q0 s.q1 s.q2 s.q3).2.2
      ↔ s.q0 ^ 2 + s.q1 ^ 2 + s.q2 ^ 2 + s.q3 ^ 2 = 1) ∧
    star (⟨s.q0, s.q1, s.q2, s.q3⟩ : Quaternion ℚ) * ⟨0, 0, 0, 1⟩ * ⟨s.q0, s.q1, s.q2, s.q3⟩
      = ⟨0, (gravityOf s.q0 s.q1 s.q2 s.q3).1, (gravityOf s.q0 s.q1 s.q2 s.q3).2.1,
          (gravityOf s.q0 s.q1 s.q2 s.q3).2.2⟩ := by
  obtain ⟨v1, v2, v3⟩ := halfvOver_gravity s
  refine ⟨v1, v2, ?_, gravityOf_rotation _ _ _ _⟩
  rw [v3]
  constructor
  · intro h; linarith
  · intro h; rw [h]; ring

/-- C13 (defect of the code, the one of C1): in exact arithmetic the
quaternion before renormalisation is the explicit Euler step
`q + timeDiff * 1/2 * (q ⊗ (0, gx', gy', gz'))` with every component taken
from the quaternion before the update, and the stored and returned quaternion is
that vector multiplied by `invSqrt` of its squared norm; but the step
`timeDiff` is the elapsed time only when the accelerometer reading is not the
zero vector, and is `0` otherwise. In binary32, from the identity quaternion
with gyro `(1,0,0)`, accelerometer `(0,0,0)` and one second elapsed, the
quaternion before renormalisation is `(1,0,0,0)`, while the integration over
the elapsed second gives `(1, 0.5, 0, 0)`. -/
theorem C13_euler_step (isq : ℚ → ℚ) (s : StateOver ℚ) (gx gy gz ax ay az : ℚ)
    (tv : Timeval) :
    (preNormOver isq s gx gy gz ax ay az tv).toQuat
      = eulerStep s.toQuat
          (feedbackOver isq twoKpDefOver twoKiDefOver s gx gy gz ax ay az tv).gx
          (feedbackOver isq twoKpDefOver twoKiDefOver s gx gy gz ax ay az tv).gy
          (feedbackOver isq twoKpDefOver twoKiDefOver s gx gy gz ax ay az tv).gz
          (feedbackOver isq twoKpDefOver twoKiDefOver s gx gy gz ax ay az tv).timeDiff ∧
    (feedbackOver isq twoKpDefOver twoKiDefOver s gx gy gz ax ay az tv).timeDiff
      = (if ax = 0 ∧ ay = 0 ∧ az = 0 then 0 else secondsBetween s.last_tv tv) ∧
    ((steadyStepOver isq twoKpDefOver twoKiDefOver s gx gy gz ax ay az tv).2.toQuat
        = isq ((preNormOver isq s gx gy gz ax ay az tv).c0
              * (preNormOver isq s gx gy gz ax ay az tv).c0
            + (preNormOver isq s gx gy gz ax ay az tv).c1
              * (preNormOver isq s gx gy gz ax ay az tv).c1
            + (preNormOver isq s gx gy gz ax ay az tv).c2
              * (preNormOver isq s gx gy gz ax ay az tv).c2
            + (preNormOver isq s gx gy gz ax ay az tv).c3
              * (preNormOver isq s gx gy gz ax ay az tv).c3)
          • (preNormOver isq s gx gy gz ax ay az tv).toQuat ∧
      (steadyStepOver isq twoKpDefOver twoKiDefOver s gx gy gz ax ay az tv).1.toQuat
        = (steadyStepOver isq twoKpDefOver twoKiDefOver s gx gy gz ax ay az tv).2.toQuat) ∧
    (preNorm steadyIdentity f1 f0 f0 f0 f0 f0 ⟨2, 0⟩ = identityQ ∧
      integrate steadyIdentity f1 f0 f0 (timeDiffOf steadyIdentity.last_tv ⟨2, 0⟩)
        = ⟨f1, f0_5, f0, f0⟩) := by
  refine ⟨integrateOver_euler _ _ _ _ _, feedbackOver_timeDiff _ _ _ _ _ _ _ _ _, ⟨?_, rfl⟩,
    by decide!⟩
  simp only [steadyStepOver, normaliseOver, QArrOver.toQuat]
  rw [← preNormOver]
  ext <;> simp <;> ring

/-- C14 (defect of the code): the legacy variant does not take the explicit
Euler step. Lines 349-352 assign `q0`, `q1`, `q2`, `q3` one after the other and
each right-hand side reads the components already assigned. In exact arithmetic
only the first component is the one of the Euler step; the others are off by
the terms in the increments of the components assigned before. In binary32,
from the identity quaternion with adjusted rates `(1,0,1)` and one second, the
legacy lines give `(1, 0.5, -0.25, 0.625)`; the integration of the
`MAHONY_AHRS` variant (lines 276-285), which keeps `qa`, `qb`, `qc`, gives the
Euler step `(1, 0.5, 0, 0.5)`. -/
theorem C14_legacy_sequential_update (s : LegacyStateOver ℚ) (gx gy gz dt : ℚ) :
    ((legacyIntegrateOver s gx gy gz dt).c0
        = (eulerStep ⟨s.q0, s.q1, s.q2, s.q3⟩ gx gy gz dt).re ∧
      (legacyIntegrateOver s gx gy gz dt).c1
        = (eulerStep ⟨s.q0, s.q1, s.q2, s.q3⟩ gx gy gz dt).imI
          + ((legacyIntegrateOver s gx gy gz dt).c0 - s.q0) * gx * dt * (1 / 2) ∧
      (legacyIntegrateOver s gx gy gz dt).c2
        = (eulerStep ⟨s.q0, s.q1, s.q2, s.q3⟩ gx gy gz dt).imJ
          + (((legacyIntegrateOver s gx gy gz dt).c0 - s.q0) * gy
              - ((legacyIntegrateOver s gx gy gz dt).c1 - s.q1) * gz) * dt * (1 / 2) ∧
      (legacyIntegrateOver s gx gy gz dt).c3
        = (eulerStep ⟨s.q0, s.q1, s.q2, s.q3⟩ gx gy gz dt).imK
          + (((legacyIntegrateOver s gx gy gz dt).c0 - s.q0) * gz
              + ((legacyIntegrateOver s gx gy gz dt).c1 - s.q1) * gy
              - ((legacyIntegrateOver s gx gy gz dt).c2 - s.q2) * gx) * dt * (1 / 2)) ∧
    ((legacyFeedbackOver invSqrt (⟨f1, f0, f0, f0, f0, f0, f0, ⟨1, 0⟩⟩ : LegacyStateOver F32)
          f1 f0 f1 f0 f0 f1 ⟨2, 0⟩).gx = f1 ∧
      (legacyFeedbackOver invSqrt (⟨f1, f0, f0, f0, f0, f0, f0, ⟨1, 0⟩⟩ : LegacyStateOver F32)
          f1 f0 f1 f0 f0 f1 ⟨2, 0⟩).gy = f0 ∧
      (legacyFeedbackOver invSqrt (⟨f1, f0, f0, f0, f0, f0, f0, ⟨1, 0⟩⟩ : LegacyStateOver F32)
          f1 f0 f1 f0 f0 f1 ⟨2, 0⟩).gz = f1 ∧
      (legacyFeedbackOver invSqrt (⟨f1, f0, f0, f0, f0, f0, f0, ⟨1, 0⟩⟩ : LegacyStateOver F32)
          f1 f0 f1 f0 f0 f1 ⟨2, 0⟩).timeDiff = f1) ∧
    (legacyIntegrateOver (⟨f1, f0, f0, f0, f0, f0, f0, ⟨1, 0⟩⟩ : LegacyStateOver F32) f1 f0 f1 f1
        = ⟨f1, f0_5, ⟨0xbe800000⟩, ⟨0x3f200000⟩⟩ ∧
      integrate ⟨f1, f0, f0, f0, f0, f0, f0, ⟨1, 0⟩⟩ f1 f0 f1 f1 = ⟨f1, f0_5, f0, f0_5⟩) ∧
    ((legacyIntegrateOver (⟨1, 0, 0, 0, 0, 0, 0, ⟨1, 0⟩⟩ : LegacyStateOver ℚ) 1 0 1 1).c2 = -1 / 4 ∧
      (eulerStep ⟨1, 0, 0, 0⟩ 1 0 1 1).imJ = 0 ∧
      (legacyIntegrateOver (⟨1, 0, 0, 0, 0, 0, 0, ⟨1, 0⟩⟩ : LegacyStateOver ℚ) 1 0 1 1).c3 = 5 / 8 ∧
      (eulerStep ⟨1, 0, 0, 0⟩ 1 0 1 1).imK = 1 / 2) := by
  refine ⟨legacyIntegrateOver_exact s gx gy gz dt, by decide!, by decide!, ?_⟩
  simp only [legacyIntegrateOver, eulerStep, lit_exact]
  refine ⟨?_, ?_, ?_, ?_⟩ <;> norm_num

/-- C16 as stated fails: when the clock reads a time within the first second of
the epoch (`tv_sec = 0`), the call after it is again treated as a first call. -/
theorem C16_epoch_clock_counterexample :
    (IMUupdate (IMUupdate initState f1 f0 f0 f0 f0 f1 ⟨0, 500000⟩ ⟨f0, f0, f0, f0⟩).1
        f1 f0 f0 f0 f0 f1 ⟨0, 600000⟩ ⟨f0, f0, f0, f0⟩)
      = ({ initState with last_tv := ⟨0, 600000⟩ }, ⟨f0, f0, f0, f0⟩) ∧
    (steadyStep twoKpDef twoKiDef
        (IMUupdate initState f1 f0 f0 f0 f0 f1 ⟨0, 500000⟩ ⟨f0, f0, f0, f0⟩).1
        f1 f0 f0 f0 f0 f1 ⟨0, 600000⟩).2 = ⟨⟨0x3f7f432f⟩, ⟨0x3d4c35bf⟩, f0, f0⟩ := by
  decide!

/-- C16 (amended): a call takes the steady-state path exactly when the clock
reading recorded by the call before it has `tv_sec ≠ 0`. After any sequence of
calls from any initial state, the last call `c` records its clock reading; the
next call `d` then is the steady-state step (integration, renormalisation and
the write of the output array) when `c.tv.tv_sec ≠ 0`, and only records its
clock reading, leaving the quaternion and the array alone, when
`c.tv.tv_sec = 0`. -/
theorem C16_steady_after_nonzero_clock (r : State × QArr) (cs : List Call) (c d : Call) :
    (runWith twoKpDef twoKiDef r (cs ++ [c])).1.last_tv = c.tv ∧
    (c.tv.tv_sec ≠ 0 →
      IMUupdate (runWith twoKpDef twoKiDef r (cs ++ [c])).1 d.gx d.gy d.gz d.ax d.ay d.az d.tv
          (runWith twoKpDef twoKiDef r (cs ++ [c])).2
        = steadyStep twoKpDef twoKiDef (runWith twoKpDef twoKiDef r (cs ++ [c])).1
            d.gx d.gy d.gz d.ax d.ay d.az d.tv) ∧
    (c.tv.tv_sec = 0 →
      IMUupdate (runWith twoKpDef twoKiDef r (cs ++ [c])).1 d.gx d.gy d.gz d.ax d.ay d.az d.tv
          (runWith twoKpDef twoKiDef r (cs ++ [c])).2
        = ({ (runWith twoKpDef twoKiDef r (cs ++ [c])).1 with last_tv := d.tv },
            (runWith twoKpDef twoKiDef r (cs ++ [c])).2)) := by
  have h := runWith_last_tv twoKpDef twoKiDef r cs c
  refine ⟨h, fun hc => ?_, fun hc => ?_⟩
  · exact IMUupdate_steady _ _ _ _ _ _ _ _ _ (by rw [h]; exact hc)
  · exact IMUupdateWith_first _ _ _ _ _ _ _ _ _ _ _ (by rw [h]; exact hc)

theorem C16_steady_after_nonzero_clock_witness :
    (⟨f1, f0, f0, f0, f0, f1, ⟨7, 0⟩⟩ : Call).tv.tv_sec ≠ 0 ∧
    IMUupdate (runWith twoKpDef twoKiDef (initState, identityQ)
        ([] ++ [⟨f1, f0, f0, f0, f0, f1, ⟨7, 0⟩⟩])).1 f1 f0 f0 f0 f0 f1 ⟨8, 0⟩
        (runWith twoKpDef twoKiDef (initState, identityQ)
          ([] ++ [⟨f1, f0, f0, f0, f0, f1, ⟨7, 0⟩⟩])).2
      = steadyStep twoKpDef twoKiDef (runWith twoKpDef twoKiDef (initState, identityQ)
          ([] ++ [⟨f1, f0, f0, f0, f0, f1, ⟨7, 0⟩⟩])).1 f1 f0 f0 f0 f0 f1 ⟨8, 0⟩ :=
  ⟨by decide, (C16_steady_after_nonzero_clock (initState, identityQ) []
      ⟨f1, f0, f0, f0, f0, f1, ⟨7, 0⟩⟩ ⟨f1, f0, f0, f0, f0, f1, ⟨8, 0⟩⟩).2.1 (by decide)⟩

/-- C17: in a steady-state call whose accelerometer reading is `(0,0,0)` (each
component compares equal to `0.0f`), the correction block is skipped: the
gyro rates that enter the integration are the readings themselves and the
integral feedback accumulator is the one of the state before the call. -/
theorem C17_zero_accel_skips_correction (s : State) (gx gy gz ax ay az : F32)
    (tv : Timeval) (q : QArr) (hs : s.last_tv.tv_sec ≠ 0)
    (hx : F32.eq ax f0 = true) (hy : F32.eq ay f0 = true) (hz : F32.eq az f0 = true) :
    ((feedback twoKpDef twoKiDef s gx gy gz ax ay az tv).gx = gx ∧
      (feedback twoKpDef twoKiDef s gx gy gz ax ay az tv).gy = gy ∧
      (feedback twoKpDef twoKiDef s gx gy gz ax ay az tv).gz = gz) ∧
    ((IMUupdate s gx gy gz ax ay az tv q).1.integralFBx = s.integralFBx ∧
      (IMUupdate s gx gy gz ax ay az tv q).1.integralFBy = s.integralFBy ∧
      (IMUupdate s gx gy gz ax ay az tv q).1.integralFBz = s.integralFBz) ∧
    (IMUupdate s gx gy gz ax ay az tv q).2
      = normalise (integrate s gx gy gz
          (feedback twoKpDef twoKiDef s gx gy gz ax ay az tv).timeDiff) := by
  rw [IMUupdate_steady s gx gy gz ax ay az tv q hs]
  simp [steadyStep, feedback, hx, hy, hz]

theorem C17_zero_accel_skips_correction_witness :
    (steadyIdentity.last_tv.tv_sec ≠ 0 ∧ F32.eq f0 f0 = true) ∧
    (IMUupdate steadyIdentity f1 f0 f0 f0 f0 f0 ⟨2, 0⟩ identityQ).1.integralFBx
      = steadyIdentity.integralFBx :=
  ⟨⟨by decide, by decide⟩,
    (C17_zero_accel_skips_correction steadyIdentity f1 f0 f0 f0 f0 f0 ⟨2, 0⟩ identityQ
      (by decide) (by decide) (by decide) (by decide)).2.1.1⟩

/-- C18 as stated fails: with the accelerometer `(0, 0, 2^64)` the sum of
squares overflows to infinity, `invSqrt` returns minus infinity and the
quaternion and the accumulator become NaN. -/
theorem C18_overflow_counterexample :
    IMUupdate ⟨f1, f0, f0, f0, f0, f0, f0, ⟨1, 0⟩⟩ f0 f0 f0 f0 f0 ⟨0x5f800000⟩ ⟨2, 0⟩ identityQ
      = (⟨F32.nan, F32.nan, F32.nan, F32.nan, F32.nan, F32.nan, F32.nan, ⟨2, 0⟩⟩,
          ⟨F32.nan, F32.nan, F32.nan, F32.nan⟩) ∧
    F32.gt ⟨0x5f800000⟩ f0 = true ∧ (F32.mk 0x5f800000).isFinite = true ∧
    F32.gt F32.nan f0 = false := by
  decide!

/-- C18 (amended): the aligned identity is a fixed point for accelerometer
readings `(0, 0, k)` with `0 < k ≤ 2^63`, for which `k * k` does not overflow.
With the stored quaternion `(1,0,0,0)`, the accumulator `(0,0,0)`, zero gyro
rates and any clock readings whose fields fit in a `long`, a steady-state call
computes the halved error `(0,0,0)`, leaves the accumulator at `(0,0,0)` and
stores and returns the quaternion `(0.99830717, 0, 0, 0)`. -/
theorem C18_aligned_identity_fixed_point (k : F32) (l tv : Timeval) (q : QArr)
    (hl : l.tv_sec ≠ 0) (h1 : 0 < k.toRat) (h2 : k.toRat ≤ 2 ^ 63)
    (ht1 : (tv.tv_sec - l.tv_sec).natAbs ≤ 2 ^ 64)
    (ht2 : (tv.tv_usec - l.tv_usec).natAbs ≤ 2 ^ 64) :
    halfe ⟨f1, f0, f0, f0, f0, f0, f0, l⟩ (f0 * accRecipNorm f0 f0 k)
      (f0 * accRecipNorm f0 f0 k) (k * accRecipNorm f0 f0 k) = (f0, f0, f0) ∧
    IMUupdate ⟨f1, f0, f0, f0, f0, f0, f0, l⟩ f0 f0 f0 f0 f0 k tv q
      = (⟨⟨0x3f7f910f⟩, f0, f0, f0, f0, f0, f0, tv⟩, ⟨⟨0x3f7f910f⟩, f0, f0, f0⟩) ∧
    F32.gt ⟨0x3f7f910f⟩ f0 = true := by
  obtain ⟨a1, a2, a3⟩ := accel_vertical_gen k h1 h2
  have hdt := timeDiffOf_finite l tv ht1 ht2
  have hk0 : 0 < k.toRat := h1
  have hE : halfe ⟨f1, f0, f0, f0, f0, f0, f0, l⟩ (f0 * accRecipNorm f0 f0 k)
      (f0 * accRecipNorm f0 f0 k) (k * accRecipNorm f0 f0 k) = (f0, f0, f0) := by
    rw [a1]; exact halfe_aligned l _ a2 a3
  refine ⟨hE, ?_, by decide⟩
  have hv : (F32.eq f0 f0 && F32.eq f0 f0 && F32.eq k f0) = false := by
    rw [eq_f0_false_of_pos k hk0]; rfl
  have hfb := feedback_valid twoKpDef twoKiDef ⟨f1, f0, f0, f0, f0, f0, f0, l⟩ f0 f0 f0 f0 f0 k tv
    hv (by decide)
  rw [hE] at hfb
  have c1 : twoKiDef * f0 = f0 := by decide
  have c2 : twoKpDef * f0 = f0 := by decide
  have c3 : f0 + (f0 + F32.zero (timeDiffOf l tv).sign) + f0 = f0 := by
    cases (timeDiffOf l tv).sign <;> decide
  have c4 : f0 + F32.zero (timeDiffOf l tv).sign = f0 := by
    cases (timeDiffOf l tv).sign <;> decide
  have c5 : f0 + f0 + f0 = f0 := by decide
  simp only [c1, c2, zero_mul_fin _ hdt, c3, c4, c5] at hfb
  rw [IMUupdate_steady _ _ _ _ _ _ _ _ _ hl]
  simp only [steadyStep, hfb, integrate_identity_zero l _ hdt]

theorem C18_aligned_identity_fixed_point_witness :
    ((0 : ℚ) < f1.toRat ∧ f1.toRat ≤ 2 ^ 63) ∧
    IMUupdate ⟨f1, f0, f0, f0, f0, f0, f0, ⟨1, 0⟩⟩ f0 f0 f0 f0 f0 f1 ⟨2, 0⟩ identityQ
      = (⟨⟨0x3f7f910f⟩, f0, f0, f0, f0, f0, f0, ⟨2, 0⟩⟩, ⟨⟨0x3f7f910f⟩, f0, f0, f0⟩) :=
  ⟨⟨by rw [toRat_f1]; norm_num, by rw [toRat_f1]; norm_num⟩,
    (C18_aligned_identity_fixed_point f1 ⟨1, 0⟩ ⟨2, 0⟩ identityQ (by decide)
      (by rw [toRat_f1]; norm_num) (by rw [toRat_f1]; norm_num) (by decide) (by decide)).2.1⟩

/-- C19: `ahrsInit` assigns only `q0..q3`: for every prior state the integral
feedback accumulator (and the recorded timestamp) is unchanged. In the
steady-state update after the reset, for an accelerometer reading that is not
the zero vector, the accumulator kept from before the reset is the one that is
advanced by `twoKiDef * halfe * timeDiff` and added to the gyro reading.
Instance: with the accumulator `(1,0,0)` kept across the reset, zero gyro
rates, accelerometer `(0,0,1)` and one second elapsed, the update returns
`(0.8942820, 0.4471410, 0, 0)`, while with an empty accumulator it returns
`(0.99830717, 0, 0, 0)`. -/
theorem C19_init_keeps_accumulator (s : State) (gx gy gz ax ay az : F32) (tv : Timeval)
    (hv : (F32.eq ax f0 && F32.eq ay f0 && F32.eq az f0) = false) :
    ((ahrsInit s).integralFBx = s.integralFBx ∧ (ahrsInit s).integralFBy = s.integralFBy ∧
      (ahrsInit s).integralFBz = s.integralFBz ∧ (ahrsInit s).last_tv = s.last_tv ∧
      (ahrsInit s).quat = identityQ) ∧
    ((feedback twoKpDef twoKiDef (ahrsInit s) gx gy gz ax ay az tv).integralFBx
        = s.integralFBx + twoKiDef * (halfe (ahrsInit s) (ax * accRecipNorm ax ay az)
            (ay * accRecipNorm ax ay az) (az * accRecipNorm ax ay az)).1
              * timeDiffOf s.last_tv tv ∧
      (feedback twoKpDef twoKiDef (ahrsInit s) gx gy gz ax ay az tv).integralFBy
        = s.integralFBy + twoKiDef * (halfe (ahrsInit s) (ax * accRecipNorm ax ay az)
            (ay * accRecipNorm ax ay az) (az * accRecipNorm ax ay az)).2.1
              * timeDiffOf s.last_tv tv ∧
      (feedback twoKpDef twoKiDef (ahrsInit s) gx gy gz ax ay az tv).integralFBz
        = s.integralFBz + twoKiDef * (halfe (ahrsInit s) (ax * accRecipNorm ax ay az)
            (ay * accRecipNorm ax ay az) (az * accRecipNorm ax ay az)).2.2
              * timeDiffOf s.last_tv tv) ∧
    ((feedback twoKpDef twoKiDef (ahrsInit s) gx gy gz ax ay az tv).gx
        = gx + (feedback twoKpDef twoKiDef (ahrsInit s) gx gy gz ax ay az tv).integralFBx
          + twoKpDef * (halfe (ahrsInit s) (ax * accRecipNorm ax ay az)
            (ay * accRecipNorm ax ay az) (az * accRecipNorm ax ay az)).1 ∧
      (feedback twoKpDef twoKiDef (ahrsInit s) gx gy gz ax ay az tv).gy
        = gy + (feedback twoKpDef twoKiDef (ahrsInit s) gx gy gz ax ay az tv).integralFBy
          + twoKpDef * (halfe (ahrsInit s) (ax * accRecipNorm ax ay az)
            (ay * accRecipNorm ax ay az) (az * accRecipNorm ax ay az)).2.1 ∧
      (feedback twoKpDef twoKiDef (ahrsInit s) gx gy gz ax ay az tv).gz
        = gz + (feedback twoKpDef twoKiDef (ahrsInit s) gx gy gz ax ay az tv).integralFBz
          + twoKpDef * (halfe (ahrsInit s) (ax * accRecipNorm ax ay az)
            (ay * accRecipNorm ax ay az) (az * accRecipNorm ax ay az)).2.2) ∧
    ((IMUupdate (ahrsInit ⟨⟨0x3f000000⟩, ⟨0x3f000000⟩, ⟨0x3f000000⟩, ⟨0x3f000000⟩,
          f1, f0, f0, ⟨1, 0⟩⟩) f0 f0 f0 f0 f0 f1 ⟨2, 0⟩ identityQ).2
        = ⟨⟨0x3f64efab⟩, ⟨0x3ee4efab⟩, f0, f0⟩ ∧
      (IMUupdate (ahrsInit ⟨⟨0x3f000000⟩, ⟨0x3f000000⟩, ⟨0x3f000000⟩, ⟨0x3f000000⟩,
          f0, f0, f0, ⟨1, 0⟩⟩) f0 f0 f0 f0 f0 f1 ⟨2, 0⟩ identityQ).2
        = ⟨⟨0x3f7f910f⟩, f0, f0, f0⟩) := by
  have hfb := feedback_valid twoKpDef twoKiDef (ahrsInit s) gx gy gz ax ay az tv hv (by decide)
  refine ⟨⟨rfl, rfl, rfl, rfl, ahrsInit_quat s⟩, ?_, ?_, by decide!⟩
  · rw [hfb]; exact ⟨rfl, rfl, rfl⟩
  · rw [hfb]; exact ⟨rfl, rfl, rfl⟩

theorem C19_init_keeps_accumulator_witness :
    (F32.eq f0 f0 && F32.eq f0 f0 && F32.eq f1 f0) = false ∧
    (ahrsInit ⟨f0_5, f0_5, f0_5, f0_5, f1, f0, f0, ⟨1, 0⟩⟩).integralFBx = f1 :=
  ⟨by decide, (C19_init_keeps_accumulator ⟨f0_5, f0_5, f0_5, f0_5, f1, f0, f0, ⟨1, 0⟩⟩
    f0 f0 f0 f0 f0 f1 ⟨2, 0⟩ (by decide)).1.1⟩

end Ahrs
